import Mathlib

/-!
Verification of the Pawn language-service core (scanner/extractor, include
resolution, dependency reference counting, cursor/reference resolution).

The TypeScript sources are embedded shallowly: strings are `List Char`,
JavaScript string primitives (`substring`, `indexOf`, `trim`, `split`,
character indexing that yields `undefined` out of range) are modelled
explicitly, and each source function is translated into a Lean definition of
the same name.  Regular expressions used by the source are translated into
the deterministic matching procedures they denote on the inputs the source
feeds them.
-/

set_option maxHeartbeats 1000000

/-- Strings are modelled as lists of characters. -/
abbrev Str := List Char

/-- Convenience: build a `Str` from a Lean string literal. -/
def str (s : String) : Str := s.data

/-- JavaScript whitespace class (the characters relevant to this code base:
space, tab, newline, carriage return, vertical tab, form feed). -/
def jsWhitespaceChar (c : Char) : Bool :=
  c = ' ' || c = '\t' || c = '\n' || c = '\r' || c = '\x0b' || c = '\x0c'

/-- `String.prototype.trim`: strip leading and trailing whitespace. -/
def jsTrim (s : Str) : Str :=
  ((s.dropWhile jsWhitespaceChar).reverse.dropWhile jsWhitespaceChar).reverse

/-- Character access `s[i]`: `undefined` out of range becomes `none`. -/
def charAt (s : Str) (i : Nat) : Option Char := s.get? i

/-- Does `sub` occur in `s` starting exactly at index `i`? -/
def matchAt (s sub : Str) (i : Nat) : Bool :=
  decide (sub <+: s.drop i)

/-- `String.prototype.indexOf(sub, from)`: the least index `≥ from` where
`sub` occurs, or `none` (JavaScript's `-1`). -/
def jsIndexOfFrom (s sub : Str) (start : Nat) : Option Nat :=
  (List.range (s.length + 1)).find? (fun i => start ≤ i && matchAt s sub i)

/-- `String.prototype.indexOf(sub)`. -/
def jsIndexOf (s sub : Str) : Option Nat := jsIndexOfFrom s sub 0

/-- Take the slice `[a, b)` of `s` (both already clamped, `a ≤ b`). -/
def sliceN (s : Str) (a b : Nat) : Str := (s.drop a).take (b - a)

/-- `String.prototype.substring(a, b)`: clamp both arguments to `[0, len]`
and swap them when given in the wrong order. -/
def jsSubstring (s : Str) (a b : Nat) : Str :=
  let a' := min a s.length
  let b' := min b s.length
  sliceN s (min a' b') (max a' b')

/-- `String.prototype.substring(a)`. -/
def jsSubstringFrom (s : Str) (a : Nat) : Str := jsSubstring s a s.length

/-- `content.split(/\r?\n/)`: split at every `\n`, also consuming a `\r`
immediately before it.  Always returns at least one (possibly empty) line. -/
def splitLines : Str → List Str
  | [] => [[]]
  | '\n' :: rest => [] :: splitLines rest
  | '\r' :: '\n' :: rest => [] :: splitLines rest
  | c :: rest =>
    match splitLines rest with
    | [] => [[c]]
    | l :: ls => (c :: l) :: ls

/-- `isEscapedQuote` from `parser.ts`: the character before index `i` is a
backslash or a caret. -/
def isEscapedQuote (text : Str) (index : Nat) : Bool :=
  if index = 0 then false
  else
    match charAt text (index - 1) with
    | some p => p = '\\' || p = '^'
    | none => false

/-- One piece returned by `splitTopLevelComma`: the piece's text and the
index in the input at which it starts. -/
structure SplitPart where
  text : Str
  start : Nat
deriving Repr, DecidableEq

/-- The scanning loop of `splitTopLevelComma`: `rest` is the suffix of
`text` starting at index `i`; `start` is where the current piece began;
the depth counters and the string flag are the loop's state. -/
def splitTopLevelCommaGo (text : Str) :
    Str → Nat → Nat → Nat → Nat → Nat → Bool → List SplitPart
  | [], _, start, _, _, _, _ => [⟨sliceN text start text.length, start⟩]
  | ch :: rest', i, start, dParen, dBracket, dBrace, inString =>
    if inString then
      if ch = '"' && !isEscapedQuote text i then
        splitTopLevelCommaGo text rest' (i+1) start dParen dBracket dBrace false
      else
        splitTopLevelCommaGo text rest' (i+1) start dParen dBracket dBrace true
    else if ch = '"' && !isEscapedQuote text i then
      splitTopLevelCommaGo text rest' (i+1) start dParen dBracket dBrace true
    else if ch = '(' then
      splitTopLevelCommaGo text rest' (i+1) start (dParen+1) dBracket dBrace inString
    else if ch = ')' then
      splitTopLevelCommaGo text rest' (i+1) start (dParen-1) dBracket dBrace inString
    else if ch = '[' then
      splitTopLevelCommaGo text rest' (i+1) start dParen (dBracket+1) dBrace inString
    else if ch = ']' then
      splitTopLevelCommaGo text rest' (i+1) start dParen (dBracket-1) dBrace inString
    else if ch = '\x7b' then
      splitTopLevelCommaGo text rest' (i+1) start dParen dBracket (dBrace+1) inString
    else if ch = '\x7d' then
      splitTopLevelCommaGo text rest' (i+1) start dParen dBracket (dBrace-1) inString
    else if ch = ',' && dParen = 0 && dBracket = 0 && dBrace = 0 then
      ⟨sliceN text start i, start⟩ ::
        splitTopLevelCommaGo text rest' (i+1) (i+1) dParen dBracket dBrace inString
    else
      splitTopLevelCommaGo text rest' (i+1) start dParen dBracket dBrace inString

/-- `splitTopLevelComma` from `parser.ts`: split a string at the commas not
nested inside parentheses, square brackets, braces or a double-quoted
string, remembering each piece's start offset. -/
def splitTopLevelComma (text : Str) : List SplitPart :=
  splitTopLevelCommaGo text text 0 0 0 0 0 false

/-! ### Nesting state: the specification-side description of "nested"

`NestSt` and `nestStateAt` describe, in the words of the claim, when a
position of the input is nested inside parentheses, square brackets, braces
or a double-quoted string.  They are used to compare `splitTopLevelComma`'s
split points against that description. -/

structure NestSt where
  dParen : Nat
  dBracket : Nat
  dBrace : Nat
  inString : Bool
deriving Repr, DecidableEq

/-- How one character changes the nesting state at position `i` of `text`. -/
def nestStep (text : Str) (i : Nat) (st : NestSt) (ch : Char) : NestSt :=
  if st.inString then
    if ch = '"' && !isEscapedQuote text i then { st with inString := false } else st
  else if ch = '"' && !isEscapedQuote text i then { st with inString := true }
  else if ch = '(' then { st with dParen := st.dParen + 1 }
  else if ch = ')' then { st with dParen := st.dParen - 1 }
  else if ch = '[' then { st with dBracket := st.dBracket + 1 }
  else if ch = ']' then { st with dBracket := st.dBracket - 1 }
  else if ch = '\x7b' then { st with dBrace := st.dBrace + 1 }
  else if ch = '\x7d' then { st with dBrace := st.dBrace - 1 }
  else st

/-- The not-nested state. -/
def nestInit : NestSt := ⟨0, 0, 0, false⟩

/-- The nesting state after reading the first `i` characters of `text`. -/
def nestStateAt (text : Str) : Nat → NestSt
  | 0 => nestInit
  | n + 1 =>
    match charAt text n with
    | some c => nestStep text n (nestStateAt text n) c
    | none => nestStateAt text n

/-- The indices of the commas of `text` that are not nested. -/
def topLevelCommaIdx (text : Str) : List Nat :=
  (List.range text.length).filter
    (fun j => charAt text j = some ',' && nestStateAt text j == nestInit)

/-- Concatenating pieces back together with single commas between them. -/
def joinParts : List SplitPart → Str
  | [] => []
  | [p] => p.text
  | p :: q :: ps => p.text ++ ',' :: joinParts (q :: ps)

lemma splitTopLevelCommaGo_ne_nil (text : Str) :
    ∀ (rest : Str) (i start dp db dbr : Nat) (instr : Bool),
      splitTopLevelCommaGo text rest i start dp db dbr instr ≠ [] := by
  intro rest
  induction rest with
  | nil => intro i start dp db dbr instr; simp [splitTopLevelCommaGo]
  | cons ch rest' ih =>
    intro i start dp db dbr instr
    simp only [splitTopLevelCommaGo]
    split_ifs <;> first
      | exact ih _ _ _ _ _ _
      | exact List.cons_ne_nil _ _

lemma splitTopLevelCommaGo_cons (text rest' : Str) (i start dp db dbr : Nat)
    (instr : Bool) (ch : Char) :
    splitTopLevelCommaGo text (ch :: rest') i start dp db dbr instr =
      if instr = false ∧ ch = ',' ∧ dp = 0 ∧ db = 0 ∧ dbr = 0 then
        ⟨sliceN text start i, start⟩ ::
          splitTopLevelCommaGo text rest' (i+1) (i+1) dp db dbr instr
      else
        splitTopLevelCommaGo text rest' (i+1) start
          (nestStep text i ⟨dp, db, dbr, instr⟩ ch).dParen
          (nestStep text i ⟨dp, db, dbr, instr⟩ ch).dBracket
          (nestStep text i ⟨dp, db, dbr, instr⟩ ch).dBrace
          (nestStep text i ⟨dp, db, dbr, instr⟩ ch).inString := by
  simp only [splitTopLevelCommaGo, nestStep]
  split_ifs <;> simp_all

lemma splitTopLevelCommaGo_spec (text : Str) :
    ∀ (rest : Str) (i start dp db dbr : Nat) (instr : Bool),
      rest = text.drop i → start ≤ i →
      nestStateAt text i = ⟨dp, db, dbr, instr⟩ →
      joinParts (splitTopLevelCommaGo text rest i start dp db dbr instr)
          = text.drop start
      ∧ (splitTopLevelCommaGo text rest i start dp db dbr instr).map SplitPart.start
          = start :: ((List.range' i (text.length - i)).filter
              (fun j => charAt text j = some ',' && nestStateAt text j == nestInit)).map
                (· + 1)
      ∧ ∀ p ∈ splitTopLevelCommaGo text rest i start dp db dbr instr,
          ∃ k, p.text = (text.drop p.start).take k := by
  intro rest
  induction rest with
  | nil =>
    intro i start dp db dbr instr hdrop hsi hst
    have hlen : text.length ≤ i := by
      have h := congrArg List.length hdrop
      simp [List.length_drop] at h
      omega
    have hni : text.length - i = 0 := by omega
    refine ⟨?_, ?_, ?_⟩
    · show joinParts [⟨sliceN text start text.length, start⟩] = text.drop start
      show sliceN text start text.length = text.drop start
      unfold sliceN
      exact List.take_of_length_le (by simp [List.length_drop])
    · simp [splitTopLevelCommaGo, hni]
    · intro p hp
      simp [splitTopLevelCommaGo] at hp
      exact ⟨text.length - start, by subst hp; rfl⟩
  | cons ch rest' ih =>
    intro i start dp db dbr instr hdrop hsi hst
    have hi : i < text.length := by
      have h := congrArg List.length hdrop
      simp [List.length_drop] at h
      omega
    have hchar : charAt text i = some ch := by
      have h0 : (text.drop i).get? 0 = some ch := by rw [← hdrop]; rfl
      rw [List.get?_drop] at h0
      simpa [charAt] using h0
    have hrest : rest' = text.drop (i + 1) := by
      have h1 : List.drop 1 (List.drop i text) = List.drop (i + 1) text :=
        List.drop_drop 1 i text
      rw [← hdrop] at h1
      simpa using h1
    have hstep : nestStateAt text (i + 1) = nestStep text i ⟨dp, db, dbr, instr⟩ ch := by
      rw [← hst]
      simp [nestStateAt, hchar]
    have hsplit : text.length - i = (text.length - (i + 1)) + 1 := by omega
    rw [splitTopLevelCommaGo_cons]
    by_cases hc : instr = false ∧ ch = ',' ∧ dp = 0 ∧ db = 0 ∧ dbr = 0
    · rw [if_pos hc]
      obtain ⟨hinstr, hch, hdp, hdb, hdbr⟩ := hc
      subst hinstr hch hdp hdb hdbr
      have hstep' : nestStateAt text (i + 1) = ⟨0, 0, 0, false⟩ := by
        rw [hstep]; simp +decide [nestStep]
      obtain ⟨ih1, ih2, ih3⟩ := ih (i + 1) (i + 1) 0 0 0 false hrest (le_refl _) hstep'
      have hqi : (decide (charAt text i = some ',') && (nestStateAt text i == nestInit))
          = true := by
        simp [hchar, hst, nestInit]
      refine ⟨?_, ?_, ?_⟩
      · cases hgo : splitTopLevelCommaGo text rest' (i+1) (i+1) 0 0 0 false with
        | nil => exact absurd hgo (splitTopLevelCommaGo_ne_nil text _ _ _ _ _ _ _)
        | cons y l =>
          show sliceN text start i ++ ',' :: joinParts (y :: l) = text.drop start
          rw [← hgo, ih1]
          have hdd : (text.drop start).drop (i - start) = text.drop i := by
            rw [List.drop_drop]
            congr 1
            omega
          have hsplit2 : text.drop start
              = (text.drop start).take (i - start) ++ (text.drop start).drop (i - start) :=
            (List.take_append_drop _ _).symm
          rw [← hdrop] at hdd
          rw [hsplit2, hdd, hrest]
          rfl
      · rw [List.map_cons, ih2, hsplit, List.range'_succ, List.filter_cons, if_pos hqi,
          List.map_cons]
      · intro p hp
        rcases List.mem_cons.mp hp with h | h
        · exact ⟨i - start, by subst h; rfl⟩
        · exact ih3 p h
    · rw [if_neg hc]
      have hstep2 : nestStateAt text (i + 1)
          = ⟨(nestStep text i ⟨dp, db, dbr, instr⟩ ch).dParen,
             (nestStep text i ⟨dp, db, dbr, instr⟩ ch).dBracket,
             (nestStep text i ⟨dp, db, dbr, instr⟩ ch).dBrace,
             (nestStep text i ⟨dp, db, dbr, instr⟩ ch).inString⟩ := by
        rw [hstep]
      obtain ⟨ih1, ih2, ih3⟩ := ih (i + 1) start _ _ _ _ hrest (by omega) hstep2
      have hqi : ¬((decide (charAt text i = some ',') && (nestStateAt text i == nestInit))
          = true) := by
        intro h
        rw [Bool.and_eq_true] at h
        obtain ⟨h1, h2⟩ := h
        rw [decide_eq_true_iff] at h1
        rw [beq_iff_eq] at h2
        rw [hchar] at h1
        injection h1 with h1
        rw [hst] at h2
        rw [show nestInit = (⟨0, 0, 0, false⟩ : NestSt) from rfl] at h2
        simp only [NestSt.mk.injEq] at h2
        exact hc ⟨h2.2.2.2, h1, h2.1, h2.2.1, h2.2.2.1⟩
      refine ⟨ih1, ?_, ih3⟩
      rw [ih2, hsplit, List.range'_succ, List.filter_cons, if_neg hqi]

lemma take_min_length (l : List Char) (k : Nat) :
    l.take (min k l.length) = l.take k := by
  by_cases h : k ≤ l.length
  · rw [Nat.min_eq_left h]
  · rw [Nat.min_eq_right (by omega)]
    rw [List.take_length, List.take_of_length_le (by omega)]

/-- C9: `splitTopLevelComma` partitions its input: concatenating the
returned part texts interleaved with single commas reconstructs the input
exactly, the returned start offsets are 0 followed by (index + 1) for every
comma at which the input is not nested, each part's text is the slice of
the input beginning at its start offset, and a comma nested inside
parentheses, square brackets, braces or a double-quoted string never starts
a new part. -/
theorem C9_splitTopLevelComma_partition (text : Str) :
    joinParts (splitTopLevelComma text) = text
    ∧ (splitTopLevelComma text).map SplitPart.start
        = 0 :: (topLevelCommaIdx text).map (· + 1)
    ∧ (∀ p ∈ splitTopLevelComma text, p.text = (text.drop p.start).take p.text.length)
    ∧ (∀ i, charAt text i = some ',' → nestStateAt text i ≠ nestInit →
        (i + 1) ∉ (splitTopLevelComma text).map SplitPart.start) := by
  obtain ⟨h1, h2, h3⟩ :=
    splitTopLevelCommaGo_spec text text 0 0 0 0 0 false rfl (le_refl 0) rfl
  have h2' : (splitTopLevelComma text).map SplitPart.start
      = 0 :: (topLevelCommaIdx text).map (· + 1) := by
    rw [splitTopLevelComma, h2, topLevelCommaIdx, List.range_eq_range']
    rfl
  refine ⟨by simpa [splitTopLevelComma] using h1, h2', ?_, ?_⟩
  · intro p hp
    obtain ⟨k, hk⟩ := h3 p hp
    rw [hk, List.length_take, take_min_length]
  · intro i hcomma hne hmem
    rw [h2'] at hmem
    rcases List.mem_cons.mp hmem with h | h
    · omega
    · obtain ⟨j, hj, hji⟩ := List.mem_map.mp h
      have hji' : j = i := by omega
      subst hji'
      have := List.of_mem_filter hj
      rw [Bool.and_eq_true, beq_iff_eq] at this
      exact hne this.2

theorem C9_splitTopLevelComma_partition_witness :
    joinParts (splitTopLevelComma (str "x,(a,b)")) = str "x,(a,b)"
    ∧ (4 + 1) ∉ (splitTopLevelComma (str "x,(a,b)")).map SplitPart.start :=
  ⟨(C9_splitTopLevelComma_partition (str "x,(a,b)")).1,
   (C9_splitTopLevelComma_partition (str "x,(a,b)")).2.2.2 4 (by decide) (by decide)⟩

/-! ### String helpers

Modelled from the spec: the `string-helpers` module is not among the
provided sources; §4.3 describes identifier tokens as
"alphanumeric/underscore/`@`-prefixed runs" and the parser treats `@` and
`_` as identifier characters throughout, so the character classes are the
usual ASCII ones extended with `_` and `@`. -/

namespace StringHelpers

def isDigit (c : Char) : Bool := '0' ≤ c && c ≤ '9'

def isAlpha (c : Char) : Bool :=
  ('a' ≤ c && c ≤ 'z') || ('A' ≤ c && c ≤ 'Z') || c = '_' || c = '@'

def isAlphaNum (c : Char) : Bool := isAlpha c || isDigit c

def isWhitespace (c : Char) : Bool := jsWhitespaceChar c

def reverse (s : Str) : Str := s.reverse

end StringHelpers

/-- `StringHelpers.isWhitespace` applied to a possibly-undefined character:
`isWhitespace(undefined)` is false in JavaScript. -/
def isWhitespaceOpt : Option Char → Bool
  | some c => StringHelpers.isWhitespace c
  | none => false

/-! ### The data model of `types.ts` -/

structure Position where
  line : Nat
  character : Nat
deriving Repr, DecidableEq

/-- A range; the source's `end` field is called `stop` here (`end` is a Lean
keyword). -/
structure Range where
  start : Position
  stop : Position
deriving Repr, DecidableEq

inductive DiagnosticSeverity where
  | error
  | information
deriving Repr, DecidableEq

structure Diagnostic where
  message : Str
  severity : DiagnosticSeverity
  source : Str
  range : Range
deriving Repr, DecidableEq

structure InclusionDescriptor where
  filename : Str
  isLocal : Bool
  isSilent : Bool
  start : Position
  stop : Position
deriving Repr, DecidableEq

structure ParameterInformation where
  label : Str
deriving Repr, DecidableEq

/-- `CallableDescriptor`; the `file` URI is kept as a string. -/
structure CallableDescriptor where
  label : Str
  identifier : Str
  isMacro : Bool
  file : Str
  start : Position
  stop : Position
  parameters : List ParameterInformation
  documentaton : Str
deriving Repr, DecidableEq

/-- `ValueDescriptor`; optional fields of the TypeScript interface become
`Option`s (or `Bool`s defaulting to `false` for the flag fields). -/
structure ValueDescriptor where
  identifier : Str
  label : Str
  isConst : Bool
  isEnumMember : Bool := false
  isEnumType : Bool := false
  enumGroup : Option Str := none
  assignedValue : Option Str := none
  inlineComment : Option Str := none
  file : Str
  range : Range
  documentaton : Str
deriving Repr, DecidableEq

structure ParserResults where
  headerInclusions : List InclusionDescriptor := []
  callables : List CallableDescriptor := []
  values : List ValueDescriptor := []
  diagnostics : List Diagnostic := []
deriving Repr, DecidableEq

def pushInclusion (r : ParserResults) (h : InclusionDescriptor) : ParserResults :=
  { r with headerInclusions := r.headerInclusions ++ [h] }

def pushCallable (r : ParserResults) (c : CallableDescriptor) : ParserResults :=
  { r with callables := r.callables ++ [c] }

def pushValue (r : ParserResults) (v : ValueDescriptor) : ParserResults :=
  { r with values := r.values ++ [v] }

def pushValues (r : ParserResults) (vs : List ValueDescriptor) : ParserResults :=
  { r with values := r.values ++ vs }

def pushDiag (r : ParserResults) (d : Diagnostic) : ParserResults :=
  { r with diagnostics := r.diagnostics ++ [d] }

/-- `Number.MAX_VALUE`, used as an effectively-infinite column number. -/
def numberMaxValue : Nat := 2 ^ 1024

/-! ### Regex character classes and runs used by the parser's patterns -/

/-- `[A-Za-z_@]` — the first character of an identifier. -/
def identStartChar (c : Char) : Bool :=
  ('a' ≤ c && c ≤ 'z') || ('A' ≤ c && c ≤ 'Z') || c = '_' || c = '@'

/-- `[\w_@]` — a later character of an identifier. -/
def wordAtChar (c : Char) : Bool := identStartChar c || StringHelpers.isDigit c

/-- Length of the maximal `[A-Za-z_@][\w_@]*` run starting at `i` (0 when
none). -/
def identRunLen (s : Str) (i : Nat) : Nat :=
  match charAt s i with
  | some c =>
    if identStartChar c then 1 + ((s.drop (i+1)).takeWhile wordAtChar).length else 0
  | none => 0

/-- Length of the maximal `\s*` run starting at `i`. -/
def wsRunLen (s : Str) (i : Nat) : Nat :=
  ((s.drop i).takeWhile jsWhitespaceChar).length

/-- Skip the `\s*` run starting at `i`. -/
def skipWs (s : Str) (i : Nat) : Nat := i + wsRunLen s i

/-- The anchored match of `/^(?:([A-Za-z_@][\w_@]*)\s*:\s*)?([A-Za-z_@][\w_@]*)/`
(used for declaration pieces): returns the optional tag capture (empty when
absent, mirroring `match[1] ?? ''`) and the identifier capture.  The
optional tag group participates exactly when the whole first identifier run
is followed by `\s* : \s*` and another nonempty identifier run. -/
def matchDeclIdent (s : Str) : Option (Str × Str) :=
  let r1 := identRunLen s 0
  if r1 = 0 then none
  else
    let ident1 := sliceN s 0 r1
    let j := skipWs s r1
    if charAt s j = some ':' then
      let k := skipWs s (j + 1)
      let r2 := identRunLen s k
      if r2 = 0 then some ([], ident1)
      else some (ident1, sliceN s k (k + r2))
    else some ([], ident1)

/-- The anchored match of `/^enum\s+(?:_?\s*:\s*)?([A-Za-z_@][\w_@]*)/`:
the capture starts with `[A-Za-z_@]`, so it is never empty.  The optional
tag group participates only when a capturable identifier follows it;
otherwise the engine backtracks to the groupless alternative (capturing
from the first non-space character, e.g. the `_` of `enum _ x`), and when
that also starts no identifier run the whole regex fails. -/
def matchEnumName (s : Str) : Option Str :=
  if matchAt s (str "enum") 0 then
    let w := wsRunLen s 4
    if w = 0 then none
    else
      let k := 4 + w
      let tagEnd :=
        if charAt s k = some '_' then
          let j := skipWs s (k + 1)
          if charAt s j = some ':' then some (skipWs s (j + 1)) else none
        else if charAt s k = some ':' then some (skipWs s (k + 1)) else none
      let fallback :=
        let r0 := identRunLen s k
        if r0 = 0 then none else some (sliceN s k (k + r0))
      match tagEnd with
      | some t =>
        let r := identRunLen s t
        if r = 0 then fallback else some (sliceN s t (t + r))
      | none => fallback
  else none

/-! ### The callable prototype regex

`/((?:[A-Za-z_@][\w_@]*\s+)*)?([A-Za-z_@][\w_@]+\s*:\s*)?(?:\[[^\]]+\]\s*)*([A-Za-z_@][\w_@]+)\s*\((.*?)\)/`
matched at index 0 (the caller rejects any match elsewhere).  The
backtracking alternatives that can actually differ are the number of
leading `identifier\s+` repetitions (group 1), the presence of the tag
(group 2) and the number of `[...]` groups; each alternative's consumption
is otherwise forced.  Alternatives are tried greedily (longest / present
first), as the regex engine does. -/

structure CallableMatch where
  whole : Str
  g1 : Str
  g2 : Option Str
  g3 : Str
  g4 : Str
deriving Repr, DecidableEq

/-- End positions reachable by `(?:[A-Za-z_@][\w_@]*\s+)*` repetitions from
`p`, in increasing order (each repetition's consumption is forced). -/
def g1Chain (s : Str) : Nat → Nat → List Nat
  | 0, p => [p]
  | fuel + 1, p =>
    p :: (
      let r := identRunLen s p
      if r ≥ 1 then
        let w := wsRunLen s (p + r)
        if w ≥ 1 then g1Chain s fuel (p + r + w) else []
      else [])

/-- End positions reachable by `(?:\[[^\]]+\]\s*)*` repetitions from `p`,
in increasing order. -/
def bracketChain (s : Str) : Nat → Nat → List Nat
  | 0, p => [p]
  | fuel + 1, p =>
    p :: (
      if charAt s p = some '[' then
        let r := ((s.drop (p+1)).takeWhile (fun c => !(c = ']'))).length
        if r ≥ 1 && charAt s (p + 1 + r) = some ']' then
          bracketChain s fuel (skipWs s (p + 1 + r + 1))
        else []
      else [])

/-- Try `([A-Za-z_@][\w_@]+)\s*\((.*?)\)` at `b`: the identifier capture,
the lazily-matched parameter text (up to the first `)`, which `.` cannot
reach across a carriage return) and the end of the whole match. -/
def tryCallableTail (s : Str) (b : Nat) : Option (Nat × Str × Str) :=
  let r := identRunLen s b
  if r < 2 then none
  else
    let q := skipWs s (b + r)
    if charAt s q = some '(' then
      match jsIndexOfFrom s [')'] (q + 1) with
      | some e =>
        if (sliceN s (q + 1) e).contains '\r' then none
        else some (e + 1, sliceN s b (b + r), sliceN s (q + 1) e)
      | none => none
    else none

/-- Brackets then the tail, trying the longest bracket chain first. -/
def tryBracketsTail (s : Str) (p : Nat) : Option (Nat × Str × Str) :=
  ((bracketChain s (s.length + 1) p).reverse).findSome? (fun b => tryCallableTail s b)

/-- The optional tag group then brackets and tail; tag-present is tried
before tag-absent. -/
def tryTagBracketsTail (s : Str) (p : Nat) : Option (Option Str × Nat × Str × Str) :=
  let withTag : Option (Option Str × Nat × Str × Str) :=
    let r := identRunLen s p
    if r < 2 then none
    else
      let q := skipWs s (p + r)
      if charAt s q = some ':' then
        let q2 := skipWs s (q + 1)
        match tryBracketsTail s q2 with
        | some (e, g3, g4) => some (some (sliceN s p q2), e, g3, g4)
        | none => none
      else none
  match withTag with
  | some res => some res
  | none =>
    match tryBracketsTail s p with
    | some (e, g3, g4) => some (none, e, g3, g4)
    | none => none

/-- The whole callable regex, anchored at index 0 of `s`. -/
def callableMatchAt0 (s : Str) : Option CallableMatch :=
  ((g1Chain s (s.length + 1) 0).reverse).findSome? (fun p =>
    match tryTagBracketsTail s p with
    | some (g2, e, g3, g4) => some ⟨sliceN s 0 e, sliceN s 0 p, g2, g3, g4⟩
    | none => none)

/-! ### `readIdentifier`, `readSpecicifers` and label helpers -/

structure IdentifierResults where
  token : Str
  position : Nat
deriving Repr, DecidableEq

/-- `readIdentifier` from `parser.ts`: skip whitespace, copy an
identifier-shaped token; reaching a `;` reports position at the end of the
content ("a little hack"). -/
def readIdentifier (content : Str) (position : Nat) : IdentifierResults :=
  let p1 := position + ((content.drop position).takeWhile
      (fun c => !(c = ';') && StringHelpers.isWhitespace c)).length
  match charAt content p1 with
  | none => ⟨[], content.length⟩
  | some c =>
    if c = ';' then ⟨[], content.length⟩
    else if StringHelpers.isAlpha c then
      let restRun := ((content.drop (p1+1)).takeWhile
          (fun c2 => !(c2 = ';') && StringHelpers.isAlphaNum c2)).length
      let pos2 := p1 + 1 + restRun
      if charAt content pos2 = some ';' then ⟨sliceN content p1 pos2, content.length⟩
      else ⟨sliceN content p1 pos2, pos2⟩
    else ⟨[], p1⟩

structure SpecifierResults where
  isStatic : Bool
  isPublic : Bool
  isConst : Bool
  isStock : Bool
  position : Nat
  wrongCombination : Bool
deriving Repr, DecidableEq

/-- The `do … while` loop of `readSpecicifers` (fuel-based; the scan
position strictly increases, so the fuel never runs out on real inputs). -/
def readSpecLoop (content : Str) (initialConst : Bool) :
    Nat → SpecifierResults → Nat → SpecifierResults
  | 0, results, _ => results
  | fuel + 1, results, previousPosition =>
    let tr := readIdentifier content previousPosition
    if tr.token = str "static" then
      if results.isStatic || results.isPublic then
        { results with wrongCombination := true, position := tr.position }
      else if initialConst then
        { results with isStatic := true, wrongCombination := true, position := tr.position }
      else readSpecLoop content initialConst fuel
        { results with isStatic := true } tr.position
    else if tr.token = str "public" then
      if results.isPublic || results.isStatic then
        { results with wrongCombination := true, position := tr.position }
      else if initialConst then
        { results with isPublic := true, wrongCombination := true, position := tr.position }
      else readSpecLoop content initialConst fuel
        { results with isPublic := true } tr.position
    else if tr.token = str "const" then
      if results.isConst then
        { results with wrongCombination := true, position := tr.position }
      else if initialConst then
        { results with isConst := true, wrongCombination := true, position := tr.position }
      else readSpecLoop content initialConst fuel
        { results with isConst := true } tr.position
    else if tr.token = str "stock" then
      if results.isStock then
        { results with wrongCombination := true, position := tr.position }
      else if initialConst then
        { results with isStock := true, wrongCombination := true, position := tr.position }
      else readSpecLoop content initialConst fuel
        { results with isStock := true } tr.position
    else if tr.token = str "new" then
      { results with wrongCombination := true, position := tr.position }
    else
      { results with position := previousPosition }

/-- `readSpecicifers` from `parser.ts` (the source's spelling). -/
def readSpecicifers (content : Str) (position : Nat) (initialToken : Str) :
    SpecifierResults :=
  let results : SpecifierResults := {
    isStatic := initialToken = str "static"
    isPublic := initialToken = str "public"
    isConst := initialToken = str "const"
    isStock := initialToken = str "stock"
    position := position
    wrongCombination := false }
  readSpecLoop content (initialToken = str "const") (content.length + 2) results position

def createValueLabel (identifier tag : Str) (sr : SpecifierResults) : Str :=
  let l1 := (if sr.isPublic then str "public " else [])
    ++ (if sr.isStatic then str "static " else [])
    ++ (if sr.isStock then str "stock " else [])
    ++ (if sr.isConst then str "const " else [])
  let l2 := if l1 = [] then str "new " else l1
  let l3 := if tag ≠ [] then l2 ++ tag ++ [':'] else l2
  l3 ++ identifier

/-- `isSimpleDefineValue` from `parser.ts`. -/
def isSimpleDefineValue (value : Str) : Bool :=
  let text := jsTrim value
  if text.length = 0 then false
  else if text = str "true" || text = str "false" then true
  else if text.any StringHelpers.isDigit &&
      text.all (fun c => StringHelpers.isDigit c
        || ('A' ≤ c && c ≤ 'F') || ('a' ≤ c && c ≤ 'f') || c = 'x' || c = 'X'
        || jsWhitespaceChar c || c = '(' || c = ')' || c = '|' || c = '&'
        || c = '^' || c = '~' || c = '<' || c = '>' || c = '+' || c = '-'
        || c = '*' || c = '/' || c = '%') then true
  else if matchAt text (str "0x") 0 && text.length > 2 &&
      (text.drop 2).all (fun c => StringHelpers.isDigit c
        || ('a' ≤ c && c ≤ 'f') || ('A' ≤ c && c ≤ 'F')) then true
  else if text.length > 0 && text.all StringHelpers.isDigit then true
  else if text.length ≥ 2 && text.head? = some '"' && text.getLast? = some '"' &&
      (sliceN text 1 (text.length - 1)).all (fun c => !(c = '"')) then true
  else false

/-- `extractAssignedValue` from `parser.ts`. -/
def extractAssignedValue (part : Str) : Option Str :=
  match jsIndexOf part ['='] with
  | none => none
  | some eqIdx =>
    let v1 := jsTrim (jsSubstringFrom part (eqIdx + 1))
    let v2 := match jsIndexOf v1 (str "//") with
      | some i => jsTrim (jsSubstring v1 0 i)
      | none => v1
    let v3 := match jsIndexOf v2 (str "/*") with
      | some i => jsTrim (jsSubstring v2 0 i)
      | none => v2
    let v4 := if v3.getLast? = some ';' then jsTrim (jsSubstring v3 0 (v3.length - 1))
      else v3
    if v4.length > 0 then some v4 else none

/-- `extractInlineComment` from `parser.ts`. -/
def extractInlineComment (line : Str) : Option Str :=
  match jsIndexOf line (str "//") with
  | none => none
  | some idx =>
    let text := jsTrim (jsSubstringFrom line (idx + 2))
    if text.length > 0 then some text else none

/-- JavaScript `String.prototype.split(sep)` for a one-character separator. -/
def jsSplitChar (s : Str) (sep : Char) : List Str :=
  match s with
  | [] => [[]]
  | c :: rest =>
    if c = sep then [] :: jsSplitChar rest sep
    else
      match jsSplitChar rest sep with
      | [] => [[c]]
      | l :: ls => (c :: l) :: ls

/-- `parseVariableListLine` from `parser.ts`, returning the values it pushes
(in order). -/
def parseVariableListLine (lineContent rawLine : Str) (lineIndex : Nat)
    (fileUri : Str) (sr : Option SpecifierResults) (startOffset : Nat)
    (docComment : Str) : List ValueDescriptor :=
  match sr with
  | none => []
  | some sr =>
    let content := jsSubstringFrom lineContent startOffset
    let parts := splitTopLevelComma content
    let baseOffset := jsIndexOf rawLine lineContent
    let base := (match baseOffset with | some b => b | none => 0) + startOffset
    parts.filterMap (fun part =>
      let text := jsTrim part.text
      if text.length = 0 then none
      else
        match matchDeclIdent text with
        | none => none
        | some (tag, identifier) =>
          let identifierIndex := jsIndexOf part.text identifier
          let offset := base + part.start
          let startChar := match identifierIndex with
            | some ii => offset + ii
            | none => offset
          let endChar := startChar + identifier.length
          let assignedValue := if sr.isConst then extractAssignedValue part.text else none
          let simpleValue := match assignedValue with
            | some v => if isSimpleDefineValue v then some v else none
            | none => none
          some { identifier := identifier
                 label := createValueLabel identifier tag sr
                 isConst := sr.isConst
                 assignedValue := simpleValue
                 file := fileUri
                 range := ⟨⟨lineIndex, startChar⟩, ⟨lineIndex, endChar⟩⟩
                 documentaton := docComment })

/-- `parseEnumLine` from `parser.ts`, returning the values it pushes. -/
def parseEnumLine (lineContent rawLine : Str) (lineIndex : Nat) (fileUri : Str)
    (enumName : Option Str) (docComment : Str) : List ValueDescriptor :=
  let content1 := match jsIndexOf lineContent ['\x7b'] with
    | some openIdx => jsSubstringFrom lineContent (openIdx + 1)
    | none => lineContent
  let content := match jsIndexOf content1 ['\x7d'] with
    | some closeIdx => jsSubstring content1 0 closeIdx
    | none => content1
  let parts := splitTopLevelComma content
  let baseOffset := jsIndexOf rawLine lineContent
  let base := lineContent.length - content.length
  parts.filterMap (fun part =>
    let text := jsTrim part.text
    if text.length = 0 then none
    else
      match matchDeclIdent text with
      | none => none
      | some (_, identifier) =>
        let lineBase := match baseOffset with | some b => b | none => 0
        let offset := base + part.start
        let startChar := jsIndexOfFrom rawLine identifier (lineBase + offset)
        let endChar := match startChar with
          | some sc => sc + identifier.length
          | none => lineBase + offset + identifier.length
        some { identifier := identifier
               label := str "const " ++ identifier
               isConst := true
               isEnumMember := true
               enumGroup := enumName
               file := fileUri
               range := ⟨⟨lineIndex, match startChar with | some sc => sc | none => 0⟩,
                         ⟨lineIndex, endChar⟩⟩
               documentaton := docComment })

/-- `parseEnumName` from `parser.ts`: the enum type name (when the name
regex matches) together with the `isEnumType` value it pushes. -/
def parseEnumName (lineContent rawLine : Str) (lineIndex : Nat) (fileUri : Str)
    (docComment : Str) : Option (Str × ValueDescriptor) :=
  match matchEnumName lineContent with
  | none => none
  | some name =>
    let startChar := jsIndexOf rawLine name
    let stChar := match startChar with | some sc => sc | none => 0
    let endChar := match startChar with | some sc => sc + name.length | none => name.length
    some (name,
      { identifier := name
        label := str "enum " ++ name
        isConst := true
        isEnumType := true
        file := fileUri
        range := ⟨⟨lineIndex, stChar⟩, ⟨lineIndex, endChar⟩⟩
        documentaton := docComment })

/-- `handleBracketDepth` from `parser.ts`: the signed count of `{` minus
`}` over the whole line content. -/
def handleBracketDepth (lineContent : Str) : Int :=
  lineContent.foldl
    (fun d c => if c = '\x7b' then d + 1 else if c = '\x7d' then d - 1 else d) 0

/-- `handleMultilineComments` from `parser.ts`: strips `/* … */` comments,
accumulating the pending documentation comment.  The recursion is fuel-based
because the source's index arithmetic can grow the string (and then the
JavaScript original does not terminate); on every terminating run the fuel
below is sufficient. -/
def handleMultilineComments : Nat → Str → Bool → Str → (Str × Bool × Str)
  | 0, lineContent, inComment, dc => (jsTrim lineContent, inComment, dc)
  | fuel + 1, lineContent, inComment, dc =>
    if inComment then
      match jsIndexOf lineContent (str "*/") with
      | some e =>
        handleMultilineComments fuel (jsSubstringFrom lineContent (e + 2)) false
          (dc ++ jsSubstring lineContent 0 (e + 2))
      | none => (jsTrim lineContent, true, dc ++ lineContent ++ ['\n'])
    else
      match jsIndexOf lineContent (str "/*") with
      | some ci =>
        match jsIndexOf lineContent (str "*/") with
        | some ei =>
          handleMultilineComments fuel
            (jsSubstring lineContent 0 ci ++ jsSubstringFrom lineContent (ei + 2)) false
            (jsSubstring lineContent ci (ei + 2))
        | none =>
          (jsTrim (jsSubstring lineContent 0 ci), true,
            jsSubstringFrom lineContent ci ++ ['\n'])
      | none => (jsTrim lineContent, inComment, dc)

/-- `handleComments` from `parser.ts`: strip a `//` comment, then process
block comments. -/
def handleComments (lineContent : Str) (inComment : Bool) (dc : Str) :
    (Str × Bool × Str) :=
  let lc := match jsIndexOf lineContent (str "//") with
    | some ci => jsTrim (jsSubstring lineContent 0 ci)
    | none => lineContent
  handleMultilineComments ((lc.length + 2) * (lc.length + 2)) lc inComment dc

/-- The mutable state of one `parse` pass (the local variables of `parse`
plus the module-level `docComment` buffer and the results). -/
structure ScanState where
  results : ParserResults
  bracketDepth : Int
  inComment : Bool
  inEnum : Bool
  enumDepth : Int
  enumAwaitBrace : Bool
  enumName : Option Str
  inGlobalDecl : Bool
  globalDeclSpec : Option SpecifierResults
  globalDeclOffset : Nat
  globalDeclLine : Option Nat
  docComment : Str
deriving Repr, DecidableEq

/-- The backward scan of the "too many closing brackets" branch: scans the
line right to left, incrementing the depth at every `}`; reports the first
position where the running depth is zero.  Returns the diagnostic position
(if any) and the final value of the mutated depth counter. -/
def unmatchedBraceScan (lineContent : Str) : Nat → Int → Option Nat × Int
  | 0, depth => (none, depth)
  | idx + 1, depth =>
    let depth' := if charAt lineContent idx = some '\x7d' then depth + 1 else depth
    if depth' = 0 then (some idx, depth')
    else unmatchedBraceScan lineContent idx depth'

/-! `#define` handling: the source's local constants become named
functions of the line content so that theorems about the directive stay
tractable. -/

/-- Index after the whitespace following `#define`. -/
def defineNameStart (lc : Str) : Nat :=
  7 + ((lc.drop 7).takeWhile StringHelpers.isWhitespace).length

/-- Index after the macro name. -/
def defineNameEnd (lc : Str) : Nat :=
  defineNameStart lc
    + ((lc.drop (defineNameStart lc)).takeWhile StringHelpers.isAlphaNum).length

/-- The macro name of a `#define` line. -/
def defineMacroName (lc : Str) : Str := sliceN lc (defineNameStart lc) (defineNameEnd lc)

/-- The parenthesised macro parameter labels (empty when none). -/
def defineParams (lc : Str) : List Str :=
  let idx2 := defineNameEnd lc
  if idx2 < lc.length ∧ charAt lc idx2 = some '(' then
    match jsIndexOfFrom lc [')'] (idx2 + 1) with
    | some closeIdx =>
      let rawParams := jsTrim (jsSubstring lc (idx2 + 1) closeIdx)
      if rawParams.length > 0 then (jsSplitChar rawParams ',').map jsTrim else []
    | none => []
  else []

/-- The textual value of a parameterless `#define`, comments stripped. -/
def defineRawValue (lc : Str) : Str :=
  if (defineParams lc).length = 0 ∧ defineNameEnd lc < lc.length then
    let v0 := jsTrim (jsSubstringFrom lc (defineNameEnd lc))
    let v1 := match jsIndexOf v0 (str "//") with
      | some i => jsTrim (jsSubstring v0 0 i)
      | none => v0
    match jsIndexOf v1 (str "/*") with
    | some i => jsTrim (jsSubstring v1 0 i)
    | none => v1
  else []

/-- Is the `#define` constant-like (no parameters, simple value)? -/
def defineIsConstLike (lc : Str) : Bool :=
  (defineParams lc).length = 0 && isSimpleDefineValue (defineRawValue lc)

/-- The doc comment attached to the macro (reset for constant-like ones). -/
def defineMacroDoc (lc dc : Str) : Str := if defineIsConstLike lc then [] else dc

/-- The callable pushed for a `#define` line. -/
def defineCallableOf (fileUri lc : Str) (lineIndex : Nat) (dc : Str) :
    CallableDescriptor :=
  { label := lc
    identifier := defineMacroName lc
    isMacro := (defineParams lc).length > 0 ∨ defineIsConstLike lc
    file := fileUri
    start := ⟨lineIndex, defineNameStart lc⟩
    stop := ⟨lineIndex, defineNameStart lc + (defineMacroName lc).length⟩
    parameters := (defineParams lc).map (fun p => ⟨p⟩)
    documentaton := defineMacroDoc lc dc }

/-- The value pushed for a parameterless `#define` line. -/
def defineValueOf (fileUri lc rawLine : Str) (lineIndex : Nat) (dc : Str) :
    ValueDescriptor :=
  { identifier := defineMacroName lc
    label := if (defineRawValue lc).length > 0 then
        str "#define " ++ defineMacroName lc ++ [' '] ++ defineRawValue lc
      else str "#define " ++ defineMacroName lc
    isConst := true
    assignedValue := if isSimpleDefineValue (defineRawValue lc) then
        some (defineRawValue lc)
      else none
    inlineComment := extractInlineComment rawLine
    file := fileUri
    range := ⟨⟨lineIndex, defineNameStart lc⟩,
              ⟨lineIndex, defineNameStart lc + (defineMacroName lc).length⟩⟩
    documentaton := defineMacroDoc lc dc }

/-- The `#define` handling of `parse` (applied to the possibly reassigned
line content; `rawLine` is used only for the inline comment). -/
def parseDefineDirective (fileUri : Str) (st : ScanState) (lc rawLine : Str)
    (lineIndex : Nat) : ScanState :=
  if jsSubstring lc 1 7 = str "define" then
    if (defineMacroName lc).length = 0 then st
    else
      let clb := defineCallableOf fileUri lc lineIndex st.docComment
      let st := { st with results := pushCallable st.results clb }
      let st :=
        if (defineParams lc).length = 0 then
          let v := defineValueOf fileUri lc rawLine lineIndex st.docComment
          { st with results := pushValue st.results v }
        else st
      { st with docComment := [] }
  else st

/-! `#include` handling: named pieces of the directive, as functions
of the stripped rest of the line (`lineContent.substring(startIndex)`). -/

/-- Where the filename scan starts in the stripped rest. -/
def includeCi0 (rest : Str) : Nat :=
  (rest.takeWhile StringHelpers.isWhitespace).length

/-- The terminating character implied by the opening `"` or `<` (if any). -/
def includeTermChar (rest : Str) : Option Char :=
  if charAt rest (includeCi0 rest) = some '"' then some '"'
  else if charAt rest (includeCi0 rest) = some '<' then some '>'
  else none

/-- The index just after the opening `"`/`<` (if any). -/
def includeCi1 (rest : Str) : Nat :=
  if charAt rest (includeCi0 rest) = some '"' ∨ charAt rest (includeCi0 rest) = some '<'
  then includeCi0 rest + 1 else includeCi0 rest

/-- The index where the filename copy stops. -/
def includeCi2 (rest : Str) : Nat :=
  includeCi1 rest + (match includeTermChar rest with
    | none => rest.length - includeCi1 rest
    | some t => ((rest.drop (includeCi1 rest)).takeWhile (fun c => !(c = t))).length)

/-- The included filename (trimmed). -/
def includeFilename (rest : Str) : Str :=
  jsTrim (sliceN rest (includeCi1 rest) (includeCi2 rest))

/-- The "not terminated properly" condition. -/
def includeBadTermination (rest : Str) : Prop :=
  (includeCi2 rest = rest.length ∧ (includeTermChar rest).isSome)
  ∨ charAt rest (includeCi2 rest) ≠ includeTermChar rest

instance (rest : Str) : Decidable (includeBadTermination rest) := by
  unfold includeBadTermination
  infer_instance

/-- The inclusion record pushed for a well-formed `#include` line. -/
def inclusionOf (rest : Str) (isSilent : Bool) (startIndex lineIndex : Nat) :
    InclusionDescriptor :=
  { filename := includeFilename rest
    isLocal := includeTermChar rest ≠ some '>'
    isSilent := isSilent
    start := ⟨lineIndex, 0⟩
    stop := ⟨lineIndex, startIndex + includeCi2 rest + 1⟩ }

/-- The `#include`/`#tryinclude` handling: returns the updated state and,
when control continues to the `#define` test, the line content that test
sees (the stripped rest after a pushed inclusion, the original content when
the line is no include directive); `none` when the branch returns. -/
def parseIncludeStep (st : ScanState) (lineContent : Str) (lineIndex : Nat) :
    ScanState × Option Str :=
  let isInc := jsSubstring lineContent 1 8 = str "include"
  let isTry := jsSubstring lineContent 1 11 = str "tryinclude"
  if isInc ∨ isTry then
    let startIndex : Nat := if isTry then 11 else 8
    let c0 := charAt lineContent startIndex
    if ¬(isWhitespaceOpt c0 = true ∨ c0 = some '"' ∨ c0 = some '<') then (st, none)
    else
      let rest := jsSubstringFrom lineContent startIndex
      if includeBadTermination rest then
        let d : Diagnostic :=
          { message := str "The #include statement is not terminated properly"
            severity := .error
            source := str "amxxpawn"
            range := ⟨⟨lineIndex, 0⟩, ⟨lineIndex, startIndex + includeCi2 rest + 1⟩⟩ }
        ({ st with results := pushDiag st.results d }, none)
      else if (includeTermChar rest).isSome ∧ includeCi2 rest ≠ rest.length - 1 then
        let d : Diagnostic :=
          { message := str "No extra characters are allowed after an #include statement"
            severity := .error
            source := str "amxxpawn"
            range := ⟨⟨lineIndex, startIndex + includeCi2 rest + 1⟩,
                      ⟨lineIndex, numberMaxValue⟩⟩ }
        ({ st with results := pushDiag st.results d }, none)
      else
        let inc := inclusionOf rest isTry startIndex lineIndex
        ({ st with results := pushInclusion st.results inc }, some rest)
  else (st, some lineContent)

/-- The preprocessor (`#…`) branch of `parse`: `#include`/`#tryinclude`
handling followed by `#define` handling.  When the include handling strips
the directive prefix, the `#define` test afterwards sees the stripped
content, exactly as in the source. -/
def parsePreprocLine (fileUri : Str) (st : ScanState) (lineContent rawLine : Str)
    (lineIndex : Nat) : ScanState :=
  match parseIncludeStep st lineContent lineIndex with
  | (st', none) => st'
  | (st', some lc2) => parseDefineDirective fileUri st' lc2 rawLine lineIndex

/-- The specifier keywords that start a declaration. -/
def isSpecifierKeyword (tok : Str) : Bool :=
  tok = str "new" || tok = str "static" || tok = str "public" ||
  tok = str "stock" || tok = str "const"

/-- The multi-line global declaration entry of `parse` (lines without `(`
that start with a specifier and are followed by a comma or nothing):
returns the updated state when the branch returns, `none` when control
falls through. -/
def tryGlobalDeclEntry (fileUri : Str) (st : ScanState) (lineContent rawLine : Str)
    (lineIndex : Nat) : Option ScanState :=
  if (jsIndexOf lineContent ['(']).isNone then
    let tr := readIdentifier lineContent 0
    if tr.token ≠ [] ∧ isSpecifierKeyword tr.token then
      let sr := readSpecicifers lineContent tr.position tr.token
      if sr.wrongCombination ≠ true then
        if (readIdentifier lineContent sr.position).token = []
            ∨ (jsIndexOf lineContent [',']).isSome then
          let vals := parseVariableListLine lineContent rawLine lineIndex fileUri
            (some sr) sr.position st.docComment
          let st := { st with
            inGlobalDecl := true
            globalDeclSpec := some sr
            globalDeclOffset := sr.position
            globalDeclLine := some lineIndex
            results := pushValues st.results vals }
          if (jsIndexOf lineContent [';']).isSome then
            some { st with inGlobalDecl := false, globalDeclSpec := none,
                           globalDeclOffset := 0, globalDeclLine := none }
          else some st
        else none
      else none
    else none
  else none

/-! The single-line value branch: the source's locals become named
functions of the line content. -/

/-- The first token of the line. -/
def vlTr (lc : Str) : IdentifierResults := readIdentifier lc 0

/-- The specifier scan of the line. -/
def vlSr (lc : Str) : SpecifierResults :=
  readSpecicifers lc (vlTr lc).position (vlTr lc).token

/-- The identifier read after the specifiers. -/
def vlTr2 (lc : Str) : IdentifierResults := readIdentifier lc (vlSr lc).position

/-- The index of the first non-whitespace character after that identifier. -/
def vlCi (lc : Str) : Nat :=
  (vlTr2 lc).position
    + ((lc.drop (vlTr2 lc).position).takeWhile StringHelpers.isWhitespace).length

/-- Does a `tag:` follow the first identifier? -/
def vlHasTag (lc : Str) : Prop :=
  (vlTr2 lc).position ≠ lc.length ∧ charAt lc (vlCi lc) = some ':'

instance (lc : Str) : Decidable (vlHasTag lc) := by
  unfold vlHasTag
  infer_instance

/-- The identifier read after the `tag:`. -/
def vlTrN (lc : Str) : IdentifierResults := readIdentifier lc (vlCi lc + 1)

/-- The declared symbol (after the tag when present and nonempty). -/
def vlSymbol (lc : Str) : Str :=
  if vlHasTag lc ∧ (vlTrN lc).token ≠ [] then (vlTrN lc).token else (vlTr2 lc).token

/-- The symbol's tag (empty when none). -/
def vlSymbolTag (lc : Str) : Str := if vlHasTag lc then (vlTr2 lc).token else []

/-- The identifier-scan result whose position ends the declaration head. -/
def vlTr3 (lc : Str) : IdentifierResults :=
  if vlHasTag lc then vlTrN lc else vlTr2 lc

/-- The label text copied after the declaration head. -/
def vlLabelAddition (lc : Str) : Str :=
  if (vlTr3 lc).position ≠ lc.length then
    (lc.drop (vlTr3 lc).position).takeWhile
      (fun c => !(c = ';') && !(c = ',') && !(c = '='))
  else []

/-- The value pushed by the single-line value branch. -/
def vlValueOf (fileUri lc : Str) (lineIndex : Nat) (dc : Str) : ValueDescriptor :=
  { identifier := vlSymbol lc
    label := createValueLabel (vlSymbol lc) (vlSymbolTag lc) (vlSr lc)
      ++ vlLabelAddition lc
    isConst := (vlSr lc).isConst
    assignedValue := match (if (vlSr lc).isConst then extractAssignedValue lc
        else none) with
      | some v => if isSimpleDefineValue v then some v else none
      | none => none
    file := fileUri
    range := ⟨⟨lineIndex, 0⟩, ⟨lineIndex, (vlTr3 lc).position⟩⟩
    documentaton := dc }

/-- The "Expected an identifier" diagnostic of the tag position. -/
def vlTagDiag (lc : Str) (lineIndex : Nat) : Diagnostic :=
  { message := str "Expected an identifier"
    severity := .error
    source := str "amxxpawn"
    range := ⟨⟨lineIndex, vlCi lc + 1⟩, ⟨lineIndex, (vlTrN lc).position⟩⟩ }

/-- The single-line value branch of `parse` (a line with no full `(...)`
pair, starting with a specifier keyword). -/
def parseValueLine (fileUri : Str) (skipStatic : Bool) (st : ScanState)
    (lc : Str) (lineIndex : Nat) : ScanState :=
  if (vlTr lc).position = lc.length then st
  else if ¬ (isSpecifierKeyword (vlTr lc).token = true) then st
  else if (vlSr lc).wrongCombination then
    let d : Diagnostic :=
      { message := str "Invalid combination of class specifiers"
        severity := .error
        source := str "amxxpawn"
        range := ⟨⟨lineIndex, 0⟩, ⟨lineIndex, (vlSr lc).position⟩⟩ }
    { st with results := pushDiag st.results d }
  else if skipStatic ∧ (vlSr lc).isStatic then st
  else if (vlTr2 lc).token = [] then
    let d : Diagnostic :=
      { message := str "Expected an identifier"
        severity := .error
        source := str "amxxpawn"
        range := ⟨⟨lineIndex, (vlSr lc).position⟩, ⟨lineIndex, (vlTr2 lc).position⟩⟩ }
    { st with results := pushDiag st.results d }
  else if vlHasTag lc ∧ (vlTrN lc).token = [] then
    let r := pushDiag st.results (vlTagDiag lc lineIndex)
    { st with results := pushValue r (vlValueOf fileUri lc lineIndex st.docComment) }
  else
    { st with results := pushValue st.results (vlValueOf fileUri lc lineIndex st.docComment) }

/-- The parameter labels of a matched callable prototype. -/
def callableParamsOf (g4 : Str) : List ParameterInformation :=
  if (jsTrim g4).length > 0 then (jsSplitChar g4 ',').map (fun v => ⟨jsTrim v⟩)
  else []

/-- The callable pushed for a matched prototype line. -/
def callableOf (fileUri : Str) (m : CallableMatch) (lineIndex : Nat) (dc : Str) :
    CallableDescriptor :=
  { label := m.whole
    identifier := m.g3
    isMacro := false
    file := fileUri
    start := ⟨lineIndex, 0⟩
    stop := ⟨lineIndex, m.whole.length⟩
    parameters := callableParamsOf m.g4
    documentaton := dc }

/-- The non-preprocessor branch of `parse`: enum entry, global declaration
entry, callable prototypes, then single-line values. -/
def parseCodeLine (fileUri : Str) (skipStatic : Bool) (st : ScanState)
    (lineContent rawLine : Str) (lineIndex : Nat) (depthAfter : Int) : ScanState :=
  if lineContent.length ≥ 4 ∧ jsSubstring lineContent 0 4 = str "enum" then
    let nameStep : Option Str × ScanState :=
      match parseEnumName lineContent rawLine lineIndex fileUri st.docComment with
      | some (name, v) => (some name, { st with results := pushValue st.results v })
      | none => (none, st)
    let enumName := nameStep.1
    let st := { nameStep.2 with enumName := enumName }
    if (jsIndexOf lineContent ['\x7b']).isSome then
      let st := { st with inEnum := true, enumDepth := depthAfter }
      let evs := parseEnumLine lineContent rawLine lineIndex fileUri enumName st.docComment
      let st := { st with results := pushValues st.results evs }
      if (jsIndexOf lineContent ['\x7d']).isSome then
        { st with inEnum := false, enumDepth := 0, enumName := none }
      else st
    else
      { st with inEnum := true, enumAwaitBrace := true, enumDepth := depthAfter + 1 }
  else
    match tryGlobalDeclEntry fileUri st lineContent rawLine lineIndex with
    | some st' => st'
    | none =>
      if (jsIndexOf lineContent ['(']).isSome ∧ (jsIndexOf lineContent [')']).isSome then
        match callableMatchAt0 lineContent with
        | none => st
        | some m =>
          if skipStatic ∧ (jsIndexOf m.g1 (str "static")).isSome then st
          else
            let clb := callableOf fileUri m lineIndex st.docComment
            { st with results := pushCallable st.results clb, docComment := [] }
      else
        parseValueLine fileUri skipStatic st lineContent lineIndex

/-- One iteration of `parse`'s per-line loop. -/
def parseLine (fileUri : Str) (skipStatic : Bool) (st : ScanState)
    (rawLine : Str) (lineIndex : Nat) : ScanState :=
  let lineContent0 := jsTrim rawLine
  if lineContent0.length = 0 then st
  else
    let cr := handleComments lineContent0 st.inComment st.docComment
    let lineContent := cr.1
    let st := { st with inComment := cr.2.1, docComment := cr.2.2 }
    if lineContent.length = 0 then st
    else
      let depthBefore := st.bracketDepth
      let depthAfter := st.bracketDepth + handleBracketDepth lineContent
      if depthAfter < 0 then
        match unmatchedBraceScan lineContent lineContent.length st.bracketDepth with
        | (some idx, d') =>
          let d : Diagnostic :=
            { message := str "Unmatched closing brace"
              severity := .error
              source := str "amxxpawn"
              range := ⟨⟨lineIndex, idx⟩, ⟨lineIndex, idx + 1⟩⟩ }
          { st with bracketDepth := d', results := pushDiag st.results d }
        | (none, _) => { st with bracketDepth := 0 }
      else
        let st := { st with bracketDepth := depthAfter }
        if st.inEnum then
          if st.enumAwaitBrace ∧ (jsIndexOf lineContent ['\x7b']).isNone then st
          else
            let st := { st with enumAwaitBrace := false }
            let evs := parseEnumLine lineContent rawLine lineIndex fileUri st.enumName
              st.docComment
            let st := { st with results := pushValues st.results evs }
            if depthAfter < st.enumDepth then
              { st with inEnum := false, enumDepth := 0, enumName := none }
            else st
        else if depthBefore > 0 then st
        else if lineContent.length ≥ 6 ∧ jsSubstring lineContent 0 6 = str "return" then st
        else if st.inGlobalDecl then
          let startOffset := if st.globalDeclLine = some lineIndex then st.globalDeclOffset
            else 0
          let vals := parseVariableListLine lineContent rawLine lineIndex fileUri
            st.globalDeclSpec startOffset st.docComment
          let st := { st with results := pushValues st.results vals, globalDeclOffset := 0 }
          if (jsIndexOf lineContent [';']).isSome then
            { st with inGlobalDecl := false, globalDeclSpec := none,
                      globalDeclOffset := 0, globalDeclLine := none }
          else st
        else if charAt lineContent 0 = some '#' then
          parsePreprocLine fileUri st lineContent rawLine lineIndex
        else
          parseCodeLine fileUri skipStatic st lineContent rawLine lineIndex depthAfter

/-- Fold `parseLine` over the lines. -/
def parseGo (fileUri : Str) (skipStatic : Bool) : List Str → Nat → ScanState → ScanState
  | [], _, st => st
  | l :: ls, i, st => parseGo fileUri skipStatic ls (i + 1) (parseLine fileUri skipStatic st l i)

/-- The initial scan state, with a given pending doc-comment buffer. -/
def initState (dc : Str) : ScanState :=
  { results := {}
    bracketDepth := 0
    inComment := false
    inEnum := false
    enumDepth := 0
    enumAwaitBrace := false
    enumName := none
    inGlobalDecl := false
    globalDeclSpec := none
    globalDeclOffset := 0
    globalDeclLine := none
    docComment := dc }

/-- `parse` with the module-level `docComment` buffer made explicit: the
buffer holds `dc` when the call starts, and the returned state's
`docComment` is its value when the call ends (the source has no reset at
the start of a call). -/
def parseSt (fileUri : Str) (content : Str) (skipStatic : Bool) (dc : Str) : ScanState :=
  parseGo fileUri skipStatic (splitLines content) 0 (initState dc)

/-- `parse` from `parser.ts`, as called on a freshly loaded module (the
`docComment` buffer still empty). -/
def parse (fileUri : Str) (content : Str) (skipStatic : Bool) : ParserResults :=
  (parseSt fileUri content skipStatic []).results

/-! ### Claims C2, C4, C7, C1 about the scanner -/

/-- C2: the claim says an extra trailing `}` always yields exactly one
"Unmatched closing brace" diagnostic pinned at that brace.  Evaluating the
embedded scanner: for the text `}` (balanced except one extra trailing
brace) no diagnostic at all is produced — the backward scan increments its
counter at every `}` and reports only when the counter is zero, which can
never happen at a brace; and for `};` the single diagnostic produced is
pinned at the `;` (characters 1–2), not at the brace. -/
theorem C2_unmatched_brace_evaluation :
    (parse (str "file.sma") (str "\x7d") false).diagnostics = []
    ∧ (parse (str "file.sma") (str "\x7d;") false).diagnostics
      = [⟨str "Unmatched closing brace", .error, str "amxxpawn",
          ⟨⟨0, 1⟩, ⟨0, 2⟩⟩⟩] := by
  constructor
  · decide
  · decide

/-- C4 counterexample: in `enum Foo { A, B, C = 5 }` the Value extracted
for `C` carries no assigned literal at all (the claim says it carries 5). -/
theorem C4_enum_literal_counterexample :
    (((parse (str "file.sma") (str "enum Foo \x7b A, B, C = 5 \x7d") false).values.filter
        (fun v => v.identifier = str "C")).map (fun v => v.assignedValue))
      = [none] := by decide

/-- C4 amended: parsing `enum Foo { A, B, C = 5 }` yields exactly three
enum-member Values `A`, `B`, `C`, each carrying `enumGroup "Foo"`, but no
assigned literal is recorded for any member (`parseEnumLine` never fills
`assignedValue`, so `C`'s Value does not carry the literal 5). -/
theorem C4_enum_members :
    (((parse (str "file.sma") (str "enum Foo \x7b A, B, C = 5 \x7d") false).values.filter
        (fun v => v.isEnumMember)).map (fun v => v.identifier))
      = [str "A", str "B", str "C"]
    ∧ (((parse (str "file.sma") (str "enum Foo \x7b A, B, C = 5 \x7d") false).values.filter
        (fun v => v.isEnumMember)).map (fun v => v.enumGroup))
      = [some (str "Foo"), some (str "Foo"), some (str "Foo")]
    ∧ (((parse (str "file.sma") (str "enum Foo \x7b A, B, C = 5 \x7d") false).values.filter
        (fun v => v.isEnumMember)).map (fun v => v.assignedValue))
      = [none, none, none] := by
  refine ⟨by decide, by decide, by decide⟩

/-- C7 counterexample: a `}` inside a string literal does change the
brace-depth counter — `handleBracketDepth` counts it, and on the line
`new a = "}";` the resulting negative depth even produces an "Unmatched
closing brace" diagnostic. -/
theorem C7_string_brace_counterexample :
    handleBracketDepth (str "new a = \"\x7d\";") = -1
    ∧ ((parse (str "file.sma") (str "new a = \"\x7d\";") false).diagnostics.map
        (fun d => d.message))
      = [str "Unmatched closing brace"] := by
  constructor
  · decide
  · decide

lemma handleBracketDepth_foldl (l : Str) :
    ∀ d : Int,
      l.foldl (fun d c => if c = '\x7b' then d + 1 else if c = '\x7d' then d - 1 else d) d
        = d + (l.count '\x7b' : Int) - (l.count '\x7d' : Int) := by
  induction l with
  | nil => intro d; simp
  | cons c rest ih =>
    intro d
    simp only [List.foldl_cons, List.count_cons]
    by_cases h1 : c = '\x7b'
    · subst h1
      rw [ih]
      simp
      ring
    · by_cases h2 : c = '\x7d'
      · subst h2
        rw [if_neg h1, if_pos rfl, ih]
        simp [h1]
        ring
      · rw [if_neg h1, if_neg h2, ih]
        simp [Ne.symm h1, Ne.symm h2, h1, h2]

lemma parseLine_gating (fileUri : Str) (skipStatic : Bool) (st : ScanState)
    (rawLine : Str) (lineIndex : Nat)
    (h1 : st.inEnum = false) (h2 : st.bracketDepth > 0) :
    (parseLine fileUri skipStatic st rawLine lineIndex).results.values
      = st.results.values
    ∧ (parseLine fileUri skipStatic st rawLine lineIndex).results.callables
      = st.results.callables := by
  unfold parseLine
  simp only []
  split_ifs with hc1 hc2 hc3 <;>
    first
      | exact ⟨rfl, rfl⟩
      | (try simp_all [pushDiag]) <;> (try split) <;> simp_all [pushDiag]

/-- C7 corrected: the brace-depth counter is changed by every `{`/`}` in
the comment-stripped line content — including braces inside string
literals, which the claim wrongly excludes (`handleBracketDepth l` is
exactly the count of `{` minus the count of `}` in `l`); and on a line
scanned while the counter is positive and no enum is open, no value or
callable is extracted. -/
theorem C7_brace_depth_and_gating :
    (∀ l : Str, handleBracketDepth l = (l.count '\x7b' : Int) - (l.count '\x7d' : Int))
    ∧ (∀ (fileUri : Str) (skipStatic : Bool) (st : ScanState) (rawLine : Str)
        (lineIndex : Nat), st.inEnum = false → st.bracketDepth > 0 →
        (parseLine fileUri skipStatic st rawLine lineIndex).results.values
          = st.results.values
        ∧ (parseLine fileUri skipStatic st rawLine lineIndex).results.callables
          = st.results.callables) := by
  constructor
  · intro l
    have h := handleBracketDepth_foldl l 0
    simpa [handleBracketDepth] using h
  · intro fileUri skipStatic st rawLine lineIndex h1 h2
    exact parseLine_gating fileUri skipStatic st rawLine lineIndex h1 h2

theorem C7_brace_depth_and_gating_witness :
    (parseLine (str "u") false { initState [] with bracketDepth := 1 } (str "new x;")
        0).results.values
      = ({ initState [] with bracketDepth := 1 } : ScanState).results.values :=
  (C7_brace_depth_and_gating.2 (str "u") false
    { initState [] with bracketDepth := 1 } (str "new x;") 0 rfl (by decide)).1

/-- C1 counterexample: `parse` is not stateless across calls — the shared
doc-comment buffer is not reset at the start of a call.  After parsing a
file consisting of the block comment `/* hi */`, parsing `new x;` returns a
different ParseResult (the value `x` inherits the previous file's comment
as documentation) than the same call made on a fresh module. -/
theorem C1_statelessness_counterexample :
    (parseSt (str "file.sma") (str "new x;") false
        ((parseSt (str "other.sma") (str "/* hi */") false []).docComment)).results
      ≠ (parseSt (str "file.sma") (str "new x;") false []).results := by decide

/-! ### C1 amended: only documentation fields depend on the shared buffer -/

/-- Erase the documentation attached to a value. -/
def scrubValue (v : ValueDescriptor) : ValueDescriptor := { v with documentaton := [] }

/-- Erase the documentation attached to a callable. -/
def scrubCallable (c : CallableDescriptor) : CallableDescriptor :=
  { c with documentaton := [] }

/-- Erase all documentation from a parse result. -/
def scrubResults (r : ParserResults) : ParserResults :=
  { r with values := r.values.map scrubValue, callables := r.callables.map scrubCallable }

/-- Erase all documentation and the pending buffer from a scan state. -/
def scrubState (s : ScanState) : ScanState :=
  { s with results := scrubResults s.results, docComment := [] }

lemma scrubResults_pushValue (r : ParserResults) (v : ValueDescriptor) :
    scrubResults (pushValue r v) = pushValue (scrubResults r) (scrubValue v) := by
  simp [scrubResults, pushValue]

lemma scrubResults_pushValues (r : ParserResults) (vs : List ValueDescriptor) :
    scrubResults (pushValues r vs) = pushValues (scrubResults r) (vs.map scrubValue) := by
  simp [scrubResults, pushValues]

lemma scrubResults_pushCallable (r : ParserResults) (c : CallableDescriptor) :
    scrubResults (pushCallable r c) = pushCallable (scrubResults r) (scrubCallable c) := by
  simp [scrubResults, pushCallable]

lemma scrubResults_pushDiag (r : ParserResults) (d : Diagnostic) :
    scrubResults (pushDiag r d) = pushDiag (scrubResults r) d := by
  simp [scrubResults, pushDiag]

lemma scrubResults_pushInclusion (r : ParserResults) (h : InclusionDescriptor) :
    scrubResults (pushInclusion r h) = pushInclusion (scrubResults r) h := by
  simp [scrubResults, pushInclusion]

lemma handleMultilineComments_proj :
    ∀ (fuel : Nat) (lc : Str) (ic : Bool) (dc dc' : Str),
      (handleMultilineComments fuel lc ic dc).1
        = (handleMultilineComments fuel lc ic dc').1
      ∧ (handleMultilineComments fuel lc ic dc).2.1
        = (handleMultilineComments fuel lc ic dc').2.1 := by
  intro fuel
  induction fuel with
  | zero => intro lc ic dc dc'; exact ⟨rfl, rfl⟩
  | succ n ih =>
    intro lc ic dc dc'
    cases ic with
    | true =>
      cases h1 : jsIndexOf lc (str "*/") with
      | some e =>
        simp only [handleMultilineComments, h1]
        exact ih _ _ _ _
      | none => simp only [handleMultilineComments, h1]; exact ⟨rfl, rfl⟩
    | false =>
      cases h1 : jsIndexOf lc (str "/*") with
      | none => simp only [handleMultilineComments, h1]; exact ⟨rfl, rfl⟩
      | some ci =>
        cases h2 : jsIndexOf lc (str "*/") with
        | none => simp only [handleMultilineComments, h1, h2]; exact ⟨rfl, rfl⟩
        | some ei =>
          simp only [handleMultilineComments, h1, h2]
          exact ih _ _ _ _

lemma handleComments_proj (lc : Str) (ic : Bool) (dc dc' : Str) :
    (handleComments lc ic dc).1 = (handleComments lc ic dc').1
    ∧ (handleComments lc ic dc).2.1 = (handleComments lc ic dc').2.1 := by
  unfold handleComments
  exact handleMultilineComments_proj _ _ _ _ _

lemma parseVariableListLine_scrub (lc raw : Str) (i : Nat) (uri : Str)
    (sr : Option SpecifierResults) (off : Nat) (dc dc' : Str) :
    (parseVariableListLine lc raw i uri sr off dc).map scrubValue
      = (parseVariableListLine lc raw i uri sr off dc').map scrubValue := by
  cases sr with
  | none => rfl
  | some sr =>
    simp only [parseVariableListLine, List.map_filterMap]
    congr 1
    funext part
    split_ifs <;> first
      | rfl
      | (split <;> simp [scrubValue])

lemma parseEnumLine_scrub (lc raw : Str) (i : Nat) (uri : Str)
    (en : Option Str) (dc dc' : Str) :
    (parseEnumLine lc raw i uri en dc).map scrubValue
      = (parseEnumLine lc raw i uri en dc').map scrubValue := by
  simp only [parseEnumLine, List.map_filterMap]
  congr 1
  funext part
  split_ifs <;> first
    | rfl
    | (split <;> simp [scrubValue])

lemma parseEnumName_scrub (lc raw : Str) (i : Nat) (uri : Str) (dc dc' : Str) :
    (parseEnumName lc raw i uri dc).map (fun p => (p.1, scrubValue p.2))
      = (parseEnumName lc raw i uri dc').map (fun p => (p.1, scrubValue p.2)) := by
  simp only [parseEnumName]
  split <;> simp [scrubValue]

lemma scrub_eq_decomp (s₁ s₂ : ScanState) (h : scrubState s₁ = scrubState s₂) :
    s₂ = { s₁ with results := s₂.results, docComment := s₂.docComment }
    ∧ scrubResults s₁.results = scrubResults s₂.results := by
  cases s₁
  cases s₂
  simp only [scrubState, ScanState.mk.injEq] at h
  obtain ⟨h1, h2, h3, h4, h5, h6, h7, h8, h9, h10, h11, _⟩ := h
  subst h2 h3 h4 h5 h6 h7 h8 h9 h10 h11
  exact ⟨rfl, h1⟩


lemma scrubCallable_defineCallableOf (uri lc : Str) (i : Nat) (d d' : Str) :
    scrubCallable (defineCallableOf uri lc i d)
      = scrubCallable (defineCallableOf uri lc i d') := by
  simp [defineCallableOf, scrubCallable]

lemma scrubValue_defineValueOf (uri lc raw : Str) (i : Nat) (d d' : Str) :
    scrubValue (defineValueOf uri lc raw i d)
      = scrubValue (defineValueOf uri lc raw i d') := by
  simp [defineValueOf, scrubValue]

lemma scrubValue_vlValueOf (uri lc : Str) (i : Nat) (d d' : Str) :
    scrubValue (vlValueOf uri lc i d) = scrubValue (vlValueOf uri lc i d') := by
  simp [vlValueOf, scrubValue]

lemma scrubCallable_callableOf (uri : Str) (m : CallableMatch) (i : Nat) (d d' : Str) :
    scrubCallable (callableOf uri m i d) = scrubCallable (callableOf uri m i d') := by
  simp [callableOf, scrubCallable]

lemma parseDefineDirective_scrub (uri : Str) (s₁ s₂ : ScanState) (lc raw : Str)
    (i : Nat) (h : scrubState s₁ = scrubState s₂) :
    scrubState (parseDefineDirective uri s₁ lc raw i)
      = scrubState (parseDefineDirective uri s₂ lc raw i) := by
  obtain ⟨hs, hr⟩ := scrub_eq_decomp s₁ s₂ h
  unfold parseDefineDirective
  simp only []
  split_ifs with h1 h2 h3
  · exact h
  · rw [hs]
    simp only [scrubState, scrubResults_pushValue, scrubResults_pushCallable]
    rw [scrubCallable_defineCallableOf uri lc i s₁.docComment s₂.docComment,
      scrubValue_defineValueOf uri lc raw i s₁.docComment s₂.docComment, hr]
  · rw [hs]
    simp only [scrubState, scrubResults_pushCallable]
    rw [scrubCallable_defineCallableOf uri lc i s₁.docComment s₂.docComment, hr]
  · exact h

lemma parseIncludeStep_scrub (s₁ s₂ : ScanState) (lc : Str) (i : Nat)
    (h : scrubState s₁ = scrubState s₂) :
    scrubState (parseIncludeStep s₁ lc i).1 = scrubState (parseIncludeStep s₂ lc i).1
    ∧ (parseIncludeStep s₁ lc i).2 = (parseIncludeStep s₂ lc i).2 := by
  obtain ⟨hs, hr⟩ := scrub_eq_decomp s₁ s₂ h
  unfold parseIncludeStep
  simp only []
  split_ifs <;> refine ⟨?_, rfl⟩ <;> first
    | exact h
    | (rw [hs]; simp only [scrubState, scrubResults_pushDiag, scrubResults_pushInclusion]
       rw [hr])

lemma parsePreprocLine_scrub (uri : Str) (s₁ s₂ : ScanState) (lc raw : Str)
    (i : Nat) (h : scrubState s₁ = scrubState s₂) :
    scrubState (parsePreprocLine uri s₁ lc raw i)
      = scrubState (parsePreprocLine uri s₂ lc raw i) := by
  obtain ⟨h1, h2⟩ := parseIncludeStep_scrub s₁ s₂ lc i h
  unfold parsePreprocLine
  rcases e₁ : parseIncludeStep s₁ lc i with ⟨t₁, c₁⟩
  rcases e₂ : parseIncludeStep s₂ lc i with ⟨t₂, c₂⟩
  rw [e₁, e₂] at h1 h2
  simp only [] at h1 h2
  cases c₁ with
  | none =>
    cases c₂ with
    | none => exact h1
    | some lc2 => exact absurd h2 (by simp)
  | some lc2 =>
    cases c₂ with
    | none => exact absurd h2 (by simp)
    | some lc2' =>
      have hlc : lc2 = lc2' := by simpa using h2
      subst hlc
      exact parseDefineDirective_scrub uri t₁ t₂ lc2 raw i h1

lemma tryGlobalDeclEntry_scrub (uri : Str) (s₁ s₂ : ScanState) (lc raw : Str)
    (i : Nat) (h : scrubState s₁ = scrubState s₂) :
    (tryGlobalDeclEntry uri s₁ lc raw i).map scrubState
      = (tryGlobalDeclEntry uri s₂ lc raw i).map scrubState := by
  obtain ⟨hs, hr⟩ := scrub_eq_decomp s₁ s₂ h
  unfold tryGlobalDeclEntry
  simp only []
  split_ifs <;> try rfl
  all_goals
    rw [hs]
    simp only [Option.map_some, Option.map_some', Option.some.injEq, scrubState,
      scrubResults_pushValues]
    rw [parseVariableListLine_scrub lc raw i uri _ _ s₁.docComment s₂.docComment, hr]

lemma parseValueLine_scrub (uri : Str) (skipStatic : Bool) (s₁ s₂ : ScanState)
    (lc : Str) (i : Nat) (h : scrubState s₁ = scrubState s₂) :
    scrubState (parseValueLine uri skipStatic s₁ lc i)
      = scrubState (parseValueLine uri skipStatic s₂ lc i) := by
  obtain ⟨hs, hr⟩ := scrub_eq_decomp s₁ s₂ h
  unfold parseValueLine
  simp only []
  split_ifs <;> first
    | exact h
    | (rw [hs]; simp only [scrubState, scrubResults_pushDiag]; rw [hr])
    | (rw [hs]
       simp only [scrubState, scrubResults_pushValue, scrubResults_pushDiag]
       rw [scrubValue_vlValueOf uri lc i s₁.docComment s₂.docComment, hr])

lemma parseCodeLine_scrub (uri : Str) (skipStatic : Bool) (s₁ s₂ : ScanState)
    (lc raw : Str) (i : Nat) (depthAfter : Int)
    (h : scrubState s₁ = scrubState s₂) :
    scrubState (parseCodeLine uri skipStatic s₁ lc raw i depthAfter)
      = scrubState (parseCodeLine uri skipStatic s₂ lc raw i depthAfter) := by
  obtain ⟨hs, hr⟩ := scrub_eq_decomp s₁ s₂ h
  unfold parseCodeLine
  by_cases he : lc.length ≥ 4 ∧ jsSubstring lc 0 4 = str "enum"
  · rw [if_pos he, if_pos he]
    have hen := parseEnumName_scrub lc raw i uri s₁.docComment s₂.docComment
    rcases e₁ : parseEnumName lc raw i uri s₁.docComment with _ | ⟨n₁, v₁⟩ <;>
      rcases e₂ : parseEnumName lc raw i uri s₂.docComment with _ | ⟨n₂, v₂⟩ <;>
      rw [e₁, e₂] at hen <;>
      simp only [Option.map_some, Option.map_some', Option.map_none,
        Option.map_none'] at hen
    · simp only []
      split_ifs with hbrace hclose
      · simp only [scrubState, scrubResults_pushValues]
        rw [parseEnumLine_scrub lc raw i uri _ s₁.docComment s₂.docComment]
        rw [hs]
        simp only [scrubState, scrubResults_pushValues]
        rw [hr]
      · simp only [scrubState, scrubResults_pushValues]
        rw [parseEnumLine_scrub lc raw i uri _ s₁.docComment s₂.docComment]
        rw [hs]
        simp only [scrubState, scrubResults_pushValues]
        rw [hr]
      · rw [hs]
        simp only [scrubState]
        rw [hr]
    · exact absurd hen (by simp)
    · exact absurd hen (by simp)
    · simp only [Option.some.injEq, Prod.mk.injEq] at hen
      obtain ⟨hn, hv⟩ := hen
      subst hn
      simp only []
      split_ifs with hbrace hclose
      · simp only [scrubState, scrubResults_pushValues, scrubResults_pushValue]
        rw [parseEnumLine_scrub lc raw i uri _ s₁.docComment s₂.docComment, hv]
        rw [hs]
        simp only [scrubState, scrubResults_pushValues, scrubResults_pushValue]
        rw [hr]
      · simp only [scrubState, scrubResults_pushValues, scrubResults_pushValue]
        rw [parseEnumLine_scrub lc raw i uri _ s₁.docComment s₂.docComment, hv]
        rw [hs]
        simp only [scrubState, scrubResults_pushValues, scrubResults_pushValue]
        rw [hr]
      · simp only [scrubState, scrubResults_pushValue]
        rw [hv, hs]
        simp only [scrubState, scrubResults_pushValue]
        rw [hr]
  · rw [if_neg he, if_neg he]
    have htg := tryGlobalDeclEntry_scrub uri s₁ s₂ lc raw i h
    rcases g₁ : tryGlobalDeclEntry uri s₁ lc raw i with _ | t₁ <;>
      rcases g₂ : tryGlobalDeclEntry uri s₂ lc raw i with _ | t₂ <;>
      rw [g₁, g₂] at htg <;>
      simp only [Option.map_some, Option.map_some', Option.map_none,
        Option.map_none'] at htg
    · simp only []
      by_cases hp : (jsIndexOf lc ['(']).isSome ∧ (jsIndexOf lc [')']).isSome
      · rw [if_pos hp, if_pos hp]
        rcases cm : callableMatchAt0 lc with _ | m
        · exact h
        · simp only []
          split_ifs with hskip
          · exact h
          · rw [hs]
            simp only [scrubState, scrubResults_pushCallable]
            rw [scrubCallable_callableOf uri m i s₁.docComment s₂.docComment, hr]
      · rw [if_neg hp, if_neg hp]
        exact parseValueLine_scrub uri skipStatic s₁ s₂ lc i h
    · exact absurd htg (by simp)
    · exact absurd htg (by simp)
    · simpa using htg

/-- The canonical docless enum-line extraction. -/
def scrubbedEnumLine (lc raw : Str) (i : Nat) (uri : Str) (en : Option Str) :
    List ValueDescriptor :=
  (parseEnumLine lc raw i uri en []).map scrubValue

lemma map_scrubValue_parseEnumLine (lc raw : Str) (i : Nat) (uri : Str)
    (en : Option Str) (dc : Str) :
    (parseEnumLine lc raw i uri en dc).map scrubValue = scrubbedEnumLine lc raw i uri en :=
  parseEnumLine_scrub lc raw i uri en dc []

/-- The canonical docless variable-list extraction. -/
def scrubbedVariableListLine (lc raw : Str) (i : Nat) (uri : Str)
    (sr : Option SpecifierResults) (off : Nat) : List ValueDescriptor :=
  (parseVariableListLine lc raw i uri sr off []).map scrubValue

lemma map_scrubValue_parseVariableListLine (lc raw : Str) (i : Nat) (uri : Str)
    (sr : Option SpecifierResults) (off : Nat) (dc : Str) :
    (parseVariableListLine lc raw i uri sr off dc).map scrubValue
      = scrubbedVariableListLine lc raw i uri sr off :=
  parseVariableListLine_scrub lc raw i uri sr off dc []

lemma parseLine_scrub (uri : Str) (skipStatic : Bool) (s₁ s₂ : ScanState)
    (raw : Str) (i : Nat) (h : scrubState s₁ = scrubState s₂) :
    scrubState (parseLine uri skipStatic s₁ raw i)
      = scrubState (parseLine uri skipStatic s₂ raw i) := by
  obtain ⟨hs, hr⟩ := scrub_eq_decomp s₁ s₂ h
  unfold parseLine
  simp only []
  by_cases h0 : (jsTrim raw).length = 0
  · rw [if_pos h0, if_pos h0]
    exact h
  · rw [if_neg h0, if_neg h0, hs]
    simp only []
    have hp := (handleComments_proj (jsTrim raw) s₁.inComment s₁.docComment
      s₂.docComment).1
    have hq := (handleComments_proj (jsTrim raw) s₁.inComment s₁.docComment
      s₂.docComment).2
    rw [← hp, ← hq]
    have hmid : scrubState
        { s₁ with
          bracketDepth := s₁.bracketDepth
            + handleBracketDepth (handleComments (jsTrim raw) s₁.inComment s₁.docComment).1
          inComment := (handleComments (jsTrim raw) s₁.inComment s₁.docComment).2.1
          docComment := (handleComments (jsTrim raw) s₁.inComment s₁.docComment).2.2 }
        = scrubState
        { s₁ with
          results := s₂.results
          bracketDepth := s₁.bracketDepth
            + handleBracketDepth (handleComments (jsTrim raw) s₁.inComment s₁.docComment).1
          inComment := (handleComments (jsTrim raw) s₁.inComment s₁.docComment).2.1
          docComment := (handleComments (jsTrim raw) s₁.inComment s₂.docComment).2.2 } := by
      simp only [scrubState]
      rw [hr]
    split_ifs
    on_goal -1 => exact parseCodeLine_scrub uri skipStatic _ _ _ raw i _ hmid
    on_goal -1 => exact parsePreprocLine_scrub uri _ _ _ raw i hmid
    all_goals first
      | (simp only [scrubState, scrubResults_pushValues, scrubResults_pushDiag,
           map_scrubValue_parseEnumLine, map_scrubValue_parseVariableListLine]
         rw [hr])
      | (split <;>
          (simp only [scrubState, scrubResults_pushDiag]; rw [hr]))

lemma parseGo_scrub (uri : Str) (skipStatic : Bool) :
    ∀ (lines : List Str) (i : Nat) (s₁ s₂ : ScanState),
      scrubState s₁ = scrubState s₂ →
      scrubState (parseGo uri skipStatic lines i s₁)
        = scrubState (parseGo uri skipStatic lines i s₂) := by
  intro lines
  induction lines with
  | nil => intro i s₁ s₂ h; exact h
  | cons l ls ih =>
    intro i s₁ s₂ h
    exact ih (i + 1) _ _ (parseLine_scrub uri skipStatic s₁ s₂ l i h)

/-- C1 amended: `parse` is deterministic as a function of its arguments and
the pending doc-comment buffer, and the buffer (which the source does not
reset at the start of a call) influences only the documentation strings
attached to the extracted values and callables: erasing documentation, the
results of `parse` are identical whatever the buffer held when the call
started. -/
theorem C1_parse_buffer_affects_only_docs (fileUri content : Str)
    (skipStatic : Bool) (dc dc' : Str) :
    scrubResults (parseSt fileUri content skipStatic dc).results
      = scrubResults (parseSt fileUri content skipStatic dc').results := by
  have hinit : scrubState (initState dc) = scrubState (initState dc') := by
    simp [scrubState, initState]
  have hfin := parseGo_scrub fileUri skipStatic (splitLines content) 0
    (initState dc) (initState dc') hinit
  exact congrArg ScanState.results hfin

/-! ### C5: include-path resolution (`resolveIncludePath`, server module)

The filesystem probe (`FS.accessSync` succeeding) is a readability
predicate; `Path.join` and `URI.file(...).toString()` are abstract function
parameters (their internals do not matter to the claim). -/

/-- The `for` loop of `resolveIncludePath`: per directory try the exact
joined path, then the same path with `.inc` appended; first readable wins. -/
def resolveLoop (readable : String → Bool) (joinP : String → String → String)
    (uriFile : String → String) : List String → String → Option String
  | [], _ => none
  | d :: rest, filename =>
    let path := joinP d filename
    if readable path then some (uriFile path)
    else
      let path2 := path ++ ".inc"
      if readable path2 then some (uriFile path2)
      else resolveLoop readable joinP uriFile rest filename

/-- `resolveIncludePath` from the server module: the configured include
directories, with `localTo` prepended when present (quoted includes pass
the including file's directory). -/
def resolveIncludePath (readable : String → Bool) (joinP : String → String → String)
    (uriFile : String → String) (includePathsSetting : List String)
    (localTo : Option String) (filename : String) : Option String :=
  let includePaths := match localTo with
    | some l => l :: includePathsSetting
    | none => includePathsSetting
  resolveLoop readable joinP uriFile includePaths filename

/-- The ordered candidate list the resolution contract describes: for each
directory in order, the exact filename then the filename with `.inc`. -/
def includeCandidates (joinP : String → String → String) (dirs : List String)
    (filename : String) : List String :=
  dirs.flatMap (fun d => [joinP d filename, joinP d filename ++ ".inc"])

lemma resolveLoop_eq_find (readable : String → Bool) (joinP : String → String → String)
    (uriFile : String → String) :
    ∀ (dirs : List String) (filename : String),
      resolveLoop readable joinP uriFile dirs filename
        = ((includeCandidates joinP dirs filename).find? readable).map uriFile := by
  intro dirs
  induction dirs with
  | nil => intro filename; rfl
  | cons d rest ih =>
    intro filename
    simp only [resolveLoop, includeCandidates, List.flatMap_cons, List.cons_append,
      List.nil_append, List.find?_cons]
    split_ifs with h1 h2 <;> simp_all [ih, includeCandidates]

/-- C5: include resolution is deterministic and path-order-sensitive — the
result is the first readable candidate of the ordered candidate list (per
directory, with the including file's own directory prepended for quoted
includes, the exact filename then the `.inc` variant); in particular with
directories `[A, B]` and the file readable only under `B`, the result is
`B`'s path. -/
theorem C5_include_resolution_order (readable : String → Bool)
    (joinP : String → String → String) (uriFile : String → String) :
    (∀ (dirs : List String) (localTo : Option String) (filename : String),
      resolveIncludePath readable joinP uriFile dirs localTo filename
        = ((includeCandidates joinP
            (match localTo with | some l => l :: dirs | none => dirs)
            filename).find? readable).map uriFile)
    ∧ (∀ (a b filename : String),
        readable (joinP a filename) = false →
        readable (joinP a filename ++ ".inc") = false →
        readable (joinP b filename) = true →
        resolveIncludePath readable joinP uriFile [a, b] none filename
          = some (uriFile (joinP b filename))) := by
  constructor
  · intro dirs localTo filename
    cases localTo <;>
      simp only [resolveIncludePath] <;>
      exact resolveLoop_eq_find readable joinP uriFile _ filename
  · intro a b filename h1 h2 h3
    simp [resolveIncludePath, resolveLoop, h1, h2, h3]

theorem C5_include_resolution_order_witness :
    resolveIncludePath (fun p => p = "B/f") (fun d f => d ++ "/" ++ f)
      (fun p => "file://" ++ p) ["A", "B"] none "f"
      = some "file://B/f" :=
  (C5_include_resolution_order (fun p => p = "B/f") (fun d f => d ++ "/" ++ f)
    (fun p => "file://" ++ p)).2 "A" "B" "f" (by decide) (by decide) (by decide)

/-! ### C6: debounced reparse

`documentsManager.onDidChangeContent` schedules `reparseDocument` via
`setTimeout` only when `data.reparseTimer` is null; `reparseDocument` sets
the field back to null and parses the document's current text.  The timer
machinery is modelled with explicit events: `change t` runs the
content-change handler after the text became `t`; `fire` runs one scheduled
timer callback.  `pending` counts outstanding scheduled callbacks,
`timerSet` is the `reparseTimer` field, `parses` logs the texts
`reparseDocument` parsed, in order. -/

structure DebounceState where
  text : Str
  timerSet : Bool
  pending : Nat
  parses : List Str
deriving Repr, DecidableEq

/-- `onDidOpen`: document data is created and `reparseDocument` runs at
once (no timer involved). -/
def debounceOpen (t : Str) : DebounceState := ⟨t, false, 0, [t]⟩

/-- `onDidChangeContent`: the text has changed; schedule a delayed reparse
only when none is pending. -/
def debounceChange (s : DebounceState) (t : Str) : DebounceState :=
  let s := { s with text := t }
  if s.timerSet = false then { s with timerSet := true, pending := s.pending + 1 }
  else s

/-- A scheduled timer callback fires: `reparseDocument` nulls the timer
field and parses the current text. -/
def debounceFire (s : DebounceState) : DebounceState :=
  if s.pending = 0 then s
  else { s with pending := s.pending - 1, timerSet := false,
                parses := s.parses ++ [s.text] }

inductive DebEvent where
  | change (t : Str)
  | fire
deriving Repr, DecidableEq

def debounceStep (s : DebounceState) : DebEvent → DebounceState
  | .change t => debounceChange s t
  | .fire => debounceFire s

def debounceRun (s : DebounceState) : List DebEvent → DebounceState
  | [] => s
  | e :: es => debounceRun (debounceStep s e) es

lemma debounceRun_invariant :
    ∀ (evs : List DebEvent) (s : DebounceState),
      s.pending ≤ 1 → s.timerSet = decide (s.pending = 1) →
      (debounceRun s evs).pending ≤ 1
      ∧ (debounceRun s evs).timerSet = decide ((debounceRun s evs).pending = 1) := by
  intro evs
  induction evs with
  | nil => intro s h1 h2; exact ⟨h1, h2⟩
  | cons e es ih =>
    intro s h1 h2
    cases e with
    | change t =>
      apply ih
      · simp only [debounceStep, debounceChange]
        split_ifs with h <;> simp_all <;> omega
      · simp only [debounceStep, debounceChange]
        split_ifs with h <;> simp_all <;> omega
    | fire =>
      apply ih
      · simp only [debounceStep, debounceFire]
        split_ifs with h <;> simp_all
      · simp only [debounceStep, debounceFire]
        split_ifs with h <;> simp_all

lemma debounceRun_changes (ts : List Str) :
    ∀ (s : DebounceState), s.timerSet = true →
      debounceRun s (ts.map DebEvent.change)
        = { s with text := ts.getLastD s.text } := by
  induction ts with
  | nil => intro s h; rfl
  | cons t ts ih =>
    intro s h
    simp only [List.map_cons, debounceRun, debounceStep, debounceChange, h]
    rw [if_neg (by simp [h])]
    rw [ih ⟨t, true, s.pending, s.parses⟩ rfl, List.getLastD_cons]

/-- C6: at most one reparse is pending per file in every reachable state
(the timer field is set exactly when one callback is outstanding), and a
burst of edits followed by the single timer callback performs exactly one
reparse, of the final text only. -/
theorem C6_debounced_reparse :
    (∀ (t0 : Str) (evs : List DebEvent),
      (debounceRun (debounceOpen t0) evs).pending ≤ 1
      ∧ (debounceRun (debounceOpen t0) evs).timerSet
          = decide ((debounceRun (debounceOpen t0) evs).pending = 1))
    ∧ (∀ (t0 t1 : Str) (ts : List Str),
      debounceRun (debounceOpen t0) ((t1 :: ts).map DebEvent.change ++ [DebEvent.fire])
        = ⟨(t1 :: ts).getLast (List.cons_ne_nil t1 ts), false, 0,
           [t0, (t1 :: ts).getLast (List.cons_ne_nil t1 ts)]⟩) := by
  constructor
  · intro t0 evs
    exact debounceRun_invariant evs (debounceOpen t0) (by simp [debounceOpen])
      (by simp [debounceOpen])
  · intro t0 t1 ts
    have step1 : debounceStep (debounceOpen t0) (DebEvent.change t1)
        = ⟨t1, true, 1, [t0]⟩ := by
      simp [debounceStep, debounceChange, debounceOpen]
    have hrun : debounceRun (debounceOpen t0)
        ((t1 :: ts).map DebEvent.change ++ [DebEvent.fire])
        = debounceFire (debounceRun ⟨t1, true, 1, [t0]⟩ (ts.map DebEvent.change)) := by
      simp only [List.map_cons, List.cons_append, debounceRun, step1]
      generalize (⟨t1, true, 1, [t0]⟩ : DebounceState) = s
      induction ts generalizing s with
      | nil => rfl
      | cons t ts ih => simp only [List.map_cons, List.cons_append, debounceRun, ih]
    rw [hrun, debounceRun_changes ts ⟨t1, true, 1, [t0]⟩ rfl]
    simp [debounceFire, List.getLast_eq_getLastD]

/-! ### C8: reference search (`doReferences`, `findAllWordOccurrences`,
`findAllStringOccurrences`, `dedupeLocations`)

The identifier resolution step of `doReferences` replaces the identifier by
a callable's identifier only when the two are equal as strings, so the
search core is a function of the resolved identifier text. -/

structure Location where
  uri : String
  range : Range
deriving Repr, DecidableEq

/-- JavaScript `\w`. -/
def jsWordChar (c : Char) : Bool :=
  ('a' ≤ c && c ≤ 'z') || ('A' ≤ c && c ≤ 'Z') || ('0' ≤ c && c ≤ '9') || c = '_'

/-- A JavaScript `\b` word boundary at position `p` of `text`. -/
def wordBoundaryAt (text : Str) (p : Nat) : Bool :=
  let before := match (if p = 0 then none else charAt text (p - 1)) with
    | some c => jsWordChar c
    | none => false
  let after := match charAt text p with
    | some c => jsWordChar c
    | none => false
  before != after

/-- `\bI\b` (with `I` escaped) matches `text` at index `i`. -/
def bareOccurrenceAt (text ident : Str) (i : Nat) : Bool :=
  matchAt text ident i && wordBoundaryAt text i && wordBoundaryAt text (i + ident.length)

/-- `"I"` (with `I` escaped) matches `text` at index `i`. -/
def quotedOccurrenceAt (text ident : Str) (i : Nat) : Bool :=
  matchAt text ('"' :: (ident ++ ['"'])) i

def indexToPositionGo : Str → Nat → Nat → Nat → Position
  | _, 0, line, ch => ⟨line, ch⟩
  | [], _ + 1, line, ch => ⟨line, ch⟩
  | c :: rest, k + 1, line, ch =>
    if c = '\n' then indexToPositionGo rest k (line + 1) 0
    else indexToPositionGo rest k line (ch + 1)

/-- `indexToPosition` from `parser.ts`. -/
def indexToPosition (text : Str) (idx : Nat) : Position :=
  indexToPositionGo text idx 0 0

/-- The `re.exec` loop: scan left to right; a match at `i` is recorded and
the scan resumes at `i + matchLen` (the regex's `lastIndex`). -/
def scanOccs (occ : Nat → Bool) (matchLen : Nat) : Nat → Nat → List Nat
  | 0, _ => []
  | fuel + 1, i =>
    if occ i then i :: scanOccs occ matchLen fuel (i + matchLen)
    else scanOccs occ matchLen fuel (i + 1)

/-- `findAllWordOccurrences` from `parser.ts`. -/
def findAllWordOccurrences (uri : String) (text ident : Str) : List Location :=
  (scanOccs (bareOccurrenceAt text ident) ident.length (text.length + 1) 0).map
    (fun ix => ⟨uri, ⟨indexToPosition text ix, indexToPosition text (ix + ident.length)⟩⟩)

/-- `findAllStringOccurrences` from `parser.ts` (the locations cover only
the inside of the quotes). -/
def findAllStringOccurrences (uri : String) (text ident : Str) : List Location :=
  (scanOccs (quotedOccurrenceAt text ident) (ident.length + 2) (text.length + 1) 0).map
    (fun ix => ⟨uri, ⟨indexToPosition text (ix + 1),
                      indexToPosition text (ix + 1 + ident.length)⟩⟩)

/-- The dedupe key of `dedupeLocations` (the source builds the string
`uri:line:char:line:char`; on the locations of one search, which share one
`uri`, that string determines exactly these components). -/
def locKey (l : Location) : String × Nat × Nat × Nat × Nat :=
  (l.uri, l.range.start.line, l.range.start.character,
   l.range.stop.line, l.range.stop.character)

def dedupeGo : List (String × Nat × Nat × Nat × Nat) → List Location → List Location
  | _, [] => []
  | seen, l :: rest =>
    if locKey l ∈ seen then dedupeGo seen rest
    else l :: dedupeGo (locKey l :: seen) rest

/-- `dedupeLocations` from `parser.ts`. -/
def dedupeLocations (locs : List Location) : List Location := dedupeGo [] locs

/-- The search core of `doReferences`: bare word occurrences, quoted
occurrences, then dedupe. -/
def referenceSearch (uri : String) (text ident : Str) : List Location :=
  dedupeLocations
    (findAllWordOccurrences uri text ident ++ findAllStringOccurrences uri text ident)

lemma matchAt_lt {s sub : Str} {i : Nat} (hne : sub ≠ [])
    (h : matchAt s sub i = true) : i < s.length := by
  have hp : sub <+: s.drop i := of_decide_eq_true h
  by_contra hge
  have hnil : s.drop i = [] := List.drop_eq_nil_of_le (Nat.le_of_not_lt hge)
  rw [hnil] at hp
  exact hne (List.prefix_nil.mp hp)

lemma scanOccs_complete (occ : Nat → Bool) (len bound : Nat) (hlen : 1 ≤ len)
    (hbd : ∀ i, occ i = true → i < bound)
    (hnol : ∀ i j, occ i = true → occ j = true → i < j → i + len ≤ j) :
    ∀ fuel start, bound ≤ start + fuel →
      ∀ j, start ≤ j → occ j = true → j ∈ scanOccs occ len fuel start := by
  intro fuel
  induction fuel with
  | zero =>
    intro start hb j hsj hj
    exact absurd (hbd j hj) (by omega)
  | succ n ih =>
    intro start hb j hsj hj
    simp only [scanOccs]
    by_cases ho : occ start = true
    · rw [if_pos ho]
      rcases Nat.eq_or_lt_of_le hsj with he | hlt
      · rw [he]
        exact List.mem_cons_self _ _
      · have hle := hnol start j ho hj hlt
        exact List.mem_cons_of_mem _ (ih (start + len) (by omega) j hle hj)
    · rw [if_neg ho]
      have hs1 : start + 1 ≤ j := by
        rcases Nat.eq_or_lt_of_le hsj with he | hlt
        · rw [← he] at hj
          exact absurd hj ho
        · omega
      exact ih (start + 1) (by omega) j hs1 hj

lemma locKey_inj {l l' : Location} (h : locKey l = locKey l') : l = l' := by
  obtain ⟨u, ⟨⟨sl, sc⟩, ⟨el, ec⟩⟩⟩ := l
  obtain ⟨u', ⟨⟨sl', sc'⟩, ⟨el', ec'⟩⟩⟩ := l'
  simp only [locKey, Prod.mk.injEq] at h
  obtain ⟨h1, h2, h3, h4, h5⟩ := h
  simp_all

lemma dedupeGo_mem (l : Location) :
    ∀ (locs : List Location) (seen : List (String × Nat × Nat × Nat × Nat)),
      l ∈ locs → locKey l ∉ seen → l ∈ dedupeGo seen locs := by
  intro locs
  induction locs with
  | nil =>
    intro seen h _
    exact absurd h (List.not_mem_nil l)
  | cons x rest ih =>
    intro seen hl hk
    simp only [dedupeGo]
    rcases List.mem_cons.mp hl with rfl | hl'
    · rw [if_neg hk]
      exact List.mem_cons_self _ _
    · by_cases hx : locKey x ∈ seen
      · rw [if_pos hx]
        exact ih seen hl' hk
      · rw [if_neg hx]
        by_cases hkey : locKey l = locKey x
        · rw [locKey_inj hkey]
          exact List.mem_cons_self _ _
        · refine List.mem_cons_of_mem _ (ih _ hl' ?_)
          intro hmem
          rcases List.mem_cons.mp hmem with h | h
          · exact hkey h
          · exact hk h

lemma dedupeGo_pairwise :
    ∀ (locs : List Location) (seen : List (String × Nat × Nat × Nat × Nat)),
      (dedupeGo seen locs).Pairwise (fun a b => a ≠ b)
      ∧ ∀ l ∈ dedupeGo seen locs, locKey l ∉ seen := by
  intro locs
  induction locs with
  | nil =>
    intro seen
    exact ⟨List.Pairwise.nil, by intro l h; exact absurd h (List.not_mem_nil l)⟩
  | cons x rest ih =>
    intro seen
    simp only [dedupeGo]
    by_cases hx : locKey x ∈ seen
    · rw [if_pos hx]
      exact ih seen
    · rw [if_neg hx]
      obtain ⟨hpw, hmem⟩ := ih (locKey x :: seen)
      refine ⟨List.Pairwise.cons ?_ hpw, ?_⟩
      · intro b hb heq
        exact hmem b hb (heq ▸ List.mem_cons_self _ _)
      · intro l hl
        rcases List.mem_cons.mp hl with rfl | hl'
        · exact hx
        · intro hs
          exact hmem l hl' (List.mem_cons_of_mem _ hs)

lemma referenceSearch_mem {uri : String} {text ident : Str} {l : Location}
    (h : l ∈ findAllWordOccurrences uri text ident
           ++ findAllStringOccurrences uri text ident) :
    l ∈ referenceSearch uri text ident :=
  dedupeGo_mem l _ [] h (List.not_mem_nil _)

/-- C8 (counterexample to the original claim): for identifier `a@a` (a valid
Pawn identifier — `@` is an identifier character for the parser but not a
JavaScript `\w` character) in the text `a@a@a`, the occurrence at index 2 is
a bare word-boundary occurrence, yet the reference search returns no
location for it: the `exec` loop's `lastIndex` jumps past overlapping
occurrences. -/
theorem C8_occurrence_skipped_counterexample :
    bareOccurrenceAt (str "a@a@a") (str "a@a") 2 = true
    ∧ (⟨"u", ⟨indexToPosition (str "a@a@a") 2,
              indexToPosition (str "a@a@a") (2 + (str "a@a").length)⟩⟩ : Location)
        ∉ referenceSearch "u" (str "a@a@a") (str "a@a") := by
  decide

/-- C8 (amended): provided no two bare occurrences of the identifier overlap
and no two quoted occurrences overlap, the reference search returns a
location for every bare word-boundary occurrence and for every quoted
occurrence, and no two locations in the returned list are equal as
(uri, range) pairs (a `Location` is exactly such a pair). -/
theorem C8_reference_search (uri : String) (text ident : Str) (hne : ident ≠ [])
    (hnb : ∀ i < text.length, ∀ j < text.length,
      bareOccurrenceAt text ident i = true → bareOccurrenceAt text ident j = true →
      i < j → i + ident.length ≤ j)
    (hnq : ∀ i < text.length, ∀ j < text.length,
      quotedOccurrenceAt text ident i = true → quotedOccurrenceAt text ident j = true →
      i < j → i + (ident.length + 2) ≤ j) :
    (∀ i, bareOccurrenceAt text ident i = true →
      (⟨uri, ⟨indexToPosition text i, indexToPosition text (i + ident.length)⟩⟩ : Location)
        ∈ referenceSearch uri text ident)
    ∧ (∀ i, quotedOccurrenceAt text ident i = true →
      (⟨uri, ⟨indexToPosition text (i + 1),
              indexToPosition text (i + 1 + ident.length)⟩⟩ : Location)
        ∈ referenceSearch uri text ident)
    ∧ (referenceSearch uri text ident).Pairwise (fun a b => a ≠ b) := by
  have hlen : 1 ≤ ident.length := by
    cases ident with
    | nil => exact absurd rfl hne
    | cons c cs => exact Nat.succ_le_succ (Nat.zero_le _)
  have hbareLt : ∀ i, bareOccurrenceAt text ident i = true → i < text.length := by
    intro i h
    have hm : matchAt text ident i = true := by
      simp only [bareOccurrenceAt, Bool.and_eq_true] at h
      exact h.1.1
    exact matchAt_lt hne hm
  have hquotLt : ∀ i, quotedOccurrenceAt text ident i = true → i < text.length := by
    intro i h
    exact matchAt_lt (by simp) h
  refine ⟨?_, ?_, ?_⟩
  · intro i hi
    have hmem : i ∈ scanOccs (bareOccurrenceAt text ident) ident.length
        (text.length + 1) 0 := by
      refine scanOccs_complete _ _ text.length hlen hbareLt
        (fun a b ha hb hab => hnb a (hbareLt a ha) b (hbareLt b hb) ha hb hab)
        (text.length + 1) 0 (by omega) i (Nat.zero_le _) hi
    exact referenceSearch_mem
      (List.mem_append_left _ (List.mem_map_of_mem _ hmem))
  · intro i hi
    have hmem : i ∈ scanOccs (quotedOccurrenceAt text ident) (ident.length + 2)
        (text.length + 1) 0 := by
      refine scanOccs_complete _ _ text.length (by omega) hquotLt
        (fun a b ha hb hab => hnq a (hquotLt a ha) b (hquotLt b hb) ha hb hab)
        (text.length + 1) 0 (by omega) i (Nat.zero_le _) hi
    exact referenceSearch_mem
      (List.mem_append_right _ (List.mem_map_of_mem _ hmem))
  · exact (dedupeGo_pairwise
      (findAllWordOccurrences uri text ident ++ findAllStringOccurrences uri text ident)
      []).1

theorem C8_reference_search_witness :
    (⟨"u", ⟨indexToPosition (str "Foo(1) \"Foo\"") 0,
            indexToPosition (str "Foo(1) \"Foo\"") (0 + (str "Foo").length)⟩⟩ : Location)
      ∈ referenceSearch "u" (str "Foo(1) \"Foo\"") (str "Foo") :=
  (C8_reference_search "u" (str "Foo(1) \"Foo\"") (str "Foo")
    (by decide) (by decide) (by decide)).1 0 (by decide)

/-! ### C10: `doDefinition` and its local-declaration search helpers -/

/-- `positionToIndex` from `parser.ts`: walk forward counting newlines until
`position.line` lines have been passed, then add the character offset.  The
JavaScript loop never checks the string bound, so when the text has fewer
newlines than `position.line` it runs forever reading `undefined`; that
divergence is `none` here. -/
def p2iGo : Str → Nat → Nat → Option Nat
  | _, 0, idx => some idx
  | [], _ + 1, _ => none
  | c :: rest, k + 1, idx =>
    if c = '\n' then p2iGo rest k (idx + 1)
    else p2iGo rest (k + 1) (idx + 1)

def positionToIndex (content : Str) (position : Position) : Option Nat :=
  (p2iGo content position.line 0).map (· + position.character)

/-- `normalizeIdentifier` from `parser.ts`: strip leading digits. -/
def normalizeIdentifier (identifier : Str) : Str :=
  identifier.dropWhile StringHelpers.isDigit

/-- Left scan of `findIdentifierAtCursor`: collect identifier characters
rightmost-first going down from the cursor.  Faithful to the source, the
accumulated (reversed) text is only re-reversed when the scan stops at a
non-identifier character; when it runs off the front of the text the loop
exits without reversing. -/
def fiacLeft : Str → Nat → Str → Str
  | content, 0, acc =>
    match charAt content 0 with
    | some c => if StringHelpers.isAlphaNum c then acc ++ [c] else acc.reverse
    | none => acc.reverse
  | content, i + 1, acc =>
    match charAt content (i + 1) with
    | some c =>
      if StringHelpers.isAlphaNum c then fiacLeft content i (acc ++ [c])
      else acc.reverse
    | none => acc.reverse

/-- Right scan of `findIdentifierAtCursor`: extend the identifier to the
right of the cursor; on the first non-identifier character, skip whitespace
and report whether a `(` follows (the `isCallable` flag). -/
def fiacRight (content : Str) : Nat → Nat → Str → Str × Bool
  | 0, _, acc => (acc, false)
  | fuel + 1, i, acc =>
    match charAt content i with
    | none => (acc, false)
    | some c =>
      if StringHelpers.isAlphaNum c then fiacRight content fuel (i + 1) (acc ++ [c])
      else (acc, decide (charAt content (skipWs content i) = some '('))

/-- `findIdentifierAtCursor` from `parser.ts`. -/
def findIdentifierAtCursor (content : Str) (cursorIndex : Nat) : Str × Bool :=
  match charAt content cursorIndex with
  | none => ([], false)
  | some c =>
    if ¬ StringHelpers.isAlphaNum c then ([], false)
    else if cursorIndex = 0 ∧ StringHelpers.isDigit c then ([], false)
    else if 0 < cursorIndex ∧ StringHelpers.isDigit c
            ∧ isWhitespaceOpt (charAt content (cursorIndex - 1)) then ([], false)
    else
      let left := fiacLeft content cursorIndex []
      let fullAndCallable :=
        if cursorIndex + 1 = content.length then (left, false)
        else fiacRight content (content.length + 1) (cursorIndex + 1) left
      (normalizeIdentifier fullAndCallable.1, fullAndCallable.2)

/-- The loop of `findIdentifierBehindCursor`.  Faithful to the source: when
the scan runs off the front of the text (every character down to index 0 is
an identifier character) the function returns the empty string, discarding
what it collected. -/
def fibcGo : Str → Nat → Str → Str
  | content, 0, acc =>
    match charAt content 0 with
    | some c =>
      if StringHelpers.isAlphaNum c then []
      else normalizeIdentifier acc.reverse
    | none => normalizeIdentifier acc.reverse
  | content, i + 1, acc =>
    match charAt content (i + 1) with
    | some c =>
      if StringHelpers.isAlphaNum c then fibcGo content i (acc ++ [c])
      else normalizeIdentifier acc.reverse
    | none => normalizeIdentifier acc.reverse

def findIdentifierBehindCursor (content : Str) (cursorIndex : Nat) : Str :=
  if cursorIndex = 0 then [] else fibcGo content (cursorIndex - 1) []

/-- `getIdentifierAtOrBehindCursor` from `parser.ts`. -/
def getIdentifierAtOrBehindCursor (content : Str) (cursorIndex : Nat) : Str × Bool :=
  let at1 := findIdentifierAtCursor content cursorIndex
  if 0 < at1.1.length then at1
  else
    let ident := findIdentifierBehindCursor content cursorIndex
    if ident = [] then ([], false)
    else (ident, decide (charAt content (skipWs content cursorIndex) = some '('))

/-- Left quote scan of `findIdentifierInsideStringLiteral`: nearest `"` at
or left of `i`, stopping at a newline or the front of the text. -/
def strLitLeft : Str → Nat → Option Nat
  | content, 0 => if charAt content 0 = some '"' then some 0 else none
  | content, i + 1 =>
    match charAt content (i + 1) with
    | some '"' => some (i + 1)
    | some '\n' => none
    | some _ => strLitLeft content i
    | none => strLitLeft content i

/-- Right quote scan of `findIdentifierInsideStringLiteral`: nearest `"` at
or right of `i`, stopping at a newline or the end of the text. -/
def strLitRight (content : Str) : Nat → Nat → Option Nat
  | 0, _ => none
  | fuel + 1, i =>
    match charAt content i with
    | none => none
    | some '"' => some i
    | some '\n' => none
    | some _ => strLitRight content fuel (i + 1)

/-- `while (start > 0 && isIdentChar(inside[start - 1])) start--`. -/
def scanIdentLeft : Str → Nat → Nat
  | _, 0 => 0
  | inside, s + 1 =>
    match charAt inside s with
    | some c => if StringHelpers.isAlphaNum c then scanIdentLeft inside s else s + 1
    | none => s + 1

/-- `while (end < inside.length && isIdentChar(inside[end])) end++`. -/
def scanIdentRight (inside : Str) : Nat → Nat → Nat
  | 0, e => e
  | fuel + 1, e =>
    match charAt inside e with
    | some c => if StringHelpers.isAlphaNum c then scanIdentRight inside fuel (e + 1) else e
    | none => e

/-- `findIdentifierInsideStringLiteral` from `parser.ts`. -/
def findIdentifierInsideStringLiteral (content : Str) (cursorIndex : Nat) : Option Str :=
  if cursorIndex < content.length then
    match strLitLeft content cursorIndex with
    | none => none
    | some left =>
      match strLitRight content (content.length + 1) cursorIndex with
      | none => none
      | some right =>
        if cursorIndex ≤ left ∨ right ≤ cursorIndex then none
        else
          let inside := sliceN content (left + 1) right
          let rel := cursorIndex - (left + 1)
          if inside.length ≤ rel then none
          else
            let start := scanIdentLeft inside rel
            let stop := scanIdentRight inside (inside.length + 1) rel
            let token := sliceN inside start stop
            if token = [] then none
            else if (match token with
                     | c :: _ => StringHelpers.isDigit c
                     | [] => false) then none
            else some token
  else none

/-- Was the previous character a quote escape (`\` or `^`)?  This is
`isEscapedQuote(content, i)` with the character before `i` passed
explicitly (`none` when `i = 0`). -/
def escapedPrev : Option Char → Bool
  | some c => c = '\\' || c = '^'
  | none => false

/-- The character loop of `computeLineDepths`, iterating an index into the
text (the fuel only bounds the index walk, which advances every step).
Faithful to the source: newlines inside a block comment neither advance the
line counter nor record a depth, so such lines get no entry of their own. -/
def cldGo (content : Str) : Nat → Nat → Nat → Bool → Bool → Bool → List Nat → List Nat
  | 0, _, _, _, _, _, acc => acc
  | fuel + 1, i, depth, inStr, inLC, inBC, acc =>
    match charAt content i with
    | none => acc
    | some c =>
      let next := charAt content (i + 1)
      let esc := escapedPrev (if i = 0 then none else charAt content (i - 1))
      if inLC then
        if c = '\n' then cldGo content fuel (i + 1) depth inStr false inBC (acc ++ [depth])
        else cldGo content fuel (i + 1) depth inStr true inBC acc
      else if inBC then
        if c = '*' && next = some '/' then
          cldGo content fuel (i + 2) depth inStr inLC false acc
        else cldGo content fuel (i + 1) depth inStr inLC true acc
      else if inStr then
        let inStr2 := !(c = '"' && !esc)
        if c = '\n' then cldGo content fuel (i + 1) depth inStr2 inLC inBC (acc ++ [depth])
        else cldGo content fuel (i + 1) depth inStr2 inLC inBC acc
      else
        if c = '/' && next = some '/' then
          cldGo content fuel (i + 2) depth inStr true inBC acc
        else if c = '/' && next = some '*' then
          cldGo content fuel (i + 2) depth inStr inLC true acc
        else if c = '"' && !esc then cldGo content fuel (i + 1) depth true inLC inBC acc
        else
          let depth2 := if c = '{' then depth + 1 else if c = '}' then depth - 1 else depth
          if c = '\n' then cldGo content fuel (i + 1) depth2 inStr inLC inBC (acc ++ [depth2])
          else cldGo content fuel (i + 1) depth2 inStr inLC inBC acc

/-- `computeLineDepths` from `parser.ts` (entry `l` is the brace depth at
the start of line `l`; `}` never takes the depth below zero). -/
def computeLineDepths (content : Str) : List Nat :=
  cldGo content (content.length + 1) 0 0 false false false [0]

/-- The candidate fold of `findLocalParameterRange`: the callable declared
latest at or before the query line (first wins on ties). -/
def flprCandidate (posLine : Nat) :
    List CallableDescriptor → Option CallableDescriptor → Option CallableDescriptor
  | [], cand => cand
  | clb :: rest, cand =>
    if clb.start.line ≤ posLine then
      match cand with
      | none => flprCandidate posLine rest (some clb)
      | some c =>
        if c.start.line < clb.start.line then flprCandidate posLine rest (some clb)
        else flprCandidate posLine rest (some c)
    else flprCandidate posLine rest cand

/-- `findLocalParameterRange` from `parser.ts`: at positive brace depth,
find the enclosing callable's declaration line and return the range of the
first `\b`-delimited occurrence of the identifier after its `(`. -/
def findLocalParameterRange (content : Str) (position : Position) (identifier : Str)
    (callables : List CallableDescriptor) : Option Range :=
  let lines := splitLines content
  if lines.length ≤ position.line then none
  else
    let depthAtLine := computeLineDepths content
    if depthAtLine.getD position.line 0 = 0 then none
    else
      match flprCandidate position.line callables none with
      | none => none
      | some cand =>
        let line := lines.getD cand.start.line []
        match jsIndexOf line ['('] with
        | none => none
        | some parenIdx =>
          match (scanOccs (bareOccurrenceAt line identifier) identifier.length
              (line.length + 1) 0).find? (fun ix => parenIdx < ix) with
          | none => none
          | some ix =>
            some ⟨⟨cand.start.line, ix⟩, ⟨cand.start.line, ix + identifier.length⟩⟩

/-- `stripDeclSpecifiers`: try one declaration keyword with a `\b` after it. -/
def sdsKw (s : Str) : Option Str :=
  (([str "new", str "const", str "static", str "stock", str "public"].find?
      (fun kw => matchAt s kw 0
        && !(match charAt s kw.length with
             | some c => jsWordChar c
             | none => false)))).map
    (fun kw => s.drop kw.length)

/-- The `(keyword\b\s*)+` chain: after each keyword consume `\s*`, then try
another keyword. -/
def sdsChain : Nat → Str → Str
  | 0, s => s
  | fuel + 1, s =>
    let s1 := s.dropWhile jsWhitespaceChar
    match sdsKw s1 with
    | some rest => sdsChain fuel rest
    | none => s1

/-- `stripDeclSpecifiers` from `parser.ts`: remove the leading
`/^\s*(?:(?:new|const|static|stock|public)\b\s*)+/` match, if any (the line
is returned unchanged, leading whitespace included, when no keyword
starts it). -/
def stripDeclSpecifiers (line : Str) : Str :=
  let s1 := line.dropWhile jsWhitespaceChar
  match sdsKw s1 with
  | none => line
  | some rest => sdsChain (line.length + 1) rest

/-- The parts loop of `findDeclaredIdentifierRange`. -/
def fdirGo (line identifier : Str) : List Str → Nat → Option (Nat × Nat)
  | [], _ => none
  | part :: rest, offset =>
    let next := offset + part.length + 1
    let text := jsTrim part
    if text = [] then fdirGo line identifier rest next
    else
      match matchDeclIdent text with
      | none => fdirGo line identifier rest next
      | some m =>
        if m.2 ≠ identifier then fdirGo line identifier rest next
        else
          let start :=
            match jsIndexOf part m.2 with
            | some idx => offset + idx
            | none => offset
          some (start, start + identifier.length)

/-- `findDeclaredIdentifierRange` from `parser.ts`: strip declaration
specifiers, split on commas, and return the column range of the part whose
leading (optionally tagged) identifier equals `identifier`. -/
def findDeclaredIdentifierRange (line identifier : Str) : Option (Nat × Nat) :=
  let lineNoSpec := stripDeclSpecifiers line
  let parts := jsSplitChar lineNoSpec ','
  let offset :=
    match jsIndexOf line lineNoSpec with
    | some i => i
    | none => 0
  fdirGo line identifier parts offset

/-- `/\b(new|const|static|stock)\b/.test(line)` (note: no `public` here). -/
def flvrDeclKw (line : Str) : Bool :=
  (List.range (line.length + 1)).any (fun i =>
    bareOccurrenceAt line (str "new") i || bareOccurrenceAt line (str "const") i
    || bareOccurrenceAt line (str "static") i || bareOccurrenceAt line (str "stock") i)

/-- Backward block-start scan of `findLocalValueRange`:
`while (blockStart >= 0 && depth[blockStart] >= target) blockStart--`, then
`max(0, blockStart + 1)`. -/
def flvrBlockStart (depths : List Nat) (target : Nat) : Nat → Nat
  | 0 => if target ≤ depths.getD 0 0 then 0 else 1
  | b + 1 => if target ≤ depths.getD (b + 1) 0 then flvrBlockStart depths target b else b + 2

/-- Forward block-end scan of `findLocalValueRange` (before the final
`min(lines.length - 1, blockEnd - 1)`). -/
def flvrBlockEnd (depths : List Nat) (target len : Nat) : Nat → Nat → Nat
  | 0, b => b
  | fuel + 1, b =>
    if b < len ∧ target ≤ depths.getD b 0 then flvrBlockEnd depths target len fuel (b + 1)
    else b

/-- The line loop of `findLocalValueRange` over one block, tracking the
`inDecl` multi-line-declaration flag. -/
def flvrScan (lines : List Str) (depths : List Nat) (target : Nat) (identifier : Str) :
    Nat → Nat → Nat → Bool → Option Range
  | 0, _, _, _ => none
  | fuel + 1, lineIndex, blockEnd, inDecl =>
    if blockEnd < lineIndex then none
    else if depths.getD lineIndex 0 ≠ target then
      flvrScan lines depths target identifier fuel (lineIndex + 1) blockEnd false
    else
      let line0 := lines.getD lineIndex []
      let line :=
        match jsIndexOf line0 (str "//") with
        | some ci => line0.take ci
        | none => line0
      if (jsTrim line).length = 0 then
        flvrScan lines depths target identifier fuel (lineIndex + 1) blockEnd inDecl
      else
        let inDecl1 := inDecl || flvrDeclKw line
        match (if inDecl1 then findDeclaredIdentifierRange line identifier else none) with
        | some r => some ⟨⟨lineIndex, r.1⟩, ⟨lineIndex, r.2⟩⟩
        | none =>
          let inDecl2 := inDecl1 && !(jsIndexOf line [';']).isSome
          flvrScan lines depths target identifier fuel (lineIndex + 1) blockEnd inDecl2

/-- The `targetDepth` loop of `findLocalValueRange`, from the start depth
down to 1. -/
def flvrDepthLoop (lines : List Str) (depths : List Nat) (identifier : Str)
    (posLine : Nat) : Nat → Option Range
  | 0 => none
  | target + 1 =>
    let blockStart := flvrBlockStart depths (target + 1) posLine
    let bEnd0 := flvrBlockEnd depths (target + 1) lines.length (lines.length + 1) posLine
    let blockEnd := min (lines.length - 1) (bEnd0 - 1)
    match flvrScan lines depths (target + 1) identifier (lines.length + 1)
        blockStart blockEnd false with
    | some r => some r
    | none => flvrDepthLoop lines depths identifier posLine target

/-- `findLocalValueRange` from `parser.ts`. -/
def findLocalValueRange (content : Str) (position : Position) (identifier : Str) :
    Option Range :=
  let lines := splitLines content
  if lines.length ≤ position.line then none
  else
    let depths := computeLineDepths content
    let startDepth := depths.getD position.line 0
    if startDepth = 0 then none
    else flvrDepthLoop lines depths identifier position.line startDepth

/-- Modelled from the spec: the collections returned by `Helpers.getSymbols`
(`helpers.ts` is not part of the sources at hand).  The spec describes it
as the merged symbol view — the union of the document's own callables and
values with those of its reachable dependencies.  Cycle protection and
duplicate suppression only affect which elements appear, which the theorems
below never fix, so the model takes the already-expanded per-dependency
tables and concatenates them after the document's own. -/
structure SymbolsData where
  callables : List CallableDescriptor
  values : List ValueDescriptor
deriving Repr, DecidableEq

/-- The fields of `Types.DocumentData` (`types.ts`) that `doDefinition`
reads: its URI and its own parsed callables and values. -/
structure DocumentData where
  uri : String
  callables : List CallableDescriptor
  values : List ValueDescriptor
deriving Repr, DecidableEq

/-- Modelled from the spec: `Helpers.getSymbols` — own symbols first,
then each dependency's. -/
def getSymbols (own : SymbolsData) (depsSymbols : List SymbolsData) : SymbolsData :=
  ⟨own.callables ++ (depsSymbols.map (·.callables)).join,
   own.values ++ (depsSymbols.map (·.values)).join⟩

/-- The `Location` built for a callable resolution:
`Location.create(callable.file.toString(), Range.create(callable.start, callable.end))`. -/
def doDefCallableLoc (c : CallableDescriptor) : Location :=
  ⟨String.mk c.file, ⟨c.start, c.stop⟩⟩

/-- The non-callable branch of `doDefinition`: local parameter, then
block-local value, then merged global value — each with the same-line
guard. -/
def doDefNonCallable (content : Str) (position : Position) (data : DocumentData)
    (symbols : SymbolsData) (ident : Str) : Option Location :=
  match findLocalParameterRange content position ident data.callables with
  | some paramRange =>
    if position.line = paramRange.start.line then none
    else some ⟨data.uri, paramRange⟩
  | none =>
    match findLocalValueRange content position ident with
    | some localRange =>
      if position.line = localRange.start.line then none
      else some ⟨data.uri, localRange⟩
    | none =>
      match symbols.values.find? (fun v => v.identifier == ident) with
      | none => none
      | some value =>
        if position.line = value.range.start.line then none
        else some ⟨String.mk value.file, value.range⟩

/-- Step 2 of `doDefinition` (the "normal identifier logic"). -/
def doDefFallback (content : Str) (position : Position) (data : DocumentData)
    (symbols : SymbolsData) (cursorIndex : Nat) : Option Location :=
  let result := getIdentifierAtOrBehindCursor content cursorIndex
  if result.1.length = 0 then none
  else if result.2 then
    match symbols.callables.find? (fun c => c.identifier == result.1) with
    | none => none
    | some c => some (doDefCallableLoc c)
  else doDefNonCallable content position data symbols result.1

/-- `doDefinition` from `parser.ts`.  The outer `Option` is `none` exactly
when `positionToIndex` diverges; the inner `Option` is the JavaScript
`Location | null` result.  The source's `indexOf` over the mapped
identifier list followed by indexing is rendered as `List.find?` on the
identifier predicate. -/
def doDefinition (content : Str) (position : Position) (data : DocumentData)
    (depsSymbols : List SymbolsData) : Option (Option Location) :=
  match positionToIndex content position with
  | none => none
  | some cursorIndex =>
    let symbols := getSymbols ⟨data.callables, data.values⟩ depsSymbols
    some (match findIdentifierInsideStringLiteral content cursorIndex with
      | some stringIdent =>
        (match symbols.callables.find? (fun c => c.identifier == stringIdent) with
         | some c => some (doDefCallableLoc c)
         | none => doDefFallback content position data symbols cursorIndex)
      | none => doDefFallback content position data symbols cursorIndex)

/-- C10: when the go-to-definition fallback resolves a non-callable
identifier through any of its three channels (enclosing callable's
parameter, block-local declaration, merged global value) and the found
declaration starts on the queried line, `doDefinition` returns null; the
callable channel returns its `Location` with no such same-line guard. -/
theorem C10_doDefinition_same_line_guard (content : Str) (position : Position)
    (data : DocumentData) (depsSymbols : List SymbolsData) (cursorIndex : Nat)
    (ident : Str) (isC : Bool)
    (hpti : positionToIndex content position = some cursorIndex)
    (hstr : findIdentifierInsideStringLiteral content cursorIndex = none)
    (hres : getIdentifierAtOrBehindCursor content cursorIndex = (ident, isC))
    (hne : ident ≠ []) :
    (isC = false →
      ∀ r, findLocalParameterRange content position ident data.callables = some r →
        position.line = r.start.line →
        doDefinition content position data depsSymbols = some none)
    ∧ (isC = false →
      findLocalParameterRange content position ident data.callables = none →
      ∀ r, findLocalValueRange content position ident = some r →
        position.line = r.start.line →
        doDefinition content position data depsSymbols = some none)
    ∧ (isC = false →
      findLocalParameterRange content position ident data.callables = none →
      findLocalValueRange content position ident = none →
      ∀ v, (getSymbols ⟨data.callables, data.values⟩ depsSymbols).values.find?
          (fun w => w.identifier == ident) = some v →
        position.line = v.range.start.line →
        doDefinition content position data depsSymbols = some none)
    ∧ (isC = true →
      ∀ c, (getSymbols ⟨data.callables, data.values⟩ depsSymbols).callables.find?
          (fun d => d.identifier == ident) = some c →
        doDefinition content position data depsSymbols = some (some (doDefCallableLoc c))) := by
  have hlen : ¬ ident.length = 0 := fun h => hne (List.length_eq_zero.mp h)
  have hdd : doDefinition content position data depsSymbols
      = some (doDefFallback content position data
          (getSymbols ⟨data.callables, data.values⟩ depsSymbols) cursorIndex) := by
    simp only [doDefinition, hpti, hstr]
  refine ⟨?_, ?_, ?_, ?_⟩
  · intro hisC r hpr hline
    rw [hdd]
    simp only [doDefFallback, hres, hisC, if_neg hlen, Bool.false_eq_true, if_false,
      doDefNonCallable, hpr, if_pos hline]
  · intro hisC hprn r hlr hline
    rw [hdd]
    simp only [doDefFallback, hres, hisC, if_neg hlen, Bool.false_eq_true, if_false,
      doDefNonCallable, hprn, hlr, if_pos hline]
  · intro hisC hprn hlrn v hv hline
    rw [hdd]
    simp only [doDefFallback, hres, hisC, if_neg hlen, Bool.false_eq_true, if_false,
      doDefNonCallable, hprn, hlrn, hv, if_pos hline]
  · intro hisC c hc
    rw [hdd]
    simp only [doDefFallback, hres, hisC, if_neg hlen, if_true, hc]

theorem C10_doDefinition_same_line_guard_witness :
    doDefinition (str "main() \x7b\n new x = 1;\n\x7d") ⟨1, 5⟩
      ⟨"file:///a", [], []⟩ [] = some none :=
  (C10_doDefinition_same_line_guard (str "main() \x7b\n new x = 1;\n\x7d") ⟨1, 5⟩
      ⟨"file:///a", [], []⟩ [] 14 (str "x") false
      (by decide) (by decide) (by decide) (by decide)).2.1 rfl (by decide)
    ⟨⟨1, 5⟩, ⟨1, 6⟩⟩ (by decide) rfl

/-! ### C3: dependency reference counting

`dependency-manager.ts` and `helpers.ts` are not among the sources at
hand; their operations (`getDependency`/`addReference` lookup-or-create,
`release` decrement, reachability sweep) are modelled from the spec's §4.2
contract.  The registration loop is translated from `parseFile`
(`server.ts`): per resolved inclusion, skip a self-include, create the node
with count 1 when absent, increment only when the node exists but is not in
the document's OLD dependency list, record the node (duplicates included)
in the new list, and parse a dependency file recursively the first time a
record for it is created; afterwards release every old dependency absent
from the new list and install the new list.  Events carry the already
resolved inclusion URIs (resolution failures only produce diagnostics and
register nothing); `env` gives each dependency file's own resolved
inclusions. -/

def alookup {α : Type} (l : List (String × α)) (k : String) : Option α :=
  (l.find? (fun p => decide (p.1 = k))).map (·.2)

def akeys {α : Type} (l : List (String × α)) : List String := l.map (·.1)

/-- Overwrite the value at an existing key. -/
def setA {α : Type} (l : List (String × α)) (k : String) (v : α) : List (String × α) :=
  l.map (fun p => if p.1 = k then (p.1, v) else p)

/-- Modelled from the spec: `addReference` on an existing node — increment
its count. -/
def bump (nodes : List (String × Int)) (u : String) : List (String × Int) :=
  nodes.map (fun p => if p.1 = u then (p.1, p.2 + 1) else p)

/-- Modelled from the spec: `release` of one node — decrement its count. -/
def releaseOne (nodes : List (String × Int)) (u : String) : List (String × Int) :=
  nodes.map (fun p => if p.1 = u then (p.1, p.2 - 1) else p)

/-- Modelled from the spec: `Helpers.removeDependencies` — release each
listed node (duplicates in the list are released once each). -/
def releaseMany (nodes : List (String × Int)) (us : List String) : List (String × Int) :=
  us.foldl releaseOne nodes

/-- The dependency-layer state: registered nodes with their reference
counts, the open documents' records with their dependency lists, and the
dependency files' records (`dependenciesData`) with theirs. -/
structure DepState where
  nodes : List (String × Int)
  openDocs : List (String × List String)
  depRecords : List (String × List String)
deriving Repr, DecidableEq

def depInit : DepState := ⟨[], [], []⟩

/-- The node-registration step of `parseFile` for one resolved inclusion:
`getDependency` miss creates the node with count 1; a hit increments only
when the node is not in the OLD dependency list. -/
def regNode (nodes : List (String × Int)) (old : List String) (i : String) :
    List (String × Int) :=
  match alookup nodes i with
  | none => nodes ++ [(i, 1)]
  | some _ => if i ∈ old then nodes else bump nodes i

/-- The inclusion loop of `parseFile`.  The fuel bounds recursion into
newly created dependency records (a fresh record is installed before the
recursive parse, exactly as the source creates `depData` first). -/
def pfGo (env : String → List String) :
    Nat → DepState → String → List String → List String → List String →
    DepState × List String
  | 0, st, _, _, nd, _ => (st, nd)
  | _ + 1, st, _, _, nd, [] => (st, nd)
  | fuel + 1, st, fu, old, nd, i :: rest =>
    if i = fu then pfGo env fuel st fu old nd rest
    else
      let st1 := { st with nodes := regNode st.nodes old i }
      let st2 :=
        match alookup st1.depRecords i with
        | some _ => st1
        | none =>
          let stR := { st1 with depRecords := st1.depRecords ++ [(i, [])] }
          let rec2 := pfGo env fuel stR i [] [] (env i)
          { rec2.1 with depRecords := setA rec2.1.depRecords i rec2.2 }
      pfGo env fuel st2 fu old (nd ++ [i]) rest

/-- `parseFile` from `server.ts`, restricted to its dependency-state
effect: run the inclusion loop, release the old dependencies absent from
the new list, and install the new list on the file's record (an open
document's when `isDep = false`, a dependency record's otherwise). -/
def parseFileModel (env : String → List String) (fuel : Nat) (st : DepState)
    (isDep : Bool) (fu : String) (incs : List String) : DepState :=
  let old :=
    if isDep then (alookup st.depRecords fu).getD []
    else (alookup st.openDocs fu).getD []
  let out := pfGo env fuel st fu old [] incs
  let st2 := { out.1 with nodes := releaseMany out.1.nodes (old.filter (fun d => d ∉ out.2)) }
  if isDep then { st2 with depRecords := setA st2.depRecords fu out.2 }
  else { st2 with openDocs := setA st2.openDocs fu out.2 }

/-- One step of the spec-modelled reachability closure: add every uri
listed by a dependency record already reached. -/
def reachStep (recs : List (String × List String)) (s : List String) : List String :=
  s ++ (((recs.filter (fun p => decide (p.1 ∈ s))).map (·.2)).join.filter (fun u => u ∉ s))

def reachIter (recs : List (String × List String)) : Nat → List String → List String
  | 0, s => s
  | fuel + 1, s => reachIter recs fuel (reachStep recs s)

/-- Modelled from the spec: `Helpers.removeUnreachableDependencies` — keep
exactly the nodes (and their cached records) transitively reachable from
the open documents' direct dependency lists. -/
def sweepModel (st : DepState) : DepState :=
  let reach := reachIter st.depRecords (st.depRecords.length + 1)
    ((st.openDocs.map (·.2)).join)
  { st with nodes := st.nodes.filter (fun p => decide (p.1 ∈ reach)),
            depRecords := st.depRecords.filter (fun p => decide (p.1 ∈ reach)) }

inductive DepEvent
  | openDoc (uri : String) (incs : List String)
  | reparse (uri : String) (incs : List String)
  | closeDoc (uri : String)
deriving Repr, DecidableEq

/-- The document events of `server.ts`: `onDidOpen` installs a fresh record
and reparses; a reparse of an open document runs `parseFile` and sweeps;
`onDidClose` releases the document's dependencies, drops its record and
sweeps. -/
def depStep (env : String → List String) (st : DepState) : DepEvent → DepState
  | .openDoc u incs =>
    let st1 :=
      if (alookup st.openDocs u).isSome then { st with openDocs := setA st.openDocs u [] }
      else { st with openDocs := st.openDocs ++ [(u, [])] }
    sweepModel (parseFileModel env (incs.length + 1) st1 false u incs)
  | .reparse u incs =>
    if (alookup st.openDocs u).isSome then
      sweepModel (parseFileModel env (incs.length + 1) st false u incs)
    else st
  | .closeDoc u =>
    match alookup st.openDocs u with
    | none => st
    | some deps =>
      sweepModel { st with nodes := releaseMany st.nodes deps,
                           openDocs := st.openDocs.filter (fun p => decide (¬ p.1 = u)) }

def runDep (env : String → List String) (evs : List DepEvent) : DepState :=
  evs.foldl (depStep env) depInit

/-- How many file records (open documents or dependency records) currently
list `u` as a direct dependency. -/
def listersCount (st : DepState) (u : String) : Nat :=
  ((st.openDocs ++ st.depRecords).filter (fun p => decide (u ∈ p.2))).length

/-- `1` when the condition holds, else `0` (integer indicator). -/
def ind (c : Prop) [Decidable c] : Int := if c then 1 else 0

def countL (l : List (String × List String)) (u : String) : Nat :=
  (l.filter (fun p => decide (u ∈ p.2))).length

/-- The node-registration fold of the inclusion loop, with the old list
fixed (as the source keeps `data.dependencies` unchanged until the end). -/
def regNodes (old : List String) (fu : String) :
    List (String × Int) → List String → List (String × Int)
  | ns, [] => ns
  | ns, i :: rest =>
    if i = fu then regNodes old fu ns rest
    else regNodes old fu (regNode ns old i) rest

/-- The record-creation fold of the inclusion loop (on a flat graph every
created record keeps its initial empty list). -/
def regRecs (fu : String) :
    List (String × List String) → List String → List (String × List String)
  | rs, [] => rs
  | rs, i :: rest =>
    if i = fu then regRecs fu rs rest
    else regRecs fu (if (alookup rs i).isSome then rs else rs ++ [(i, [])]) rest

lemma pfGo_nil (env : String → List String) (fuel : Nat) (st : DepState)
    (fu : String) (old nd : List String) : pfGo env fuel st fu old nd [] = (st, nd) := by
  cases fuel <;> rfl

lemma alookup_none_keys {α : Type} {l : List (String × α)} {k : String}
    (h : alookup l k = none) : ∀ p ∈ l, p.1 ≠ k := by
  intro p hp
  simp only [alookup, Option.map_eq_none', List.find?_eq_none] at h
  have := h p hp
  simpa using this

lemma setA_append_fresh {α : Type} {l : List (String × α)} {k : String} (w v : α)
    (h : alookup l k = none) : setA (l ++ [(k, w)]) k v = l ++ [(k, v)] := by
  have hk := alookup_none_keys h
  simp only [setA, List.map_append, List.map_cons, List.map_nil, if_pos rfl]
  congr 1
  conv_rhs => rw [← List.map_id l]
  apply List.map_congr_left
  intro p hp
  rw [if_neg (hk p hp)]
  rfl

lemma pfGo_flat (env : String → List String) (hflat : ∀ d, env d = []) :
    ∀ (incs : List String) (fuel : Nat) (st : DepState) (fu : String)
      (old nd : List String), incs.length ≤ fuel →
      pfGo env fuel st fu old nd incs
      = ({ st with nodes := regNodes old fu st.nodes incs,
                   depRecords := regRecs fu st.depRecords incs },
         nd ++ incs.filter (fun i => decide (¬ i = fu))) := by
  intro incs
  induction incs with
  | nil =>
    intro fuel st fu old nd _
    simp [pfGo_nil, regNodes, regRecs]
  | cons i rest ih =>
    intro fuel st fu old nd hf
    match fuel, hf with
    | fuel + 1, hf =>
      by_cases hifu : i = fu
      · simp only [pfGo, if_pos hifu, regNodes, regRecs, List.filter_cons]
        rw [ih fuel st fu old nd (by simpa using Nat.le_of_succ_le_succ hf)]
        simp [hifu]
      · simp only [pfGo, if_neg hifu]
        have hstep :
            (match alookup { st with nodes := regNode st.nodes old i }.depRecords i with
             | some _ => { st with nodes := regNode st.nodes old i }
             | none =>
               let stR := { { st with nodes := regNode st.nodes old i } with
                 depRecords := { st with nodes := regNode st.nodes old i }.depRecords ++ [(i, [])] }
               let rec2 := pfGo env fuel stR i [] [] (env i)
               { rec2.1 with depRecords := setA rec2.1.depRecords i rec2.2 })
            = { st with nodes := regNode st.nodes old i,
                        depRecords :=
                          if (alookup st.depRecords i).isSome then st.depRecords
                          else st.depRecords ++ [(i, [])] } := by
          rcases hrec : alookup st.depRecords i with _ | v
          · simp only [hrec, Option.isSome_none, Bool.false_eq_true, if_false]
            rw [hflat i, pfGo_nil]
            simp only []
            rw [setA_append_fresh _ _ hrec]
          · simp [hrec]
        rw [hstep, ih fuel _ fu old (nd ++ [i]) (by simpa using Nat.le_of_succ_le_succ hf)]
        simp only [regNodes, regRecs, if_neg hifu, List.filter_cons]
        simp [hifu, List.append_assoc]

lemma alookup_eq_none {α : Type} {l : List (String × α)} {k : String} :
    alookup l k = none ↔ k ∉ akeys l := by
  simp only [alookup, Option.map_eq_none', List.find?_eq_none, akeys, List.mem_map,
    decide_eq_true_eq]
  constructor
  · rintro h ⟨p, hp, rfl⟩
    exact h p hp rfl
  · intro h p hp hk
    exact h ⟨p, hp, hk⟩

lemma akeys_map_keyfix {α : Type} {l : List (String × α)} {f : String × α → String × α}
    (hf : ∀ p, (f p).1 = p.1) : akeys (l.map f) = akeys l := by
  simp only [akeys, List.map_map]
  apply List.map_congr_left
  intro p _
  exact hf p

lemma akeys_bump (ns : List (String × Int)) (u : String) : akeys (bump ns u) = akeys ns :=
  akeys_map_keyfix (fun p => by by_cases h : p.1 = u <;> simp [h])

lemma akeys_releaseOne (ns : List (String × Int)) (u : String) :
    akeys (releaseOne ns u) = akeys ns :=
  akeys_map_keyfix (fun p => by by_cases h : p.1 = u <;> simp [h])

lemma akeys_setA {α : Type} (l : List (String × α)) (k : String) (v : α) :
    akeys (setA l k v) = akeys l :=
  akeys_map_keyfix (fun p => by by_cases h : p.1 = k <;> simp [h])

lemma akeys_regNode (ns : List (String × Int)) (D : List String) (i : String) :
    akeys (regNode ns D i) = if i ∈ akeys ns then akeys ns else akeys ns ++ [i] := by
  unfold regNode
  rcases hl : alookup ns i with _ | v
  · rw [if_neg (alookup_eq_none.mp hl)]
    simp [akeys]
  · have hi : i ∈ akeys ns := by
      by_contra h
      rw [alookup_eq_none.mpr h] at hl
      cases hl
    rw [if_pos hi]
    by_cases hiD : i ∈ D
    · rw [if_pos hiD]
    · rw [if_neg hiD, akeys_bump]

lemma regNode_val (ns : List (String × Int)) (D : List String) (i : String)
    (g : String → Int) (hval : ∀ p ∈ ns, p.2 = g p.1)
    (hmiss : i ∉ akeys ns → g i = 0) (hDsub : i ∉ akeys ns → i ∉ D) :
    ∀ p ∈ regNode ns D i, p.2 = g p.1 + ind (p.1 = i ∧ p.1 ∉ D) := by
  intro p hp
  unfold regNode at hp
  rcases hl : alookup ns i with _ | v
  · rw [hl] at hp
    have hik : i ∉ akeys ns := alookup_eq_none.mp hl
    rcases List.mem_append.mp hp with hpin | hpi
    · have hne : ¬ (p.1 = i ∧ p.1 ∉ D) := by
        rintro ⟨rfl, -⟩
        exact hik (List.mem_map.mpr ⟨p, hpin, rfl⟩)
      rw [hval p hpin]
      simp [ind, hne]
    · rcases List.mem_singleton.mp hpi with rfl
      have : (1 : Int) = g i + ind (i = i ∧ i ∉ D) := by
        rw [hmiss hik]
        simp [ind, hDsub hik]
      exact this
  · rw [hl] at hp
    by_cases hiD : i ∈ D
    · rw [if_pos hiD] at hp
      have hne : ¬ (p.1 = i ∧ p.1 ∉ D) := by
        rintro ⟨rfl, hd⟩
        exact hd hiD
      rw [hval p hp]
      simp [ind, hne]
    · rw [if_neg hiD] at hp
      rcases List.mem_map.mp hp with ⟨q, hq, rfl⟩
      by_cases hqi : q.1 = i
      · simp only [if_pos hqi]
        rw [hval q hq, hqi]
        simp [ind, hiD]
      · simp only [if_neg hqi]
        rw [hval q hq]
        simp [ind, hqi]

lemma regNodes_spec (D : List String) (fu : String) :
    ∀ (incs : List String) (ns : List (String × Int)) (g : String → Int),
      (incs.filter (fun i => decide (¬ i = fu))).Nodup →
      (akeys ns).Nodup →
      (∀ p ∈ ns, p.2 = g p.1) →
      (∀ u, u ∉ akeys ns → g u = 0) →
      (∀ u, u ∉ akeys ns → u ∉ D) →
      (∀ p ∈ regNodes D fu ns incs,
         p.2 = g p.1 + ind (p.1 ∈ incs.filter (fun i => decide (¬ i = fu)) ∧ p.1 ∉ D))
      ∧ (akeys (regNodes D fu ns incs)).Nodup
      ∧ (∀ u ∈ akeys ns, u ∈ akeys (regNodes D fu ns incs))
      ∧ (∀ i ∈ incs.filter (fun i => decide (¬ i = fu)), i ∈ akeys (regNodes D fu ns incs)) := by
  intro incs
  induction incs with
  | nil =>
    intro ns g _ hnd hval _ _
    refine ⟨?_, hnd, fun u hu => hu, ?_⟩
    · intro p hp
      have : p.2 = g p.1 := hval p hp
      simpa [ind] using this
    · intro i hi
      exact absurd hi (List.not_mem_nil i)
  | cons i rest ih =>
    intro ns g hP hnd hval hmiss hD
    by_cases hifu : i = fu
    · have hPeq : (i :: rest).filter (fun j => decide (¬ j = fu))
          = rest.filter (fun j => decide (¬ j = fu)) := by
        simp [List.filter_cons, hifu]
      rw [hPeq] at hP ⊢
      simp only [regNodes, if_pos hifu]
      exact ih ns g hP hnd hval hmiss hD
    · have hPeq : (i :: rest).filter (fun j => decide (¬ j = fu))
          = i :: rest.filter (fun j => decide (¬ j = fu)) := by
        simp [List.filter_cons, hifu]
      rw [hPeq] at hP ⊢
      have hPrest := List.Nodup.of_cons hP
      have hiP : i ∉ rest.filter (fun j => decide (¬ j = fu)) := (List.nodup_cons.mp hP).1
      simp only [regNodes, if_neg hifu]
      have hkeys1 : akeys (regNode ns D i)
          = if i ∈ akeys ns then akeys ns else akeys ns ++ [i] := akeys_regNode ns D i
      have hsub1 : ∀ u ∈ akeys ns, u ∈ akeys (regNode ns D i) := by
        intro u hu
        rw [hkeys1]
        by_cases h : i ∈ akeys ns
        · rwa [if_pos h]
        · rw [if_neg h]
          exact List.mem_append_left _ hu
      have hikey1 : i ∈ akeys (regNode ns D i) := by
        rw [hkeys1]
        by_cases h : i ∈ akeys ns
        · rwa [if_pos h]
        · rw [if_neg h]
          exact List.mem_append_right _ (List.mem_singleton.mpr rfl)
      have hnd1 : (akeys (regNode ns D i)).Nodup := by
        rw [hkeys1]
        by_cases h : i ∈ akeys ns
        · rwa [if_pos h]
        · rw [if_neg h]
          simp [List.nodup_append, hnd, h]
      have hval1 : ∀ p ∈ regNode ns D i,
          p.2 = (fun x => g x + ind (x = i ∧ x ∉ D)) p.1 :=
        regNode_val ns D i g hval (fun h => hmiss i h) (fun h => hD i h)
      have hmiss1 : ∀ u, u ∉ akeys (regNode ns D i)
          → (fun x => g x + ind (x = i ∧ x ∉ D)) u = 0 := by
        intro u hu
        have hun : u ∉ akeys ns := fun h => hu (hsub1 u h)
        have hune : ¬ u = i := fun h => hu (h ▸ hikey1)
        simp [ind, hmiss u hun, hune]
      have hD1 : ∀ u, u ∉ akeys (regNode ns D i) → u ∉ D := by
        intro u hu
        exact hD u (fun h => hu (hsub1 u h))
      obtain ⟨ihval, ihnd, ihsub, ihP⟩ :=
        ih (regNode ns D i) (fun x => g x + ind (x = i ∧ x ∉ D))
          hPrest hnd1 hval1 hmiss1 hD1
      refine ⟨?_, ihnd, ?_, ?_⟩
      · intro p hp
        rw [ihval p hp]
        by_cases hpD : p.1 ∈ D
        · simp [ind, hpD]
        · by_cases hpi : p.1 = i
          · have hiD : i ∉ D := hpi ▸ hpD
            rw [hpi]
            have hiP2 : i ∈ rest → i = fu := by
              intro hmem
              by_contra hne
              exact hiP (List.mem_filter.mpr ⟨hmem, by simpa using hne⟩)
            simp [ind, hiD, List.mem_cons]
            exact hiP2
          · simp [ind, hpD, hpi, List.mem_cons]
      · intro u hu
        exact ihsub u (hsub1 u hu)
      · intro j hj
        rcases List.mem_cons.mp hj with rfl | hj'
        · exact ihsub j hikey1
        · exact ihP j hj'

lemma countL_cons (q : String × List String) (l : List (String × List String)) (u : String) :
    countL (q :: l) u = (if u ∈ q.2 then 1 else 0) + countL l u := by
  by_cases h : u ∈ q.2 <;> simp [countL, List.filter_cons, h, Nat.add_comm]

lemma countL_append (l₁ l₂ : List (String × List String)) (u : String) :
    countL (l₁ ++ l₂) u = countL l₁ u + countL l₂ u := by
  simp [countL, List.filter_append]

lemma countL_eq_zero {l : List (String × List String)} {u : String}
    (h : ∀ p ∈ l, u ∉ p.2) : countL l u = 0 := by
  have : l.filter (fun p => decide (u ∈ p.2)) = [] :=
    List.filter_eq_nil.mpr (fun p hp => by simpa using h p hp)
  simp [countL, this]

lemma countL_flat {l : List (String × List String)} (h : ∀ p ∈ l, p.2 = []) (u : String) :
    countL l u = 0 :=
  countL_eq_zero (fun p hp => by rw [h p hp]; exact List.not_mem_nil u)

lemma listersCount_decomp (st : DepState) (u : String) :
    listersCount st u = countL st.openDocs u + countL st.depRecords u := by
  simp [listersCount, countL, List.filter_append]

lemma regRecs_flat (fu : String) :
    ∀ (incs : List String) (rs : List (String × List String)),
      (∀ p ∈ rs, p.2 = []) → ∀ p ∈ regRecs fu rs incs, p.2 = [] := by
  intro incs
  induction incs with
  | nil =>
    intro rs h p hp
    exact h p hp
  | cons i rest ih =>
    intro rs h p hp
    simp only [regRecs] at hp
    by_cases hifu : i = fu
    · rw [if_pos hifu] at hp
      exact ih rs h p hp
    · rw [if_neg hifu] at hp
      by_cases hrec : (alookup rs i).isSome
      · rw [if_pos hrec] at hp
        exact ih rs h p hp
      · rw [if_neg hrec] at hp
        refine ih (rs ++ [(i, [])]) ?_ p hp
        intro q hq
        rcases List.mem_append.mp hq with hq' | hq'
        · exact h q hq'
        · rcases List.mem_singleton.mp hq' with rfl
          rfl

lemma releaseMany_map :
    ∀ (R : List String), R.Nodup → ∀ (ns : List (String × Int)),
      releaseMany ns R = ns.map (fun p => if p.1 ∈ R then (p.1, p.2 - 1) else p) := by
  intro R
  induction R with
  | nil =>
    intro _ ns
    simp [releaseMany]
  | cons r R' ih =>
    intro hnd ns
    have hrR : r ∉ R' := (List.nodup_cons.mp hnd).1
    have : releaseMany ns (r :: R') = releaseMany (releaseOne ns r) R' := rfl
    rw [this, ih (List.Nodup.of_cons hnd) (releaseOne ns r)]
    simp only [releaseOne, List.map_map]
    apply List.map_congr_left
    intro p _
    by_cases hpr : p.1 = r
    · have hpR : p.1 ∉ R' := hpr ▸ hrR
      simp [Function.comp, hpr, hpR, List.mem_cons]
      exact hrR
    · by_cases hpR : p.1 ∈ R'
      · simp [Function.comp, hpr, hpR, List.mem_cons]
      · simp [Function.comp, hpr, hpR, List.mem_cons]

lemma akeys_releaseMany (R : List String) (hnd : R.Nodup) (ns : List (String × Int)) :
    akeys (releaseMany ns R) = akeys ns := by
  rw [releaseMany_map R hnd ns]
  exact akeys_map_keyfix (fun p => by by_cases h : p.1 ∈ R <;> simp [h])

lemma setA_not_mem {α : Type} {l : List (String × α)} {k : String} (v : α)
    (h : k ∉ akeys l) : setA l k v = l := by
  unfold setA
  conv_rhs => rw [← List.map_id l]
  apply List.map_congr_left
  intro p hp
  have : p.1 ≠ k := fun he => h (he ▸ List.mem_map.mpr ⟨p, hp, rfl⟩)
  rw [if_neg this]
  rfl

lemma alookup_mem {α : Type} {l : List (String × α)} {k : String} {v : α}
    (h : alookup l k = some v) : (k, v) ∈ l := by
  simp only [alookup, Option.map_eq_some'] at h
  obtain ⟨p, hp, rfl⟩ := h
  have hmem := List.mem_of_find?_eq_some hp
  have hkey := List.find?_some hp
  simp only [decide_eq_true_eq] at hkey
  rw [← hkey]
  exact hmem

lemma alookup_append_right_fresh {α : Type} {l : List (String × α)} {k : String} (v : α)
    (h : alookup l k = none) : alookup (l ++ [(k, v)]) k = some v := by
  induction l with
  | nil => simp [alookup]
  | cons q rest ih =>
    by_cases hq : q.1 = k
    · exfalso
      exact alookup_none_keys h q (List.mem_cons_self q rest) hq
    · have hrest : alookup rest k = none := by
        rw [alookup_eq_none] at h ⊢
        intro hmem
        exact h (List.mem_cons_of_mem _ hmem)
      have hd : (decide (q.1 = k)) = false := by simpa using hq
      have hih := ih hrest
      simp only [alookup, List.cons_append, List.find?_cons, hd] at hih ⊢
      exact hih

lemma countL_setA :
    ∀ (ods : List (String × List String)) (fu : String) (D P : List String),
      (akeys ods).Nodup → alookup ods fu = some D → ∀ u,
      (countL (setA ods fu P) u : Int) = countL ods u + ind (u ∈ P) - ind (u ∈ D) := by
  intro ods
  induction ods with
  | nil =>
    intro fu D P _ hfind u
    simp [alookup] at hfind
  | cons q rest ih =>
    intro fu D P hnd hfind u
    have hkeys : akeys (q :: rest) = q.1 :: akeys rest := rfl
    by_cases hq : q.1 = fu
    · have hd : decide (q.1 = fu) = true := by simpa using hq
      have hD : q.2 = D := by
        simp only [alookup, List.find?_cons, hd] at hfind
        simpa using hfind
      have hfu_rest : fu ∉ akeys rest := by
        have hnd' : (q.1 :: akeys rest).Nodup := by rwa [hkeys] at hnd
        rw [hq] at hnd'
        exact (List.nodup_cons.mp hnd').1
      have hsetA : setA (q :: rest) fu P = (q.1, P) :: rest := by
        simp only [setA, List.map_cons, if_pos hq]
        rw [show List.map (fun p => if p.1 = fu then (p.1, P) else p) rest
              = setA rest fu P from rfl, setA_not_mem P hfu_rest]
      rw [hsetA, countL_cons, countL_cons, ← hD]
      by_cases hP : u ∈ P <;> by_cases hq2 : u ∈ q.2 <;>
        simp [ind, hP, hq2] <;> push_cast <;> omega
    · have hd : decide (q.1 = fu) = false := by simpa using hq
      have hfind' : alookup rest fu = some D := by
        simp only [alookup, List.find?_cons, hd] at hfind
        exact hfind
      have hnd' : (akeys rest).Nodup := by
        have : (q.1 :: akeys rest).Nodup := by rwa [hkeys] at hnd
        exact List.Nodup.of_cons this
      have hsetA : setA (q :: rest) fu P = q :: setA rest fu P := by
        simp only [setA, List.map_cons, if_neg hq]
      rw [hsetA, countL_cons, countL_cons]
      have := ih fu D P hnd' hfind' u
      by_cases hq2 : u ∈ q.2 <;> simp only [hq2, if_true, if_false] <;> push_cast <;> omega

lemma countL_filter_out :
    ∀ (ods : List (String × List String)) (fu : String) (D : List String),
      (akeys ods).Nodup → alookup ods fu = some D → ∀ u,
      (countL (ods.filter (fun p => decide (¬ p.1 = fu))) u : Int)
        = countL ods u - ind (u ∈ D) := by
  intro ods
  induction ods with
  | nil =>
    intro fu D _ hfind u
    simp [alookup] at hfind
  | cons q rest ih =>
    intro fu D hnd hfind u
    have hkeys : akeys (q :: rest) = q.1 :: akeys rest := rfl
    by_cases hq : q.1 = fu
    · have hd : decide (q.1 = fu) = true := by simpa using hq
      have hD : q.2 = D := by
        simp only [alookup, List.find?_cons, hd] at hfind
        simpa using hfind
      have hfu_rest : fu ∉ akeys rest := by
        have hnd' : (q.1 :: akeys rest).Nodup := by rwa [hkeys] at hnd
        rw [hq] at hnd'
        exact (List.nodup_cons.mp hnd').1
      have hfilter : (q :: rest).filter (fun p => decide (¬ p.1 = fu))
          = rest.filter (fun p => decide (¬ p.1 = fu)) := by
        simp [List.filter_cons, hq]
      have hrest_id : rest.filter (fun p => decide (¬ p.1 = fu)) = rest := by
        apply List.filter_eq_self.mpr
        intro p hp
        have : p.1 ≠ fu := fun he => hfu_rest (he ▸ List.mem_map.mpr ⟨p, hp, rfl⟩)
        simpa using this
      rw [hfilter, hrest_id, countL_cons, ← hD]
      by_cases hq2 : u ∈ q.2 <;> simp [ind, hq2] <;> push_cast <;> omega
    · have hd : decide (q.1 = fu) = false := by simpa using hq
      have hfind' : alookup rest fu = some D := by
        simp only [alookup, List.find?_cons, hd] at hfind
        exact hfind
      have hnd' : (akeys rest).Nodup := by
        have : (q.1 :: akeys rest).Nodup := by rwa [hkeys] at hnd
        exact List.Nodup.of_cons this
      have hfilter : (q :: rest).filter (fun p => decide (¬ p.1 = fu))
          = q :: rest.filter (fun p => decide (¬ p.1 = fu)) := by
        simp [List.filter_cons, hq]
      rw [hfilter, countL_cons, countL_cons]
      have := ih fu D hnd' hfind' u
      by_cases hq2 : u ∈ q.2 <;> simp only [hq2, if_true, if_false] <;> push_cast <;> omega

/-- The spec's §4.2 invariant, together with the bookkeeping facts that make
it inductive: node keys and open-document keys are unique, each open
document's dependency list is duplicate-free, dependency records are flat
(empty lists — the flat-graph hypothesis), and open documents only list
registered nodes. -/
def DepInv (st : DepState) : Prop :=
  (∀ p ∈ st.nodes, p.2 = (listersCount st p.1 : Int))
  ∧ (akeys st.nodes).Nodup
  ∧ (akeys st.openDocs).Nodup
  ∧ (∀ p ∈ st.openDocs, p.2.Nodup)
  ∧ (∀ p ∈ st.depRecords, p.2 = [])
  ∧ (∀ p ∈ st.openDocs, ∀ i ∈ p.2, i ∈ akeys st.nodes)

/-- Editor-trace well-formedness for one event: a file is only opened when
not already open, and inclusion lists carry no duplicate resolved URI. -/
def evOK (st : DepState) : DepEvent → Prop
  | .openDoc u incs => alookup st.openDocs u = none ∧ incs.Nodup
  | .reparse _ incs => incs.Nodup
  | .closeDoc _ => True

def wfEvents (env : String → List String) : DepState → List DepEvent → Prop
  | _, [] => True
  | st, e :: es => evOK st e ∧ wfEvents env (depStep env st e) es

lemma sweep_inv (st : DepState) (hinv : DepInv st) : DepInv (sweepModel st) := by
  obtain ⟨h1, h2, h3, h4, h5, h6⟩ := hinv
  have hroots : ∀ fuel s, ∀ x ∈ s, x ∈ reachIter st.depRecords fuel s := by
    intro fuel
    induction fuel with
    | zero =>
      intro s x hx
      exact hx
    | succ n ihn =>
      intro s x hx
      exact ihn (reachStep st.depRecords s) x (List.mem_append_left _ hx)
  have hflat' : ∀ p ∈ (sweepModel st).depRecords, p.2 = [] := by
    intro p hp
    exact h5 p (List.mem_of_mem_filter hp)
  have hlisters : ∀ u, listersCount (sweepModel st) u = listersCount st u := by
    intro u
    rw [listersCount_decomp, listersCount_decomp, countL_flat h5, countL_flat hflat']
    rfl
  refine ⟨?_, ?_, h3, h4, hflat', ?_⟩
  · intro p hp
    rw [hlisters]
    exact h1 p (List.mem_of_mem_filter hp)
  · exact h2.sublist ((List.filter_sublist _).map _)
  · intro p hp i hi
    have hik : i ∈ akeys st.nodes := h6 p hp i hi
    rcases List.mem_map.mp hik with ⟨q, hq, rfl⟩
    have hreach : q.1 ∈ reachIter st.depRecords (st.depRecords.length + 1)
        ((st.openDocs.map (·.2)).join) := by
      apply hroots
      exact List.mem_join.mpr ⟨p.2, List.mem_map.mpr ⟨p, hp, rfl⟩, hi⟩
    exact List.mem_map.mpr ⟨q, List.mem_filter.mpr ⟨hq, by simpa using hreach⟩, rfl⟩

lemma parse_inv (env : String → List String) (hflat : ∀ d, env d = [])
    (st : DepState) (fu : String) (incs D : List String)
    (hfind : alookup st.openDocs fu = some D) (hincs : incs.Nodup)
    (hinv : DepInv st) :
    DepInv (parseFileModel env (incs.length + 1) st false fu incs) := by
  obtain ⟨h1, h2, h3, h4, h5, h6⟩ := hinv
  have hDmem : (fu, D) ∈ st.openDocs := alookup_mem hfind
  have hDnodup : D.Nodup := h4 (fu, D) hDmem
  have hDsub : ∀ i ∈ D, i ∈ akeys st.nodes := h6 (fu, D) hDmem
  have hPnodup : (incs.filter (fun i => decide (¬ i = fu))).Nodup := hincs.filter _
  have heq : parseFileModel env (incs.length + 1) st false fu incs
      = ⟨releaseMany (regNodes D fu st.nodes incs)
            (D.filter (fun d => d ∉ incs.filter (fun i => decide (¬ i = fu)))),
         setA st.openDocs fu (incs.filter (fun i => decide (¬ i = fu))),
         regRecs fu st.depRecords incs⟩ := by
    simp only [parseFileModel, Bool.false_eq_true, if_false, hfind, Option.getD_some,
      pfGo_flat env hflat incs (incs.length + 1) st fu D [] (Nat.le_succ _),
      List.nil_append]
  have hnodes : (parseFileModel env (incs.length + 1) st false fu incs).nodes
      = releaseMany (regNodes D fu st.nodes incs)
          (D.filter (fun d => d ∉ incs.filter (fun i => decide (¬ i = fu)))) := by
    rw [heq]
  have hods : (parseFileModel env (incs.length + 1) st false fu incs).openDocs
      = setA st.openDocs fu (incs.filter (fun i => decide (¬ i = fu))) := by
    rw [heq]
  have hrecs : (parseFileModel env (incs.length + 1) st false fu incs).depRecords
      = regRecs fu st.depRecords incs := by
    rw [heq]
  have hmiss : ∀ u, u ∉ akeys st.nodes → (listersCount st u : Int) = 0 := by
    intro u hu
    rw [listersCount_decomp, countL_flat h5,
      countL_eq_zero (fun p hp hin => hu (h6 p hp u hin))]
    rfl
  have hD0 : ∀ u, u ∉ akeys st.nodes → u ∉ D := by
    intro u hu hd
    exact hu (hDsub u hd)
  obtain ⟨hval1, hnd1, hmono1, hPkeys⟩ :=
    regNodes_spec D fu incs st.nodes (fun u => (listersCount st u : Int))
      hPnodup h2 h1 hmiss hD0
  have hRnodup : (D.filter (fun d => d ∉ incs.filter (fun i => decide (¬ i = fu)))).Nodup :=
    hDnodup.filter _
  have hN2 := releaseMany_map _ hRnodup (regNodes D fu st.nodes incs)
  have hkeysN2 := akeys_releaseMany _ hRnodup (regNodes D fu st.nodes incs)
  have hflat2 : ∀ p ∈ regRecs fu st.depRecords incs, p.2 = [] :=
    regRecs_flat fu incs st.depRecords h5
  have hlisters2 : ∀ u,
      (listersCount (parseFileModel env (incs.length + 1) st false fu incs) u : Int)
      = countL st.openDocs u + ind (u ∈ incs.filter (fun i => decide (¬ i = fu)))
        - ind (u ∈ D) := by
    intro u
    rw [listersCount_decomp, hods, hrecs, countL_flat hflat2, Nat.add_zero]
    exact countL_setA st.openDocs fu D _ h3 hfind u
  refine ⟨?_, ?_, ?_, ?_, ?_, ?_⟩
  · intro p hp
    rw [hnodes, hN2] at hp
    rw [hlisters2]
    rcases List.mem_map.mp hp with ⟨q, hq, rfl⟩
    have hqval := hval1 q hq
    have hqls : (listersCount st q.1 : Int) = countL st.openDocs q.1 := by
      rw [listersCount_decomp, countL_flat h5, Nat.add_zero]
    by_cases hqR : q.1 ∈ D.filter (fun d => d ∉ incs.filter (fun i => decide (¬ i = fu)))
    · rw [if_pos hqR]
      rcases List.mem_filter.mp hqR with ⟨hqD, hqnP⟩
      have hqnP' : q.1 ∉ incs.filter (fun i => decide (¬ i = fu)) := of_decide_eq_true hqnP
      have e1 : ind (q.1 ∈ incs.filter (fun i => decide (¬ i = fu)) ∧ q.1 ∉ D) = 0 := by
        simp only [ind]
        rw [if_neg]
        rintro ⟨hmem, -⟩
        exact hqnP' hmem
      have e2 : ind (q.1 ∈ incs.filter (fun i => decide (¬ i = fu))) = 0 := by
        simp only [ind]
        rw [if_neg hqnP']
      have e3 : ind (q.1 ∈ D) = 1 := by
        simp only [ind]
        rw [if_pos hqD]
      simp only []
      rw [hqval, hqls, e1, e2, e3]
    · rw [if_neg hqR]
      rw [hqval, hqls]
      by_cases hqD : q.1 ∈ D
      · have hqP : q.1 ∈ incs.filter (fun i => decide (¬ i = fu)) := by
          by_contra hnp
          exact hqR (List.mem_filter.mpr ⟨hqD, decide_eq_true hnp⟩)
        have e1 : ind (q.1 ∈ incs.filter (fun i => decide (¬ i = fu)) ∧ q.1 ∉ D) = 0 := by
          simp only [ind]
          rw [if_neg]
          rintro ⟨-, hd⟩
          exact hd hqD
        have e2 : ind (q.1 ∈ incs.filter (fun i => decide (¬ i = fu))) = 1 := by
          simp only [ind]
          rw [if_pos hqP]
        have e3 : ind (q.1 ∈ D) = 1 := by
          simp only [ind]
          rw [if_pos hqD]
        rw [e1, e2, e3]
        omega
      · have e3 : ind (q.1 ∈ D) = 0 := by
          simp only [ind]
          rw [if_neg hqD]
        by_cases hqP : q.1 ∈ incs.filter (fun i => decide (¬ i = fu))
        · have e1 : ind (q.1 ∈ incs.filter (fun i => decide (¬ i = fu)) ∧ q.1 ∉ D) = 1 := by
            simp only [ind]
            rw [if_pos ⟨hqP, hqD⟩]
          have e2 : ind (q.1 ∈ incs.filter (fun i => decide (¬ i = fu))) = 1 := by
            simp only [ind]
            rw [if_pos hqP]
          rw [e1, e2, e3]
          omega
        · have e1 : ind (q.1 ∈ incs.filter (fun i => decide (¬ i = fu)) ∧ q.1 ∉ D) = 0 := by
            simp only [ind]
            rw [if_neg]
            rintro ⟨hmem, -⟩
            exact hqP hmem
          have e2 : ind (q.1 ∈ incs.filter (fun i => decide (¬ i = fu))) = 0 := by
            simp only [ind]
            rw [if_neg hqP]
          rw [e1, e2, e3]
          omega
  · rw [hnodes, hkeysN2]
    exact hnd1
  · rw [hods, akeys_setA]
    exact h3
  · intro p hp
    rw [hods] at hp
    rcases List.mem_map.mp hp with ⟨q, hq, rfl⟩
    by_cases hqfu : q.1 = fu
    · simp only [if_pos hqfu]
      exact hPnodup
    · simp only [if_neg hqfu]
      exact h4 q hq
  · intro p hp
    rw [hrecs] at hp
    exact hflat2 p hp
  · intro p hp i hi
    rw [hods] at hp
    rw [hnodes, hkeysN2]
    rcases List.mem_map.mp hp with ⟨q, hq, rfl⟩
    by_cases hqfu : q.1 = fu
    · simp only [if_pos hqfu] at hi
      exact hPkeys i hi
    · simp only [if_neg hqfu] at hi
      exact hmono1 i (h6 q hq i hi)

lemma close_inv (st : DepState) (u : String) (D : List String)
    (hfind : alookup st.openDocs u = some D) (hinv : DepInv st) :
    DepInv ⟨releaseMany st.nodes D,
            st.openDocs.filter (fun p => decide (¬ p.1 = u)), st.depRecords⟩ := by
  obtain ⟨h1, h2, h3, h4, h5, h6⟩ := hinv
  have hDmem : (u, D) ∈ st.openDocs := alookup_mem hfind
  have hDnodup : D.Nodup := h4 (u, D) hDmem
  have hN := releaseMany_map D hDnodup st.nodes
  have hkeys := akeys_releaseMany D hDnodup st.nodes
  have hls : ∀ v, (listersCount ⟨releaseMany st.nodes D,
        st.openDocs.filter (fun p => decide (¬ p.1 = u)), st.depRecords⟩ v : Int)
      = (listersCount st v : Int) - ind (v ∈ D) := by
    intro v
    rw [listersCount_decomp, listersCount_decomp]
    have hout := countL_filter_out st.openDocs u D h3 hfind v
    push_cast at hout ⊢
    omega
  refine ⟨?_, ?_, ?_, ?_, h5, ?_⟩
  · intro p hp
    simp only [] at hp
    rw [hN] at hp
    rcases List.mem_map.mp hp with ⟨q, hq, rfl⟩
    have hqval := h1 q hq
    by_cases hqD : q.1 ∈ D
    · rw [if_pos hqD]
      simp only []
      rw [hls, hqval]
      simp [ind, hqD]
    · rw [if_neg hqD]
      rw [hls, hqval]
      simp [ind, hqD]
  · simp only []
    rw [hkeys]
    exact h2
  · exact h3.sublist ((List.filter_sublist _).map _)
  · intro p hp
    exact h4 p (List.mem_of_mem_filter hp)
  · intro p hp i hi
    simp only []
    rw [hkeys]
    exact h6 p (List.mem_of_mem_filter hp) i hi

lemma open_inv (st : DepState) (u : String)
    (hfresh : alookup st.openDocs u = none) (hinv : DepInv st) :
    DepInv ⟨st.nodes, st.openDocs ++ [(u, [])], st.depRecords⟩ := by
  obtain ⟨h1, h2, h3, h4, h5, h6⟩ := hinv
  have hu : u ∉ akeys st.openDocs := alookup_eq_none.mp hfresh
  have hls : ∀ v, listersCount ⟨st.nodes, st.openDocs ++ [(u, [])], st.depRecords⟩ v
      = listersCount st v := by
    intro v
    rw [listersCount_decomp, listersCount_decomp]
    simp only []
    rw [countL_append]
    have hz : countL [(u, [])] v = 0 :=
      countL_flat (by
        intro p hp
        rcases List.mem_singleton.mp hp with rfl
        rfl) v
    omega
  refine ⟨?_, h2, ?_, ?_, h5, ?_⟩
  · intro p hp
    rw [hls]
    exact h1 p hp
  · simp only [akeys, List.map_append, List.map_cons, List.map_nil]
    rw [List.nodup_append]
    refine ⟨h3, List.nodup_singleton u, ?_⟩
    intro a ha hb
    rcases List.mem_singleton.mp hb with rfl
    exact hu ha
  · intro p hp
    rcases List.mem_append.mp hp with hp' | hp'
    · exact h4 p hp'
    · rcases List.mem_singleton.mp hp' with rfl
      exact List.nodup_nil
  · intro p hp i hi
    rcases List.mem_append.mp hp with hp' | hp'
    · exact h6 p hp' i hi
    · rcases List.mem_singleton.mp hp' with rfl
      exact absurd hi (List.not_mem_nil i)

lemma depInit_inv : DepInv depInit := by
  refine ⟨?_, List.nodup_nil, List.nodup_nil, ?_, ?_, ?_⟩ <;>
    intro p hp <;> exact absurd hp (List.not_mem_nil p)

lemma depStep_inv (env : String → List String) (hflat : ∀ d, env d = [])
    (st : DepState) (e : DepEvent) (hok : evOK st e) (hinv : DepInv st) :
    DepInv (depStep env st e) := by
  cases e with
  | openDoc u incs =>
    obtain ⟨hfresh, hincs⟩ := hok
    simp only [depStep, hfresh, Option.isSome_none, Bool.false_eq_true, if_false]
    apply sweep_inv
    have hfind : alookup (st.openDocs ++ [(u, [])]) u = some [] :=
      alookup_append_right_fresh [] hfresh
    exact parse_inv env hflat ⟨st.nodes, st.openDocs ++ [(u, [])], st.depRecords⟩
      u incs [] hfind hincs (open_inv st u hfresh hinv)
  | reparse u incs =>
    simp only [depStep]
    by_cases hs : (alookup st.openDocs u).isSome
    · rw [if_pos hs]
      obtain ⟨D, hD⟩ := Option.isSome_iff_exists.mp hs
      exact sweep_inv _ (parse_inv env hflat st u incs D hD hok hinv)
    · rw [if_neg hs]
      exact hinv
  | closeDoc u =>
    rcases hD : alookup st.openDocs u with _ | D
    · simp only [depStep, hD]
      exact hinv
    · simp only [depStep, hD]
      exact sweep_inv _ (close_inv st u D hD hinv)

lemma runDep_inv (env : String → List String) (hflat : ∀ d, env d = []) :
    ∀ (evs : List DepEvent) (st : DepState), DepInv st → wfEvents env st evs →
      DepInv (List.foldl (depStep env) st evs) := by
  intro evs
  induction evs with
  | nil =>
    intro st h _
    exact h
  | cons e es ih =>
    intro st h hwf
    exact ih (depStep env st e) (depStep_inv env hflat st e hwf.1 h) hwf.2

lemma alookup_of_mem_nodup {α : Type} :
    ∀ {l : List (String × α)}, (akeys l).Nodup → ∀ {u : String} {c : α}, (u, c) ∈ l →
      alookup l u = some c := by
  intro l
  induction l with
  | nil =>
    intro _ u c h
    cases h
  | cons q rest ih =>
    intro hnd u c h
    rcases List.mem_cons.mp h with heq | hmem
    · rw [← heq]
      simp [alookup]
    · have hq : ¬ q.1 = u := by
        intro he
        have hmem' : u ∈ akeys rest := List.mem_map.mpr ⟨(u, c), hmem, rfl⟩
        have hnd' : q.1 ∉ akeys rest := (List.nodup_cons.mp (by simpa [akeys] using hnd)).1
        rw [he] at hnd'
        exact hnd' hmem'
    
      have hd : decide (q.1 = u) = false := by simpa using hq
      simp only [alookup, List.find?_cons, hd]
      exact ih (List.Nodup.of_cons (by simpa [akeys] using hnd)) hmem

lemma alookup_map_keyfix2 {α : Type} {l : List (String × α)} {f : String × α → String × α}
    (hf : ∀ p, (f p).1 = p.1) (u : String) :
    alookup (l.map f) u
      = (l.find? (fun p => decide (p.1 = u))).map (fun p => (f p).2) := by
  induction l with
  | nil => rfl
  | cons q rest ih =>
    have hkey : decide ((f q).1 = u) = decide (q.1 = u) := by rw [hf q]
    simp only [List.map_cons, alookup, List.find?_cons, hkey]
    cases hd : decide (q.1 = u)
    · exact ih
    · rfl

lemma releaseMany_alookup (R : List String) (hnd : R.Nodup) (ns : List (String × Int))
    (u : String) :
    alookup (releaseMany ns R) u
      = (alookup ns u).map (fun v => if u ∈ R then v - 1 else v) := by
  rw [releaseMany_map R hnd ns,
    alookup_map_keyfix2 (fun p => by by_cases h : p.1 ∈ R <;> simp [h]) u]
  rcases hf : ns.find? (fun p => decide (p.1 = u)) with _ | p
  · simp [alookup, hf]
  · have hp : p.1 = u := by simpa using List.find?_some hf
    simp only [alookup, hf, Option.map_some']
    rw [hp]
    by_cases h : u ∈ R <;> simp [h]

lemma bump_alookup (ns : List (String × Int)) (i u : String) :
    alookup (bump ns i) u
      = (alookup ns u).map (fun v => if u = i then v + 1 else v) := by
  rw [show bump ns i = ns.map (fun p => if p.1 = i then (p.1, p.2 + 1) else p) from rfl,
    alookup_map_keyfix2 (fun p => by by_cases h : p.1 = i <;> simp [h]) u]
  rcases hf : ns.find? (fun p => decide (p.1 = u)) with _ | p
  · simp [alookup, hf]
  · have hp : p.1 = u := by simpa using List.find?_some hf
    simp only [alookup, hf, Option.map_some']
    rw [hp]
    by_cases h : u = i <;> simp [h]

lemma alookup_append_singleton_ne {α : Type} {l : List (String × α)} {k u : String}
    (v : α) (h : ¬ u = k) : alookup (l ++ [(k, v)]) u = alookup l u := by
  induction l with
  | nil =>
    have hd : decide (k = u) = false := by
      simp only [decide_eq_false_iff_not]
      intro he
      exact h he.symm
    simp [alookup, hd]
  | cons q rest ih =>
    simp only [List.cons_append, alookup, List.find?_cons]
    cases hd : decide (q.1 = u)
    · exact ih
    · rfl

lemma regNode_alookup (ns : List (String × Int)) (old : List String) (i u : String) :
    alookup (regNode ns old i) u
      = if u = i then
          (match alookup ns i with
           | none => some 1
           | some v => if i ∈ old then some v else some (v + 1))
        else alookup ns u := by
  unfold regNode
  rcases hl : alookup ns i with _ | v
  · by_cases hu : u = i
    · rw [if_pos hu, hu]
      exact alookup_append_right_fresh 1 hl
    · rw [if_neg hu]
      exact alookup_append_singleton_ne 1 hu
  · by_cases hiD : i ∈ old
    · rw [if_pos hiD]
      by_cases hu : u = i
      · rw [if_pos hu, hu, hl]
        simp [hiD]
      · rw [if_neg hu]
    · rw [if_neg hiD]
      rw [bump_alookup]
      by_cases hu : u = i
      · rw [if_pos hu, hu, hl]
        simp [hiD]
      · rw [if_neg hu]
        rcases alookup ns u with _ | w
        · rfl
        · simp [hu]

/-- The state a dependency file's first parse starts from: the node
registered, a fresh empty record installed. -/
def pfChildStart (st : DepState) (old : List String) (i : String) : DepState :=
  ⟨regNode st.nodes old i, st.openDocs, st.depRecords ++ [(i, [])]⟩

/-- One non-self inclusion step of `pfGo` (node registration plus, on a
record miss, the recursive first parse of the dependency file). -/
def pfStep (env : String → List String) (fuel : Nat) (st : DepState)
    (old : List String) (i : String) : DepState :=
  match alookup st.depRecords i with
  | some _ => ⟨regNode st.nodes old i, st.openDocs, st.depRecords⟩
  | none =>
    let rec2 := pfGo env fuel (pfChildStart st old i) i [] [] (env i)
    ⟨rec2.1.nodes, rec2.1.openDocs, setA rec2.1.depRecords i rec2.2⟩

lemma pfGo_cons_ne (env : String → List String) (fuel : Nat) (st : DepState)
    (fu : String) (old nd : List String) (i : String) (rest : List String)
    (hifu : ¬ i = fu) :
    pfGo env (fuel + 1) st fu old nd (i :: rest)
      = pfGo env fuel (pfStep env fuel st old i) fu old (nd ++ [i]) rest := by
  simp only [pfGo, pfStep, pfChildStart, if_neg hifu]

lemma pfGo_general (env : String → List String) :
    ∀ (fuel : Nat) (st : DepState) (fu : String) (old nd incs : List String),
      (pfGo env fuel st fu old nd incs).1.openDocs = st.openDocs
      ∧ (∀ u ∈ akeys st.nodes, u ∈ akeys (pfGo env fuel st fu old nd incs).1.nodes)
      ∧ ((akeys st.nodes).Nodup → (akeys (pfGo env fuel st fu old nd incs).1.nodes).Nodup)
      ∧ (∀ u, (alookup st.nodes u).getD 0
          ≤ (alookup (pfGo env fuel st fu old nd incs).1.nodes u).getD 0)
      ∧ (∀ u, u ∈ (pfGo env fuel st fu old nd incs).2 → u ∉ nd → u ∉ old →
          (alookup st.nodes u).getD 0 + 1
            ≤ (alookup (pfGo env fuel st fu old nd incs).1.nodes u).getD 0)
      ∧ (∀ u ∈ (pfGo env fuel st fu old nd incs).2, u ∉ nd →
          u ∈ akeys (pfGo env fuel st fu old nd incs).1.nodes)
      ∧ (∃ l, (pfGo env fuel st fu old nd incs).2 = nd ++ l
          ∧ l.Sublist (incs.filter (fun i => decide (¬ i = fu)))) := by
  intro fuel
  induction fuel with
  | zero =>
    intro st fu old nd incs
    refine ⟨rfl, fun u hu => hu, fun h => h, fun u => le_refl _, ?_, ?_,
      ⟨[], by simp [pfGo], List.nil_sublist _⟩⟩
    · intro u hu hnd _
      exact absurd hu hnd
    · intro u hu hnd
      exact absurd hu hnd
  | succ n ih =>
    intro st fu old nd incs
    cases incs with
    | nil =>
      refine ⟨rfl, fun u hu => hu, fun h => h, fun u => le_refl _, ?_, ?_,
        ⟨[], by simp [pfGo], List.nil_sublist _⟩⟩
      · intro u hu hnd _
        exact absurd hu hnd
      · intro u hu hnd
        exact absurd hu hnd
    | cons i rest =>
      by_cases hifu : i = fu
      · have hstep : pfGo env (n + 1) st fu old nd (i :: rest)
            = pfGo env n st fu old nd rest := by
          simp only [pfGo, if_pos hifu]
        rw [hstep]
        obtain ⟨a, b, c, d, e, f, ⟨l, hl, hsub⟩⟩ := ih st fu old nd rest
        have hfeq : (i :: rest).filter (fun j => decide (¬ j = fu))
            = rest.filter (fun j => decide (¬ j = fu)) := by
          simp [List.filter_cons, hifu]
        exact ⟨a, b, c, d, e, f, ⟨l, hl, hfeq ▸ hsub⟩⟩
      · rw [pfGo_cons_ne env n st fu old nd i rest hifu]
        -- facts about the registration step
        have hrd : ∀ u, (alookup st.nodes u).getD 0
            ≤ (alookup (regNode st.nodes old i) u).getD 0 := by
          intro u
          rw [regNode_alookup]
          by_cases hu : u = i
          · rw [if_pos hu, hu]
            rcases hl : alookup st.nodes i with _ | v
            · simp
            · by_cases hio : i ∈ old <;> simp [hio] <;> omega
          · rw [if_neg hu]
        have hre : i ∉ old → (alookup st.nodes i).getD 0 + 1
            ≤ (alookup (regNode st.nodes old i) i).getD 0 := by
          intro hio
          rw [regNode_alookup, if_pos rfl]
          rcases hl : alookup st.nodes i with _ | v
          · simp
          · simp [hio]
        have hrkeys := akeys_regNode st.nodes old i
        have hrm : ∀ u ∈ akeys st.nodes, u ∈ akeys (regNode st.nodes old i) := by
          intro u hu
          rw [hrkeys]
          by_cases h : i ∈ akeys st.nodes
          · rwa [if_pos h]
          · rw [if_neg h]
            exact List.mem_append_left _ hu
        have hrik : i ∈ akeys (regNode st.nodes old i) := by
          rw [hrkeys]
          by_cases h : i ∈ akeys st.nodes
          · rwa [if_pos h]
          · rw [if_neg h]
            exact List.mem_append_right _ (List.mem_singleton.mpr rfl)
        have hrnd : (akeys st.nodes).Nodup → (akeys (regNode st.nodes old i)).Nodup := by
          intro h
          rw [hrkeys]
          by_cases hm : i ∈ akeys st.nodes
          · rwa [if_pos hm]
          · rw [if_neg hm]
            simp [List.nodup_append, h, hm]
        -- facts about the whole pfStep
        have hstepFacts :
            (pfStep env n st old i).openDocs = st.openDocs
            ∧ (∀ u ∈ akeys st.nodes, u ∈ akeys (pfStep env n st old i).nodes)
            ∧ ((akeys st.nodes).Nodup → (akeys (pfStep env n st old i).nodes).Nodup)
            ∧ (∀ u, (alookup st.nodes u).getD 0
                ≤ (alookup (pfStep env n st old i).nodes u).getD 0)
            ∧ (i ∉ old → (alookup st.nodes i).getD 0 + 1
                ≤ (alookup (pfStep env n st old i).nodes i).getD 0)
            ∧ i ∈ akeys (pfStep env n st old i).nodes := by
          rcases hrec : alookup st.depRecords i with _ | w
          · -- record miss: recursive child parse
            have hnodes2 : (pfStep env n st old i).nodes
                = (pfGo env n (pfChildStart st old i) i [] [] (env i)).1.nodes := by
              simp only [pfStep, hrec]
            have hods2 : (pfStep env n st old i).openDocs
                = (pfGo env n (pfChildStart st old i) i [] [] (env i)).1.openDocs := by
              simp only [pfStep, hrec]
            obtain ⟨ca, cb, cc, cd, _, _, _⟩ :=
              ih (pfChildStart st old i) i [] [] (env i)
            refine ⟨?_, ?_, ?_, ?_, ?_, ?_⟩
            · rw [hods2]
              exact ca
            · intro u hu
              rw [hnodes2]
              exact cb u (hrm u hu)
            · intro h
              rw [hnodes2]
              exact cc (hrnd h)
            · intro u
              rw [hnodes2]
              exact le_trans (hrd u) (cd u)
            · intro hio
              rw [hnodes2]
              exact le_trans (hre hio) (cd i)
            · rw [hnodes2]
              exact cb i hrik
          · have hps : pfStep env n st old i
                = ⟨regNode st.nodes old i, st.openDocs, st.depRecords⟩ := by
              simp only [pfStep, hrec]
            rw [hps]
            exact ⟨rfl, hrm, hrnd, hrd, hre, hrik⟩
        obtain ⟨sa, sb, sc, sd, se, sk⟩ := hstepFacts
        obtain ⟨la, lb, lc, ld, le, lf, ⟨l, hl, hsub⟩⟩ :=
          ih (pfStep env n st old i) fu old (nd ++ [i]) rest
        refine ⟨la.trans sa, ?_, ?_, ?_, ?_, ?_, ?_⟩
        · intro u hu
          exact lb u (sb u hu)
        · intro h
          exact lc (sc h)
        · intro u
          exact le_trans (sd u) (ld u)
        · intro u hu hnd hold
          by_cases hui : u = i
          · rw [hui]
            have h1 := se (hui ▸ hold)
            have h2 := ld i
            omega
          · have hu2 : u ∉ nd ++ [i] := by
              intro hmem
              rcases List.mem_append.mp hmem with h | h
              · exact hnd h
              · exact hui (List.mem_singleton.mp h)
            have := le u hu hu2 hold
            have := sd u
            omega
        · intro u hu hnd
          by_cases hui : u = i
          · rw [hui]
            exact lb i sk
          · have hu2 : u ∉ nd ++ [i] := by
              intro hmem
              rcases List.mem_append.mp hmem with h | h
              · exact hnd h
              · exact hui (List.mem_singleton.mp h)
            exact lf u hu hu2
        · refine ⟨i :: l, ?_, ?_⟩
          · rw [hl, List.append_assoc]
            rfl
          · have hfeq : (i :: rest).filter (fun j => decide (¬ j = fu))
                = i :: rest.filter (fun j => decide (¬ j = fu)) := by
              simp [List.filter_cons, hifu]
            rw [hfeq]
            exact hsub.cons₂ i

/-- The lower-bound invariant provable on arbitrary include graphs: every
registered node's count is at least the number of open documents listing it
(dependency records may over- or under-list after sweeps, see the drift
counterexample, so they are excluded here). -/
def DepLB (st : DepState) : Prop :=
  (∀ p ∈ st.nodes, (countL st.openDocs p.1 : Int) ≤ p.2)
  ∧ (akeys st.nodes).Nodup
  ∧ (akeys st.openDocs).Nodup
  ∧ (∀ p ∈ st.openDocs, p.2.Nodup)
  ∧ (∀ p ∈ st.openDocs, ∀ i ∈ p.2, i ∈ akeys st.nodes)

lemma parse_lb (env : String → List String) (fuel : Nat) (st : DepState) (fu : String)
    (incs D : List String) (hfind : alookup st.openDocs fu = some D)
    (hincs : incs.Nodup) (hH : DepLB st) :
    DepLB (parseFileModel env fuel st false fu incs) := by
  obtain ⟨h1, h2, h3, h4, h5⟩ := hH
  obtain ⟨ga, gb, gc, gd, ge, gf, ⟨l, hl, hsub⟩⟩ := pfGo_general env fuel st fu D [] incs
  have hDmem : (fu, D) ∈ st.openDocs := alookup_mem hfind
  have hDnodup : D.Nodup := h4 (fu, D) hDmem
  have hnodes : (parseFileModel env fuel st false fu incs).nodes
      = releaseMany (pfGo env fuel st fu D [] incs).1.nodes
          (D.filter (fun d => d ∉ (pfGo env fuel st fu D [] incs).2)) := by
    simp only [parseFileModel, Bool.false_eq_true, if_false, hfind, Option.getD_some]
  have hods : (parseFileModel env fuel st false fu incs).openDocs
      = setA (pfGo env fuel st fu D [] incs).1.openDocs fu
          (pfGo env fuel st fu D [] incs).2 := by
    simp only [parseFileModel, Bool.false_eq_true, if_false, hfind, Option.getD_some]
  have hRnodup : (D.filter (fun d => d ∉ (pfGo env fuel st fu D [] incs).2)).Nodup :=
    hDnodup.filter _
  have houtNodup : (akeys (pfGo env fuel st fu D [] incs).1.nodes).Nodup := gc h2
  have hPnodup : (pfGo env fuel st fu D [] incs).2.Nodup := by
    rw [hl, List.nil_append]
    exact (hincs.filter _).sublist hsub
  have hbase : ∀ u, (countL st.openDocs u : Int) ≤ (alookup st.nodes u).getD 0 := by
    intro u
    by_cases hu : u ∈ akeys st.nodes
    · rcases List.mem_map.mp hu with ⟨p, hp, rfl⟩
      rw [alookup_of_mem_nodup h2 hp]
      exact h1 p hp
    · rw [alookup_eq_none.mpr hu]
      have : countL st.openDocs u = 0 :=
        countL_eq_zero (fun p hp hin => hu (h5 p hp u hin))
      rw [this]
      simp
  have hlst : ∀ u, (countL (parseFileModel env fuel st false fu incs).openDocs u : Int)
      = countL st.openDocs u + ind (u ∈ (pfGo env fuel st fu D [] incs).2)
        - ind (u ∈ D) := by
    intro u
    rw [hods, ga]
    exact countL_setA st.openDocs fu D _ h3 hfind u
  refine ⟨?_, ?_, ?_, ?_, ?_⟩
  · intro p hp
    rw [hnodes, releaseMany_map _ hRnodup] at hp
    rcases List.mem_map.mp hp with ⟨q, hq, rfl⟩
    have hqv : alookup (pfGo env fuel st fu D [] incs).1.nodes q.1 = some q.2 :=
      alookup_of_mem_nodup houtNodup hq
    have hmono : (alookup st.nodes q.1).getD 0 ≤ q.2 := by
      have := gd q.1
      rw [hqv] at this
      simpa using this
    by_cases hqR : q.1 ∈ D.filter (fun d => d ∉ (pfGo env fuel st fu D [] incs).2)
    · rw [if_pos hqR]
      rcases List.mem_filter.mp hqR with ⟨hqD, hqnp⟩
      have hqnP : q.1 ∉ (pfGo env fuel st fu D [] incs).2 := of_decide_eq_true hqnp
      have e1 : ind (q.1 ∈ (pfGo env fuel st fu D [] incs).2) = 0 := by
        simp only [ind]
        rw [if_neg hqnP]
      have e2 : ind (q.1 ∈ D) = 1 := by
        simp only [ind]
        rw [if_pos hqD]
      rw [hlst, e1, e2]
      have := hbase q.1
      simp only []
      omega
    · rw [if_neg hqR]
      by_cases hqD : q.1 ∈ D
      · have hqP : q.1 ∈ (pfGo env fuel st fu D [] incs).2 := by
          by_contra h
          exact hqR (List.mem_filter.mpr ⟨hqD, decide_eq_true h⟩)
        have e1 : ind (q.1 ∈ (pfGo env fuel st fu D [] incs).2) = 1 := by
          simp only [ind]
          rw [if_pos hqP]
        have e2 : ind (q.1 ∈ D) = 1 := by
          simp only [ind]
          rw [if_pos hqD]
        rw [hlst, e1, e2]
        have := hbase q.1
        omega
      · have e2 : ind (q.1 ∈ D) = 0 := by
          simp only [ind]
          rw [if_neg hqD]
        by_cases hqP : q.1 ∈ (pfGo env fuel st fu D [] incs).2
        · have e1 : ind (q.1 ∈ (pfGo env fuel st fu D [] incs).2) = 1 := by
            simp only [ind]
            rw [if_pos hqP]
          have hstep := ge q.1 hqP (List.not_mem_nil q.1) hqD
          rw [hqv] at hstep
          simp only [Option.getD_some] at hstep
          rw [hlst, e1, e2]
          have := hbase q.1
          omega
        · have e1 : ind (q.1 ∈ (pfGo env fuel st fu D [] incs).2) = 0 := by
            simp only [ind]
            rw [if_neg hqP]
          rw [hlst, e1, e2]
          have := hbase q.1
          omega
  · rw [hnodes, akeys_releaseMany _ hRnodup]
    exact houtNodup
  · rw [hods, akeys_setA, ga]
    exact h3
  · intro p hp
    rw [hods, ga] at hp
    rcases List.mem_map.mp hp with ⟨q, hq, rfl⟩
    by_cases hqfu : q.1 = fu
    · simp only [if_pos hqfu]
      exact hPnodup
    · simp only [if_neg hqfu]
      exact h4 q hq
  · intro p hp i hi
    rw [hods, ga] at hp
    rw [hnodes, akeys_releaseMany _ hRnodup]
    rcases List.mem_map.mp hp with ⟨q, hq, rfl⟩
    by_cases hqfu : q.1 = fu
    · simp only [if_pos hqfu] at hi
      exact gf i hi (List.not_mem_nil i)
    · simp only [if_neg hqfu] at hi
      exact gb i (h5 q hq i hi)

lemma sweep_lb (st : DepState) (hH : DepLB st) : DepLB (sweepModel st) := by
  obtain ⟨h1, h2, h3, h4, h5⟩ := hH
  have hroots : ∀ fuel s, ∀ x ∈ s, x ∈ reachIter st.depRecords fuel s := by
    intro fuel
    induction fuel with
    | zero =>
      intro s x hx
      exact hx
    | succ n ihn =>
      intro s x hx
      exact ihn (reachStep st.depRecords s) x (List.mem_append_left _ hx)
  refine ⟨?_, ?_, h3, h4, ?_⟩
  · intro p hp
    exact h1 p (List.mem_of_mem_filter hp)
  · exact h2.sublist ((List.filter_sublist _).map _)
  · intro p hp i hi
    have hik : i ∈ akeys st.nodes := h5 p hp i hi
    rcases List.mem_map.mp hik with ⟨q, hq, rfl⟩
    have hreach : q.1 ∈ reachIter st.depRecords (st.depRecords.length + 1)
        ((st.openDocs.map (·.2)).join) := by
      apply hroots
      exact List.mem_join.mpr ⟨p.2, List.mem_map.mpr ⟨p, hp, rfl⟩, hi⟩
    exact List.mem_map.mpr ⟨q, List.mem_filter.mpr ⟨hq, by simpa using hreach⟩, rfl⟩

lemma close_lb (st : DepState) (u : String) (D : List String)
    (hfind : alookup st.openDocs u = some D) (hH : DepLB st) :
    DepLB ⟨releaseMany st.nodes D,
           st.openDocs.filter (fun p => decide (¬ p.1 = u)), st.depRecords⟩ := by
  obtain ⟨h1, h2, h3, h4, h5⟩ := hH
  have hDmem : (u, D) ∈ st.openDocs := alookup_mem hfind
  have hDnodup : D.Nodup := h4 (u, D) hDmem
  have hcnt : ∀ v, (countL (st.openDocs.filter (fun p => decide (¬ p.1 = u))) v : Int)
      = countL st.openDocs v - ind (v ∈ D) := countL_filter_out st.openDocs u D h3 hfind
  refine ⟨?_, ?_, ?_, ?_, ?_⟩
  · intro p hp
    simp only [] at hp
    rw [releaseMany_map D hDnodup] at hp
    rcases List.mem_map.mp hp with ⟨q, hq, rfl⟩
    have hqb := h1 q hq
    by_cases hqD : q.1 ∈ D
    · rw [if_pos hqD]
      have e : ind (q.1 ∈ D) = 1 := by
        simp only [ind]
        rw [if_pos hqD]
      simp only []
      rw [hcnt, e]
      omega
    · rw [if_neg hqD]
      have e : ind (q.1 ∈ D) = 0 := by
        simp only [ind]
        rw [if_neg hqD]
      rw [hcnt, e]
      omega
  · simp only []
    rw [akeys_releaseMany D hDnodup]
    exact h2
  · exact h3.sublist ((List.filter_sublist _).map _)
  · intro p hp
    exact h4 p (List.mem_of_mem_filter hp)
  · intro p hp i hi
    simp only []
    rw [akeys_releaseMany D hDnodup]
    exact h5 p (List.mem_of_mem_filter hp) i hi

lemma open_lb (st : DepState) (u : String)
    (hfresh : alookup st.openDocs u = none) (hH : DepLB st) :
    DepLB ⟨st.nodes, st.openDocs ++ [(u, [])], st.depRecords⟩ := by
  obtain ⟨h1, h2, h3, h4, h5⟩ := hH
  have hu : u ∉ akeys st.openDocs := alookup_eq_none.mp hfresh
  have hcnt : ∀ v, countL (st.openDocs ++ [(u, [])]) v = countL st.openDocs v := by
    intro v
    rw [countL_append]
    have hz : countL [(u, [])] v = 0 :=
      countL_flat (by
        intro p hp
        rcases List.mem_singleton.mp hp with rfl
        rfl) v
    omega
  refine ⟨?_, h2, ?_, ?_, ?_⟩
  · intro p hp
    simp only []
    rw [hcnt]
    exact h1 p hp
  · simp only [akeys, List.map_append, List.map_cons, List.map_nil]
    rw [List.nodup_append]
    refine ⟨h3, List.nodup_singleton u, ?_⟩
    intro a ha hb
    rcases List.mem_singleton.mp hb with rfl
    exact hu ha
  · intro p hp
    rcases List.mem_append.mp hp with hp' | hp'
    · exact h4 p hp'
    · rcases List.mem_singleton.mp hp' with rfl
      exact List.nodup_nil
  · intro p hp i hi
    rcases List.mem_append.mp hp with hp' | hp'
    · exact h5 p hp' i hi
    · rcases List.mem_singleton.mp hp' with rfl
      exact absurd hi (List.not_mem_nil i)

lemma depLB_init : DepLB depInit := by
  refine ⟨?_, List.nodup_nil, List.nodup_nil, ?_, ?_⟩ <;>
    intro p hp <;> exact absurd hp (List.not_mem_nil p)

lemma depStep_lb (env : String → List String) (st : DepState) (e : DepEvent)
    (hok : evOK st e) (hH : DepLB st) : DepLB (depStep env st e) := by
  cases e with
  | openDoc u incs =>
    obtain ⟨hfresh, hincs⟩ := hok
    simp only [depStep, hfresh, Option.isSome_none, Bool.false_eq_true, if_false]
    apply sweep_lb
    have hfind : alookup (st.openDocs ++ [(u, [])]) u = some [] :=
      alookup_append_right_fresh [] hfresh
    exact parse_lb env (incs.length + 1) ⟨st.nodes, st.openDocs ++ [(u, [])], st.depRecords⟩
      u incs [] hfind hincs (open_lb st u hfresh hH)
  | reparse u incs =>
    simp only [depStep]
    by_cases hs : (alookup st.openDocs u).isSome
    · rw [if_pos hs]
      obtain ⟨D, hD⟩ := Option.isSome_iff_exists.mp hs
      exact sweep_lb _ (parse_lb env (incs.length + 1) st u incs D hD hok hH)
    · rw [if_neg hs]
      exact hH
  | closeDoc u =>
    rcases hD : alookup st.openDocs u with _ | D
    · simp only [depStep, hD]
      exact hH
    · simp only [depStep, hD]
      exact sweep_lb _ (close_lb st u D hD hH)

lemma runDep_lb (env : String → List String) :
    ∀ (evs : List DepEvent) (st : DepState), DepLB st → wfEvents env st evs →
      DepLB (List.foldl (depStep env) st evs) := by
  intro evs
  induction evs with
  | nil =>
    intro st h _
    exact h
  | cons e es ih =>
    intro st h hwf
    exact ih (depStep env st e) (depStep_lb env st e hwf.1 h) hwf.2

/-- A dependency environment with one nested include: file `g` includes
`h`; every other file includes nothing. -/
def envNested : String → List String := fun u => if u = "g" then ["h"] else []

/-- C3 (counterexample to the original claim, two parts).  First, a
document whose inclusion list resolves the same header twice: the first
occurrence creates the node (count 1) and the second increments it again —
the registration loop checks the OLD dependency list, which does not yet
contain the node — so the count reaches 2 while exactly one file record
lists the header.  Second, dependency-record drift on a nested include
graph: with `g` including `h`, after opening `A` (includes `h`) and `B`
(includes `g`) and then reparsing `B` with no inclusions, the sweep deletes
the unreachable record of `g` without releasing its reference to `h`, so
the surviving node `h` keeps count 2 while only one record lists it — on a
trace that is well-formed (fresh opens, duplicate-free lists). -/
theorem C3_refcount_counterexample :
    (alookup (runDep (fun _ => []) [DepEvent.openDoc "A" ["h", "h"]]).nodes "h" = some 2
     ∧ listersCount (runDep (fun _ => []) [DepEvent.openDoc "A" ["h", "h"]]) "h" = 1)
    ∧ (wfEvents envNested depInit
         [DepEvent.openDoc "A" ["h"], DepEvent.openDoc "B" ["g"], DepEvent.reparse "B" []]
       ∧ alookup (runDep envNested
           [DepEvent.openDoc "A" ["h"], DepEvent.openDoc "B" ["g"],
            DepEvent.reparse "B" []]).nodes "h" = some 2
       ∧ listersCount (runDep envNested
           [DepEvent.openDoc "A" ["h"], DepEvent.openDoc "B" ["g"],
            DepEvent.reparse "B" []]) "h" = 1) := by
  refine ⟨⟨by decide, by decide⟩, ⟨⟨?_, ?_⟩, ⟨?_, ?_⟩, ?_, trivial⟩, by decide, by decide⟩
  · decide
  · decide
  · decide
  · decide
  · exact (by decide : ([] : List String).Nodup)

/-- C3 (amended): on every well-formed trace (a file is opened only when
not already open, no inclusion list resolves the same URI twice) over an
arbitrary include graph — nesting, diamonds and cycles included — each
registered node's reference count is at least the number of open documents
listing it as a direct dependency, and in particular never negative; when
additionally the include graph is flat (dependency files with no own
inclusions, forced by the drift counterexample) the count exactly equals
the number of file records — open documents or dependency records —
listing it.  The spec's `shared.inc` scenario holds concretely: two opens
yield count 2, one close leaves 1, the second close lets the sweep remove
the node. -/
theorem C3_dependency_refcounts (env : String → List String)
    (evs : List DepEvent) (hwf : wfEvents env depInit evs) :
    (∀ p ∈ (runDep env evs).nodes,
        (countL (runDep env evs).openDocs p.1 : Int) ≤ p.2 ∧ 0 ≤ p.2)
    ∧ ((∀ d, env d = []) → ∀ p ∈ (runDep env evs).nodes,
        p.2 = (listersCount (runDep env evs) p.1 : Int))
    ∧ alookup (runDep (fun _ => [])
        [DepEvent.openDoc "A" ["s"], DepEvent.openDoc "B" ["s"]]).nodes "s" = some 2
    ∧ alookup (runDep (fun _ => [])
        [DepEvent.openDoc "A" ["s"], DepEvent.openDoc "B" ["s"],
         DepEvent.closeDoc "A"]).nodes "s" = some 1
    ∧ (runDep (fun _ => [])
        [DepEvent.openDoc "A" ["s"], DepEvent.openDoc "B" ["s"],
         DepEvent.closeDoc "A", DepEvent.closeDoc "B"]).nodes = [] := by
  refine ⟨?_, ?_, by decide, by decide, by decide⟩
  · have hinv := runDep_lb env evs depInit depLB_init hwf
    intro p hp
    have h1 := hinv.1 p hp
    refine ⟨h1, le_trans (Int.natCast_nonneg _) h1⟩
  · intro hflat
    have hinv := runDep_inv env hflat evs depInit depInit_inv hwf
    exact fun p hp => hinv.1 p hp

theorem C3_dependency_refcounts_witness :
    ((countL (runDep (fun _ => []) [DepEvent.openDoc "A" ["h"]]).openDocs "h" : Int) ≤ 1
     ∧ (0 : Int) ≤ 1) :=
  (C3_dependency_refcounts (fun _ => []) [DepEvent.openDoc "A" ["h"]]
    ⟨⟨rfl, by decide⟩, trivial⟩).1 ("h", 1) (by decide)
